import Mathlib

/-!
Verification development for the fito repository: a shallow embedding of the
Spec type system (src/fito/specs/base.py), the model hyperparameter grid
generator (src/fito/model/model.py) and the Mongo-backed data store
(src/fito/data_store/mongo.py), together with proofs about canonical keys,
construction validation, grid enumeration and store lookup.

Python values are modelled by the inductive type `PyVal`: JSON-representable
primitives (None, bool, int, str), lists, dicts (association lists whose
iteration order is the deterministic order CPython produces for a fixed
construction sequence) and Spec instances (`pspec`, carrying the class name and
the attribute assignment).  Python floats are outside the model.  Tuples are
folded into lists (`json.dumps` serializes both as JSON arrays, so the
canonical-key layer cannot distinguish them).
-/

namespace Fito

/-- A Python value as used by fito's spec layer: JSON primitives, lists,
dicts (association lists), and Spec instances. -/
inductive PyVal where
  | pnone
  | pbool (b : Bool)
  | pint (n : Int)
  | pstr (s : String)
  | plist (elems : List PyVal)
  | pdict (pairs : List (String × PyVal))
  | pspec (cls : String) (fields : List (String × PyVal))

/-- A Spec instance, as produced by `Spec.__init__`: the class name together
with the attribute dictionary written by the final `setattr` loop. -/
abbrev Inst := String × List (String × PyVal)

/-- Lookup in a Python dict modelled as an association list (`d.get(k)`). -/
def pyGet : List (String × PyVal) → String → Option PyVal
  | [], _ => none
  | (k, v) :: rest, key => if k = key then some v else pyGet rest key

/-- Python dict assignment `d[k] = v`: replaces the value in place when the
key is present (CPython keeps the slot), appends otherwise. -/
def pyInsert : List (String × PyVal) → String → PyVal → List (String × PyVal)
  | [], key, v => [(key, v)]
  | (k, w) :: rest, key, v =>
    if k = key then (k, v) :: rest else (k, w) :: pyInsert rest key v

/-- Python dict `d.pop(k)`: drops the entry for `k` (dict keys are unique). -/
def removeKey : List (String × PyVal) → String → List (String × PyVal)
  | [], _ => []
  | (k, v) :: rest, key => if k = key then rest else (k, v) :: removeKey rest key

/-- The key list of a dict. -/
def keysOf (ps : List (String × PyVal)) : List String := ps.map Prod.fst

/-- `dict(pairs)` over an association pair list: later entries overwrite
earlier ones, as in Python. -/
def pyDictOf (l : List (String × PyVal)) : List (String × PyVal) :=
  l.foldl (fun acc p => pyInsert acc p.1 p.2) []

/-- One step of the stable insertion sort used to model Python's
`sorted(d.iteritems(), key=lambda x: x[0])`. -/
def insertPair (p : String × PyVal) : List (String × PyVal) → List (String × PyVal)
  | [] => [p]
  | q :: qs => if p.1 ≤ q.1 then p :: q :: qs else q :: insertPair p qs

/-- Sort an association list by key (Python's `sorted` on the first tuple
component; stable, which is irrelevant here because dict keys are unique). -/
def sortPairs : List (String × PyVal) → List (String × PyVal)
  | [] => []
  | p :: ps => insertPair p (sortPairs ps)

/-- Map over the values of an association list, keeping keys. -/
def mapVal (f : PyVal → PyVal) : List (String × PyVal) → List (String × PyVal)
  | [] => []
  | (k, v) :: rest => (k, f v) :: mapVal f rest

@[simp] theorem keysOf_nil : keysOf [] = [] := rfl

@[simp] theorem keysOf_cons (p : String × PyVal) (rest : List (String × PyVal)) :
    keysOf (p :: rest) = p.1 :: keysOf rest := rfl

theorem pyGet_eq_none_iff (ps : List (String × PyVal)) (k : String) :
    pyGet ps k = none ↔ k ∉ keysOf ps := by
  induction ps with
  | nil => simp [pyGet]
  | cons p rest ih =>
    obtain ⟨k0, v0⟩ := p
    by_cases h : k0 = k
    · subst h
      simp [pyGet]
    · simp only [pyGet, if_neg h, keysOf_cons, List.mem_cons, ih]
      constructor
      · intro hx hor
        rcases hor with hor | hor
        · exact h hor.symm
        · exact hx hor
      · intro hx hmem
        exact hx (Or.inr hmem)

theorem pyGet_isSome_iff (ps : List (String × PyVal)) (k : String) :
    (pyGet ps k).isSome = true ↔ k ∈ keysOf ps := by
  rcases h : pyGet ps k with _ | v
  · simp only [Option.isSome_none, Bool.false_eq_true, false_iff]
    exact (pyGet_eq_none_iff ps k).1 h
  · simp only [Option.isSome_some, true_iff]
    by_contra hk
    rw [(pyGet_eq_none_iff ps k).2 hk] at h
    exact Option.noConfusion h

/-- Permuted association lists with unique keys have equal lookups. -/
theorem pyGet_perm {ps qs : List (String × PyVal)} (hp : ps.Perm qs) :
    (keysOf ps).Nodup → ∀ k, pyGet ps k = pyGet qs k := by
  induction hp with
  | nil => exact fun _ _ => rfl
  | cons p hrest ih =>
    intro hnd k
    obtain ⟨k0, v0⟩ := p
    simp only [keysOf, List.map_cons, List.nodup_cons] at hnd
    by_cases h : k0 = k <;> simp [pyGet, h, ih hnd.2 k]
  | swap p q rest =>
    intro hnd k
    obtain ⟨k0, v0⟩ := p
    obtain ⟨k1, v1⟩ := q
    simp only [keysOf, List.map_cons, List.nodup_cons, List.mem_cons] at hnd
    by_cases h0 : k1 = k
    · subst h0
      have hne : ¬ (k0 = k1) := fun h => hnd.1 (Or.inl h.symm)
      simp [pyGet, hne]
    · by_cases h1 : k0 = k <;> simp [pyGet, h0, h1]
  | trans h12 h23 ih12 ih23 =>
    intro hnd k
    rw [ih12 hnd k]
    exact ih23 ((h12.map Prod.fst).nodup_iff.1 hnd) k

theorem insertPair_perm (p : String × PyVal) (ps : List (String × PyVal)) :
    (insertPair p ps).Perm (p :: ps) := by
  induction ps with
  | nil => simp [insertPair]
  | cons q qs ih =>
    by_cases h : p.1 ≤ q.1
    · simp [insertPair, h]
    · simp only [insertPair, if_neg h]
      exact (ih.cons q).trans (List.Perm.swap p q qs)

theorem sortPairs_perm (ps : List (String × PyVal)) : (sortPairs ps).Perm ps := by
  induction ps with
  | nil => simp [sortPairs]
  | cons p rest ih =>
    exact (insertPair_perm p (sortPairs rest)).trans (ih.cons p)

/-- The key-ordering relation used by the canonical-key sort. -/
def keyLe (p q : String × PyVal) : Prop := p.1 ≤ q.1

theorem insertPair_sorted {ps : List (String × PyVal)} (hs : ps.Sorted keyLe)
    (p : String × PyVal) : (insertPair p ps).Sorted keyLe := by
  induction ps with
  | nil => simp [insertPair, List.Sorted]
  | cons q qs ih =>
    by_cases h : p.1 ≤ q.1
    · simp only [insertPair, if_pos h]
      refine List.sorted_cons.2 ⟨?_, hs⟩
      intro b hb
      rcases List.mem_cons.1 hb with hb | hb
      · subst hb; exact h
      · exact le_trans h ((List.sorted_cons.1 hs).1 b hb)
    · simp only [insertPair, if_neg h]
      refine List.sorted_cons.2 ⟨?_, ih (List.sorted_cons.1 hs).2⟩
      intro b hb
      rcases List.mem_cons.1 ((insertPair_perm p qs).mem_iff.1 hb) with hb | hb
      · subst hb; exact le_of_not_le h
      · exact (List.sorted_cons.1 hs).1 b hb

theorem sortPairs_sorted (ps : List (String × PyVal)) : (sortPairs ps).Sorted keyLe := by
  induction ps with
  | nil => simp [sortPairs, List.Sorted]
  | cons p rest ih => exact insertPair_sorted ih p

/-- The strict key ordering: sorted-with-unique-keys lists are sorted by it. -/
def keyLt (p q : String × PyVal) : Prop := p.1 < q.1

theorem sorted_keyLt_of_sorted_nodup {ps : List (String × PyVal)}
    (hs : ps.Sorted keyLe) (hnd : (keysOf ps).Nodup) : ps.Sorted keyLt := by
  induction ps with
  | nil => simp [List.Sorted]
  | cons p rest ih =>
    simp only [keysOf, List.map_cons, List.nodup_cons] at hnd
    refine List.sorted_cons.2 ⟨?_, ih (List.sorted_cons.1 hs).2 hnd.2⟩
    intro b hb
    refine lt_of_le_of_ne ((List.sorted_cons.1 hs).1 b hb) ?_
    intro hcontra
    exact hnd.1 (hcontra ▸ List.mem_map_of_mem Prod.fst hb)

/-- Two permuted association lists with unique keys sort to the same list:
the canonical-key pair ordering is deterministic. -/
theorem sortPairs_eq_of_perm {ps qs : List (String × PyVal)} (hp : ps.Perm qs)
    (hnd : (keysOf ps).Nodup) : sortPairs ps = sortPairs qs := by
  have h1 : (sortPairs ps).Perm (sortPairs qs) :=
    (sortPairs_perm ps).trans (hp.trans (sortPairs_perm qs).symm)
  have hndp : (keysOf (sortPairs ps)).Nodup :=
    (((sortPairs_perm ps).map Prod.fst).nodup_iff).2 hnd
  have hndq : (keysOf qs).Nodup := ((hp.map Prod.fst).nodup_iff).1 hnd
  have hndq' : (keysOf (sortPairs qs)).Nodup :=
    (((sortPairs_perm qs).map Prod.fst).nodup_iff).2 hndq
  haveI : IsAntisymm (String × PyVal) keyLt :=
    ⟨fun a b hab hba => absurd (lt_trans hab hba) (lt_irrefl _)⟩
  exact List.eq_of_perm_of_sorted h1
    (sorted_keyLt_of_sorted_nodup (sortPairs_sorted ps) hndp)
    (sorted_keyLt_of_sorted_nodup (sortPairs_sorted qs) hndq')

theorem insertPair_mapVal (f : PyVal → PyVal) (p : String × PyVal)
    (ps : List (String × PyVal)) :
    insertPair (p.1, f p.2) (mapVal f ps) = mapVal f (insertPair p ps) := by
  induction ps with
  | nil => simp [insertPair, mapVal]
  | cons q qs ih =>
    obtain ⟨kq, vq⟩ := q
    by_cases h : p.1 ≤ kq <;> simp [insertPair, mapVal, h, ih]

/-- Sorting by key commutes with mapping over values. -/
theorem sortPairs_mapVal (f : PyVal → PyVal) (ps : List (String × PyVal)) :
    sortPairs (mapVal f ps) = mapVal f (sortPairs ps) := by
  induction ps with
  | nil => simp [sortPairs, mapVal]
  | cons p rest ih =>
    simp only [mapVal, sortPairs, ih]
    exact insertPair_mapVal f p (sortPairs rest)

theorem keysOf_mapVal (f : PyVal → PyVal) (ps : List (String × PyVal)) :
    keysOf (mapVal f ps) = keysOf ps := by
  induction ps with
  | nil => rfl
  | cons p rest ih => obtain ⟨k, v⟩ := p; simp [mapVal, keysOf] at ih ⊢; exact ih

theorem pyGet_mapVal (f : PyVal → PyVal) (ps : List (String × PyVal)) (k : String) :
    pyGet (mapVal f ps) k = (pyGet ps k).map f := by
  induction ps with
  | nil => simp [mapVal, pyGet]
  | cons p rest ih =>
    obtain ⟨k0, v0⟩ := p
    by_cases h : k0 = k <;> simp [mapVal, pyGet, h, ih]

/-!
### JSON encoding and decoding

`Spec.key` JSON-encodes the transformed dict form (`json.dumps`), and
`Spec.key2spec` decodes it (`json.loads`).  Both are external library
functions; they are modelled on the JSON fragment the canonical-key layer
produces: null / booleans / arbitrary-precision integers / strings over
escape-free printable ASCII (the `goodChar` alphabet) / arrays / objects,
printed with the default separators of `json.dumps` and parsed back in that
exact canonical layout.  The model excludes floats and strings that would
need escape sequences.
-/

/-- Characters that `json.dumps` emits verbatim inside a string literal:
printable ASCII without the quote and the backslash. -/
def goodChar (c : Char) : Bool :=
  decide (0x20 ≤ c.toNat) && decide (c.toNat < 0x7f) && !(c = '"') && !(c = '\\')

/-- Strings over the escape-free alphabet. -/
def goodStr (s : String) : Bool := s.data.all goodChar

/-- Decimal digit characters of `n`, most significant first. -/
def natChars (n : Nat) : List Char :=
  if n < 10 then [Char.ofNat (48 + n)]
  else natChars (n / 10) ++ [Char.ofNat (48 + n % 10)]
termination_by n
decreasing_by exact Nat.div_lt_self (by omega) (by omega)

/-- The decimal rendering of an integer, as `json.dumps` emits it. -/
def intChars (i : Int) : List Char :=
  if i < 0 then '-' :: natChars i.natAbs else natChars i.natAbs

mutual

/-- The character stream `json.dumps` produces for a value, with the default
separators.  The `pspec` case is unreachable on serialized dict forms (a raw
Spec object would make `json.dumps` raise a TypeError); it is mapped to the
`null` text so the function stays total. -/
def jchars : PyVal → List Char
  | .pnone => ['n', 'u', 'l', 'l']
  | .pbool true => ['t', 'r', 'u', 'e']
  | .pbool false => ['f', 'a', 'l', 's', 'e']
  | .pint n => intChars n
  | .pstr s => '"' :: (s.data ++ ['"'])
  | .plist l => '[' :: (jcharsItems l ++ [']'])
  | .pdict ps => '\x7b' :: (jcharsPairs ps ++ ['\x7d'])
  | .pspec _ _ => ['n', 'u', 'l', 'l']

/-- Array elements: first element then separated tail. -/
def jcharsItems : List PyVal → List Char
  | [] => []
  | v :: rest => jchars v ++ jcharsItemsSep rest

/-- `", "`-separated continuation of an array body. -/
def jcharsItemsSep : List PyVal → List Char
  | [] => []
  | v :: rest => ',' :: ' ' :: (jchars v ++ jcharsItemsSep rest)

/-- Object members: first `"key": value` member then separated tail. -/
def jcharsPairs : List (String × PyVal) → List Char
  | [] => []
  | (k, v) :: rest =>
    '"' :: (k.data ++ '"' :: ':' :: ' ' :: (jchars v ++ jcharsPairsSep rest))

/-- `", "`-separated continuation of an object body. -/
def jcharsPairsSep : List (String × PyVal) → List Char
  | [] => []
  | (k, v) :: rest =>
    ',' :: ' ' :: ('"' :: (k.data ++ '"' :: ':' :: ' ' :: (jchars v ++ jcharsPairsSep rest)))

end

/-- `json.dumps` on the canonical-key fragment. -/
def jdumps (v : PyVal) : String := String.mk (jchars v)

mutual

/-- Values free of Spec objects whose strings (and object keys) live in the
escape-free alphabet: exactly the values `json.dumps` round-trips. -/
def goodJson : PyVal → Bool
  | .pnone => true
  | .pbool _ => true
  | .pint _ => true
  | .pstr s => goodStr s
  | .plist l => goodJsonList l
  | .pdict ps => goodJsonPairs ps
  | .pspec _ _ => false

def goodJsonList : List PyVal → Bool
  | [] => true
  | v :: rest => goodJson v && goodJsonList rest

def goodJsonPairs : List (String × PyVal) → Bool
  | [] => true
  | (k, v) :: rest => goodStr k && goodJson v && goodJsonPairs rest

end

def isDigitCh (c : Char) : Bool := decide (48 ≤ c.toNat) && decide (c.toNat ≤ 57)

/-- Split a leading run of decimal digits. -/
def takeDigits : List Char → List Char × List Char
  | [] => ([], [])
  | c :: rest =>
    if isDigitCh c then
      let r := takeDigits rest
      (c :: r.1, r.2)
    else ([], c :: rest)

def digitsToNat (ds : List Char) : Nat :=
  ds.foldl (fun acc c => 10 * acc + (c.toNat - 48)) 0

/-- Collect string-literal characters up to the closing quote. -/
def takeStr : List Char → Option (List Char × List Char)
  | [] => none
  | c :: rest =>
    if c = '"' then some ([], rest)
    else
      match takeStr rest with
      | some (s, r) => some (c :: s, r)
      | none => none

/-- Dispatch of the `null` literal after its first character. -/
def litNull : List Char → Option (PyVal × List Char)
  | 'u' :: 'l' :: 'l' :: r2 => some (.pnone, r2)
  | _ => none

/-- Dispatch of the `true` literal after its first character. -/
def litTrue : List Char → Option (PyVal × List Char)
  | 'r' :: 'u' :: 'e' :: r2 => some (.pbool true, r2)
  | _ => none

/-- Dispatch of the `false` literal after its first character. -/
def litFalse : List Char → Option (PyVal × List Char)
  | 'a' :: 'l' :: 's' :: 'e' :: r2 => some (.pbool false, r2)
  | _ => none

/-- Dispatch of a string literal after the opening quote. -/
def strLit (r : List Char) : Option (PyVal × List Char) :=
  match takeStr r with
  | some (s, r2) => some (.pstr (String.mk s), r2)
  | none => none

/-- Dispatch of a negative decimal literal after the minus sign. -/
def negLit (r : List Char) : Option (PyVal × List Char) :=
  match takeDigits r with
  | ([], _) => none
  | (ds, r2) => some (.pint (-(digitsToNat ds : Int)), r2)

/-- Dispatch of a nonnegative decimal literal. -/
def digitLit (c : Char) (r : List Char) : Option (PyVal × List Char) :=
  some (.pint (digitsToNat (takeDigits (c :: r)).1 : Int), (takeDigits (c :: r)).2)

/-- Dispatch of an array after the opening bracket: empty array, or wrap the
result of parsing the nonempty body. -/
def arrBranch : List Char → Option (List PyVal × List Char) → Option (PyVal × List Char)
  | ']' :: r2, _ => some (.plist [], r2)
  | _, some (l, r2) => some (.plist l, r2)
  | _, none => none

/-- Dispatch of an object after the opening brace. -/
def objBranch : List Char → Option (List (String × PyVal) × List Char) → Option (PyVal × List Char)
  | '\x7d' :: r2, _ => some (.pdict [], r2)
  | _, some (ps, r2) => some (.pdict ps, r2)
  | _, none => none

/-- After a parsed array element: close the array, or continue after a
separator with the already-parsed continuation result. -/
def itemsStep (v : PyVal) : List Char → Option (List PyVal × List Char) → Option (List PyVal × List Char)
  | ']' :: r2, _ => some ([v], r2)
  | ',' :: ' ' :: _, some (l, r3) => some (v :: l, r3)
  | ',' :: ' ' :: _, none => none
  | _, _ => none

/-- An object member's key and the input after the `": "` separator. -/
def pairsHead : List Char → Option (List Char × List Char)
  | '"' :: r =>
    match takeStr r with
    | some (k, ':' :: ' ' :: r2) => some (k, r2)
    | _ => none
  | _ => none

/-- After a parsed object member: close the object, or continue after a
separator with the already-parsed continuation result. -/
def pairsStep (k : List Char) (v : PyVal) :
    List Char → Option (List (String × PyVal) × List Char) → Option (List (String × PyVal) × List Char)
  | '\x7d' :: r4, _ => some ([(String.mk k, v)], r4)
  | ',' :: ' ' :: _, some (ps, r5) => some ((String.mk k, v) :: ps, r5)
  | ',' :: ' ' :: _, none => none
  | _, _ => none

mutual

/-- `json.loads` on the canonical layout: a recursive-descent parser over the
exact character stream `jchars` emits (the only shape `key2spec` ever decodes).
The fuel argument bounds recursion depth and models Python's recursion limit;
`jparse` supplies more than enough for its input. -/
def parseVal : Nat → List Char → Option (PyVal × List Char)
  | 0, _ => none
  | _ + 1, [] => none
  | fuel + 1, c :: r =>
    if c = 'n' then litNull r
    else if c = 't' then litTrue r
    else if c = 'f' then litFalse r
    else if c = '"' then strLit r
    else if c = '-' then negLit r
    else if c = '[' then arrBranch r (parseItems fuel r)
    else if c = '\x7b' then objBranch r (parsePairs fuel r)
    else if isDigitCh c then digitLit c r
    else none
termination_by fuel _ => (fuel, 0)

/-- Parse a nonempty array body and its closing bracket. -/
def parseItems : Nat → List Char → Option (List PyVal × List Char)
  | 0, _ => none
  | fuel + 1, cs =>
    (parseVal (fuel + 1) cs).bind fun p =>
      itemsStep p.1 p.2 (parseItems fuel (p.2.drop 2))
termination_by fuel _ => (fuel, 1)

/-- Parse a nonempty object body and its closing brace. -/
def parsePairs : Nat → List Char → Option (List (String × PyVal) × List Char)
  | 0, _ => none
  | fuel + 1, cs =>
    (pairsHead cs).bind fun kr =>
      (parseVal (fuel + 1) kr.2).bind fun p =>
        pairsStep kr.1 p.1 p.2 (parsePairs fuel (p.2.drop 2))
termination_by fuel _ => (fuel, 1)

end

/-- `json.loads`: parse a complete document (no trailing input allowed). -/
def jparse (s : String) : Option PyVal :=
  match parseVal (s.data.length + 1) s.data with
  | some (v, []) => some v
  | _ => none

/-- Input that cannot extend a decimal literal: empty, or starting with a
non-digit.  Every continuation the canonical layout produces satisfies it. -/
def boundary : List Char → Bool
  | [] => true
  | c :: _ => !(isDigitCh c)

theorem toNat_digitChar (d : Nat) (h : d < 10) : (Char.ofNat (48 + d)).toNat = 48 + d := by
  interval_cases d <;> decide

theorem isDigitCh_digitChar (d : Nat) (h : d < 10) : isDigitCh (Char.ofNat (48 + d)) = true := by
  interval_cases d <;> decide

theorem natChars_ne_nil (n : Nat) : natChars n ≠ [] := by
  rw [natChars]
  by_cases h : n < 10 <;> simp [h]

theorem natChars_digits (n : Nat) : ∀ c ∈ natChars n, isDigitCh c = true := by
  induction n using Nat.strong_induction_on with
  | _ n ih =>
    rw [natChars]
    by_cases h : n < 10
    · simp only [if_pos h, List.mem_singleton]
      intro c hc
      subst hc
      exact isDigitCh_digitChar n h
    · simp only [if_neg h, List.mem_append, List.mem_singleton]
      intro c hc
      rcases hc with hc | hc
      · exact ih (n / 10) (Nat.div_lt_self (by omega) (by omega)) c hc
      · subst hc
        exact isDigitCh_digitChar (n % 10) (Nat.mod_lt _ (by omega))

theorem digitsToNat_append_digit (l : List Char) (c : Char) :
    digitsToNat (l ++ [c]) = 10 * digitsToNat l + (c.toNat - 48) := by
  simp [digitsToNat, List.foldl_append]

theorem digitsToNat_natChars (n : Nat) : digitsToNat (natChars n) = n := by
  induction n using Nat.strong_induction_on with
  | _ n ih =>
    rw [natChars]
    by_cases h : n < 10
    · simp only [if_pos h]
      have : digitsToNat [Char.ofNat (48 + n)] = (Char.ofNat (48 + n)).toNat - 48 := by
        simp [digitsToNat]
      rw [this, toNat_digitChar n h]
      omega
    · simp only [if_neg h]
      rw [digitsToNat_append_digit, ih (n / 10) (Nat.div_lt_self (by omega) (by omega)),
        toNat_digitChar (n % 10) (Nat.mod_lt _ (by omega))]
      omega

theorem takeDigits_append (ds rest : List Char) (hds : ∀ c ∈ ds, isDigitCh c = true)
    (hrest : boundary rest = true) : takeDigits (ds ++ rest) = (ds, rest) := by
  induction ds with
  | nil =>
    cases rest with
    | nil => simp [takeDigits]
    | cons c t =>
      simp only [boundary, Bool.not_eq_true'] at hrest
      simp [takeDigits, hrest]
  | cons d t ih =>
    have hd : isDigitCh d = true := hds d (List.mem_cons_self d t)
    simp only [List.cons_append, takeDigits, if_pos hd, List.append_eq]
    rw [ih fun c hc => hds c (List.mem_cons_of_mem d hc)]

theorem goodChar_ne_quote {c : Char} (h : goodChar c = true) : ¬(c = '"') := by
  simp only [goodChar, Bool.and_eq_true, Bool.not_eq_true', decide_eq_true_eq] at h
  intro hq
  rw [hq] at h
  simp at h

theorem takeStr_append (s rest : List Char) (hs : ∀ c ∈ s, goodChar c = true) :
    takeStr (s ++ '"' :: rest) = some (s, rest) := by
  induction s with
  | nil => simp [takeStr]
  | cons c t ih =>
    have : ¬(c = '"') := goodChar_ne_quote (hs c (List.mem_cons_self c t))
    simp only [List.cons_append, takeStr, if_neg this, List.append_eq]
    rw [ih fun x hx => hs x (List.mem_cons_of_mem c hx)]

theorem digit_not_special {c : Char} (h : isDigitCh c = true) :
    ¬(c = 'n') ∧ ¬(c = 't') ∧ ¬(c = 'f') ∧ ¬(c = '"') ∧ ¬(c = '-') ∧
      ¬(c = '[') ∧ ¬(c = '\x7b') := by
  refine ⟨?_, ?_, ?_, ?_, ?_, ?_, ?_⟩ <;> (rintro rfl; revert h; decide)

theorem jchars_length_pos (v : PyVal) : 1 ≤ (jchars v).length := by
  cases v with
  | pbool b => cases b <;> simp [jchars]
  | pint n =>
    simp only [jchars, intChars]
    by_cases h : n < 0
    · simp [h]
    · simp only [if_neg h]
      cases hx : natChars n.natAbs with
      | nil => exact absurd hx (natChars_ne_nil _)
      | cons c t => simp
  | _ => simp [jchars]

/-- The first character a rendered value starts with is never a closing
bracket, a closing brace, or a comma. -/
theorem jchars_shape (v : PyVal) :
    ∃ c t, jchars v = c :: t ∧ ¬(c = ']') ∧ ¬(c = '\x7d') ∧ ¬(c = ',') := by
  cases v with
  | pnone => exact ⟨'n', _, rfl, by decide, by decide, by decide⟩
  | pbool b => cases b
                 <;> exact ⟨_, _, rfl, by decide, by decide, by decide⟩
  | pint n =>
    simp only [jchars, intChars]
    by_cases h : n < 0
    · exact ⟨'-', natChars n.natAbs, by simp [h], by decide, by decide, by decide⟩
    · cases hx : natChars n.natAbs with
      | nil => exact absurd hx (natChars_ne_nil _)
      | cons c t =>
        have hc : isDigitCh c = true := natChars_digits _ c (by rw [hx]; exact List.mem_cons_self c t)
        refine ⟨c, t, by simp [h, hx], ?_, ?_, ?_⟩ <;> (rintro rfl; revert hc; decide)
  | pstr s => exact ⟨'"', _, rfl, by decide, by decide, by decide⟩
  | plist l => exact ⟨'[', _, rfl, by decide, by decide, by decide⟩
  | pdict ps => exact ⟨'\x7b', _, rfl, by decide, by decide, by decide⟩
  | pspec c fs => exact ⟨'n', _, rfl, by decide, by decide, by decide⟩

theorem jcharsItemsSep_eq (v : PyVal) (l : List PyVal) :
    jcharsItemsSep (v :: l) = ',' :: ' ' :: jcharsItems (v :: l) := by
  simp [jcharsItemsSep, jcharsItems]

theorem jcharsPairsSep_eq (p : String × PyVal) (l : List (String × PyVal)) :
    jcharsPairsSep (p :: l) = ',' :: ' ' :: jcharsPairs (p :: l) := by
  obtain ⟨k, v⟩ := p
  simp [jcharsPairsSep, jcharsPairs]

theorem boundary_itemsSep (l : List PyVal) (rest : List Char) :
    boundary (jcharsItemsSep l ++ ']' :: rest) = true := by
  cases l with
  | nil => simp [jcharsItemsSep, boundary, isDigitCh]
  | cons v t => simp [jcharsItemsSep, boundary, isDigitCh]

theorem boundary_pairsSep (l : List (String × PyVal)) (rest : List Char) :
    boundary (jcharsPairsSep l ++ '\x7d' :: rest) = true := by
  cases l with
  | nil => simp [jcharsPairsSep, boundary, isDigitCh]
  | cons p t => obtain ⟨k, v⟩ := p; simp [jcharsPairsSep, boundary, isDigitCh]

theorem arrBranch_ne {c : Char} (t : List Char)
    (res : Option (List PyVal × List Char)) (h : ¬(c = ']')) :
    arrBranch (c :: t) res
      = (match res with
         | some (l, r2) => some (.plist l, r2)
         | none => none) := by
  rcases res with _ | ⟨l, r2⟩
  all_goals
    unfold arrBranch
    split <;> simp_all

theorem objBranch_ne {c : Char} (t : List Char)
    (res : Option (List (String × PyVal) × List Char)) (h : ¬(c = '\x7d')) :
    objBranch (c :: t) res
      = (match res with
         | some (ps, r2) => some (.pdict ps, r2)
         | none => none) := by
  rcases res with _ | ⟨ps, r2⟩
  all_goals
    unfold objBranch
    split <;> simp_all

theorem parseVal_digit_step (f : Nat) (c : Char) (r : List Char)
    (hc : isDigitCh c = true) :
    parseVal (f + 1) (c :: r) = digitLit c r := by
  obtain ⟨h1, h2, h3, h4, h5, h6, h7⟩ := digit_not_special hc
  simp [parseVal, h1, h2, h3, h4, h5, h6, h7, hc]

theorem parseVal_neg_step (f : Nat) (r : List Char) :
    parseVal (f + 1) ('-' :: r) = negLit r := by
  simp [parseVal]

theorem parseVal_str_step (f : Nat) (r : List Char) :
    parseVal (f + 1) ('"' :: r) = strLit r := by
  simp [parseVal]

theorem parseVal_arr_step (f : Nat) (r : List Char) :
    parseVal (f + 1) ('[' :: r) = arrBranch r (parseItems f r) := by
  simp [parseVal]

theorem parseVal_obj_step (f : Nat) (r : List Char) :
    parseVal (f + 1) ('\x7b' :: r) = objBranch r (parsePairs f r) := by
  simp [parseVal]

theorem pairsHead_eq (kd r2 : List Char) (hk : ∀ c ∈ kd, goodChar c = true) :
    pairsHead ('"' :: (kd ++ '"' :: ':' :: ' ' :: r2)) = some (kd, r2) := by
  simp only [pairsHead]
  rw [takeStr_append kd (':' :: ' ' :: r2) hk]
  rfl

mutual

/-- The canonical-layout parser inverts the printer on every good value:
`json.loads` is a left inverse of `json.dumps` on the canonical-key fragment. -/
theorem rtVal : ∀ (v : PyVal) (fuel : Nat) (rest : List Char),
    goodJson v = true → (jchars v).length < fuel → boundary rest = true →
    parseVal fuel (jchars v ++ rest) = some (v, rest)
  | .pnone, fuel, rest, _, hf, _ => by
    cases fuel with
    | zero => exact absurd hf (Nat.not_lt_zero _)
    | succ f => simp [jchars, parseVal, litNull]
  | .pbool b, fuel, rest, _, hf, _ => by
    cases fuel with
    | zero => exact absurd hf (Nat.not_lt_zero _)
    | succ f => cases b <;> simp [jchars, parseVal, litTrue, litFalse]
  | .pint n, fuel, rest, _, hf, hb => by
    cases fuel with
    | zero => exact absurd hf (Nat.not_lt_zero _)
    | succ f =>
      by_cases hneg : n < 0
      · have harg : jchars (.pint n) ++ rest = '-' :: (natChars n.natAbs ++ rest) := by
          simp [jchars, intChars, hneg]
        rw [harg, parseVal_neg_step]
        simp only [negLit]
        rw [takeDigits_append _ _ (natChars_digits _) hb]
        cases hx : natChars n.natAbs with
        | nil => exact absurd hx (natChars_ne_nil _)
        | cons c t =>
          show some (PyVal.pint (-(digitsToNat (c :: t) : Int)), rest)
              = some (PyVal.pint n, rest)
          rw [← hx, digitsToNat_natChars]
          have hn : -(n.natAbs : Int) = n := by omega
          rw [hn]
      · have harg : jchars (.pint n) ++ rest = natChars n.natAbs ++ rest := by
          simp [jchars, intChars, hneg]
        rw [harg]
        cases hx : natChars n.natAbs with
        | nil => exact absurd hx (natChars_ne_nil _)
        | cons c t =>
          have hc : isDigitCh c = true :=
            natChars_digits _ c (by rw [hx]; exact List.mem_cons_self c t)
          have ht := takeDigits_append (c :: t) rest
            (by rw [← hx]; exact natChars_digits _) hb
          rw [List.cons_append] at ht
          rw [List.cons_append, parseVal_digit_step f c (t ++ rest) hc]
          simp only [digitLit]
          rw [ht]
          show some (PyVal.pint (digitsToNat (c :: t) : Int), rest)
              = some (PyVal.pint n, rest)
          rw [← hx, digitsToNat_natChars]
          have hn : (n.natAbs : Int) = n := by omega
          rw [hn]
  | .pstr s, fuel, rest, hg, hf, _ => by
    cases fuel with
    | zero => exact absurd hf (Nat.not_lt_zero _)
    | succ f =>
      have harg : jchars (.pstr s) ++ rest = '"' :: (s.data ++ '"' :: rest) := by
        simp [jchars]
      rw [harg]
      rw [parseVal_str_step]
      simp only [strLit]
      rw [takeStr_append s.data rest (by
        simp only [goodJson, goodStr] at hg
        exact fun c hc => List.all_eq_true.1 hg c hc)]
  | .plist [], fuel, rest, _, hf, _ => by
    cases fuel with
    | zero => exact absurd hf (Nat.not_lt_zero _)
    | succ f => simp [jchars, jcharsItems, parseVal, arrBranch]
  | .plist (v :: l), fuel, rest, hg, hf, _ => by
    cases fuel with
    | zero => exact absurd hf (Nat.not_lt_zero _)
    | succ f =>
      obtain ⟨c, t, hct, hc1, hc2, hc3⟩ := jchars_shape v
      have harg : jchars (.plist (v :: l)) ++ rest
          = '[' :: (c :: (t ++ (jcharsItemsSep l ++ ']' :: rest))) := by
        simp [jchars, jcharsItems, hct]
      rw [harg]
      rw [parseVal_arr_step]
      rw [arrBranch_ne _ _ hc1]
      have hfold : c :: (t ++ (jcharsItemsSep l ++ ']' :: rest))
          = jcharsItems (v :: l) ++ ']' :: rest := by
        simp [jcharsItems, hct]
      rw [hfold]
      have hlen : (jcharsItems (v :: l)).length < f := by
        have h0 : (jchars (.plist (v :: l))).length
            = (jcharsItems (v :: l)).length + 2 := by
          simp [jchars]
        omega
      rw [rtItems (v :: l) f rest (List.cons_ne_nil v l)
        (by simpa [goodJson] using hg) hlen]
  | .pdict [], fuel, rest, _, hf, _ => by
    cases fuel with
    | zero => exact absurd hf (Nat.not_lt_zero _)
    | succ f => simp [jchars, jcharsPairs, parseVal, objBranch]
  | .pdict (p :: ps), fuel, rest, hg, hf, _ => by
    cases fuel with
    | zero => exact absurd hf (Nat.not_lt_zero _)
    | succ f =>
      obtain ⟨k, v⟩ := p
      have harg : jchars (.pdict ((k, v) :: ps)) ++ rest
          = '\x7b' :: ('"' :: ((k.data ++ '"' :: ':' :: ' ' ::
              (jchars v ++ jcharsPairsSep ps)) ++ ('\x7d' :: rest))) := by
        simp [jchars, jcharsPairs]
      rw [harg]
      rw [parseVal_obj_step]
      rw [objBranch_ne _ _ (by decide)]
      have hfold : '"' :: ((k.data ++ '"' :: ':' :: ' ' ::
              (jchars v ++ jcharsPairsSep ps)) ++ ('\x7d' :: rest))
          = jcharsPairs ((k, v) :: ps) ++ '\x7d' :: rest := by
        simp [jcharsPairs]
      rw [hfold]
      have hlen : (jcharsPairs ((k, v) :: ps)).length < f := by
        have h0 : (jchars (.pdict ((k, v) :: ps))).length
            = (jcharsPairs ((k, v) :: ps)).length + 2 := by
          simp [jchars]
        omega
      rw [rtPairs ((k, v) :: ps) f rest (List.cons_ne_nil _ ps)
        (by simpa [goodJson] using hg) hlen]
  | .pspec c fs, fuel, rest, hg, _, _ => by
    simp [goodJson] at hg

/-- Array bodies round-trip: parsing the rendered members consumes exactly
them and the closing bracket. -/
theorem rtItems : ∀ (l : List PyVal) (fuel : Nat) (rest : List Char),
    l ≠ [] → goodJsonList l = true → (jcharsItems l).length < fuel →
    parseItems fuel (jcharsItems l ++ ']' :: rest) = some (l, rest)
  | [], _, _, hne, _, _ => absurd rfl hne
  | v :: l, fuel, rest, _, hg, hf => by
    cases fuel with
    | zero => exact absurd hf (Nat.not_lt_zero _)
    | succ f =>
      simp only [goodJsonList, Bool.and_eq_true] at hg
      have harg : jcharsItems (v :: l) ++ ']' :: rest
          = jchars v ++ (jcharsItemsSep l ++ ']' :: rest) := by
        simp [jcharsItems]
      rw [harg]
      simp only [parseItems]
      have hlenv : (jchars v).length < f + 1 := by
        have h0 : (jchars v).length ≤ (jcharsItems (v :: l)).length := by
          simp [jcharsItems]
        omega
      rw [rtVal v (f + 1) (jcharsItemsSep l ++ ']' :: rest) hg.1 hlenv
        (boundary_itemsSep l rest)]
      cases l with
      | nil => simp [jcharsItemsSep, itemsStep]
      | cons w ws =>
        rw [jcharsItemsSep_eq]
        simp only [Option.some_bind, List.cons_append, List.drop_succ_cons,
          List.drop_zero]
        have hlen2 : (jcharsItems (w :: ws)).length < f := by
          have h1 : (jcharsItems (v :: w :: ws)).length
              = (jchars v).length + (jcharsItemsSep (w :: ws)).length := by
            simp [jcharsItems]
          have h2 : (jcharsItemsSep (w :: ws)).length
              = 2 + (jcharsItems (w :: ws)).length := by
            rw [jcharsItemsSep_eq]; simp; omega
          have h3 := jchars_length_pos v
          omega
        rw [rtItems (w :: ws) f rest (List.cons_ne_nil w ws) hg.2 hlen2]
        simp [itemsStep]

/-- Object bodies round-trip: parsing the rendered members consumes exactly
them and the closing brace. -/
theorem rtPairs : ∀ (ps : List (String × PyVal)) (fuel : Nat) (rest : List Char),
    ps ≠ [] → goodJsonPairs ps = true → (jcharsPairs ps).length < fuel →
    parsePairs fuel (jcharsPairs ps ++ '\x7d' :: rest) = some (ps, rest)
  | [], _, _, hne, _, _ => absurd rfl hne
  | (k, v) :: ps, fuel, rest, _, hg, hf => by
    cases fuel with
    | zero => exact absurd hf (Nat.not_lt_zero _)
    | succ f =>
      simp only [goodJsonPairs, Bool.and_eq_true] at hg
      have harg : jcharsPairs ((k, v) :: ps) ++ '\x7d' :: rest
          = '"' :: (k.data ++ '"' :: ':' :: ' ' ::
              (jchars v ++ (jcharsPairsSep ps ++ '\x7d' :: rest))) := by
        simp [jcharsPairs]
      rw [harg]
      simp only [parsePairs]
      rw [pairsHead_eq k.data _ (by
        have hgk : goodStr k = true := hg.1.1
        simp only [goodStr] at hgk
        exact fun c hc => List.all_eq_true.1 hgk c hc)]
      simp only [Option.some_bind]
      have hlenv : (jchars v).length < f + 1 := by
        have h0 : (jchars v).length ≤ (jcharsPairs ((k, v) :: ps)).length := by
          simp [jcharsPairs]
          omega
        omega
      rw [rtVal v (f + 1) (jcharsPairsSep ps ++ '\x7d' :: rest) hg.1.2 hlenv
        (boundary_pairsSep ps rest)]
      simp only [Option.some_bind]
      have hmk : String.mk k.data = k := rfl
      cases ps with
      | nil => simp [jcharsPairsSep, pairsStep, hmk]
      | cons q qs =>
        rw [jcharsPairsSep_eq]
        simp only [List.cons_append, List.drop_succ_cons, List.drop_zero]
        have hlen2 : (jcharsPairs (q :: qs)).length < f := by
          have h1 : (jcharsPairs ((k, v) :: (q :: qs))).length
              = k.data.length + 4 + (jchars v).length
                + (jcharsPairsSep (q :: qs)).length := by
            simp [jcharsPairs]; omega
          have h2 : (jcharsPairsSep (q :: qs)).length
              = 2 + (jcharsPairs (q :: qs)).length := by
            rw [jcharsPairsSep_eq]; simp; omega
          have h3 := jchars_length_pos v
          omega
        rw [rtPairs (q :: qs) f rest (List.cons_ne_nil q qs) hg.2 hlen2]
        simp [pairsStep, hmk]

end

theorem jparse_jdumps (v : PyVal) (h : goodJson v = true) :
    jparse (jdumps v) = some v := by
  have hdata : (jdumps v).data = jchars v := rfl
  simp only [jparse, hdata]
  have := rtVal v ((jchars v).length + 1) [] h (Nat.lt_succ_self _) rfl
  rw [List.append_nil] at this
  rw [this]

/-!
### The canonical-key transform and its inverse

`Spec.__dict2key` recursively replaces every dict (reachable through dict
values) with the wrapper node `{transformed: true, dict: <pairs sorted by
key>}`, pairs being rendered as two-element arrays; `Spec.__key2dict` is its
inverse.  `dictCanon` is the net effect of a `dict2key`/`key2dict` round
trip: every dict in a dict chain comes back with its pairs sorted by key.
-/

/-- The errors the embedded fito code can raise.  `InvalidSpecInstance`
covers the first six constructors; the others model Python KeyError /
TypeError / ValueError / NotImplementedError / AssertionError /
ZeroDivisionError conditions raised by the source (plus `fuelExhausted`,
which models nontermination of unbounded recursion or retry loops). -/
inductive SpecErr where
  | tooManyPositional (given specified : Nat)
  | posKeyError (i : Nat)
  | doesNotTake (names : List String)
  | missingArgs (names : List String)
  | invalidValue (field : String)
  | extraParam (field : String)
  | typeSubscriptError
  | unknownSpecType
  | malformedKey
  | attrError (name : String)
  | keyError (name : String)
  | badPos (name : String)
  | notFound
  | notImplementedOnPerDocumentIndex
  | assertionFailed
  | zeroDivision
  | fuelExhausted
deriving DecidableEq, Repr

/-- The errors `Spec.__init__` raises as `InvalidSpecInstance`. -/
def SpecErr.isInvalidSpecInstance : SpecErr → Bool
  | .tooManyPositional _ _ => true
  | .doesNotTake _ => true
  | .missingArgs _ => true
  | .invalidValue _ => true
  | .extraParam _ => true
  | _ => false

mutual

/-- The value-level step of `Spec.__dict2key`: dict values are wrapped
recursively, everything else is left as is (the source only recurses into
values that are dicts). -/
def dict2keyV : PyVal → PyVal
  | .pdict ps => dict2key ps
  | v => v
termination_by v => (sizeOf v, 2)

/-- `Spec.__dict2key`: transform the dict values, sort the pairs by key, and
build the wrapper node with the pairs as two-element arrays. -/
def dict2key (ps : List (String × PyVal)) : PyVal :=
  .pdict [("transformed", .pbool true),
          ("dict", .plist ((sortPairs (dict2keyPairs ps)).map fun p => .plist [.pstr p.1, p.2]))]
termination_by (sizeOf ps, 1)

/-- The per-value transform loop of `Spec.__dict2key`. -/
def dict2keyPairs : List (String × PyVal) → List (String × PyVal)
  | [] => []
  | (k, v) :: rest => (k, dict2keyV v) :: dict2keyPairs rest
termination_by l => (sizeOf l, 0)

end

/-- `dict(pairs)` over a decoded pair-array list, as `Spec.__key2dict` runs
it: every element must be a two-element array whose first component is a
string, else Python's `dict()` raises. -/
def pairsFromArr : List PyVal → Option (List (String × PyVal))
  | [] => some []
  | .plist [.pstr k, v] :: rest => (pairsFromArr rest).map (fun l => (k, v) :: l)
  | _ => none

theorem pyGet_sizeOf {ps : List (String × PyVal)} {k : String} {v : PyVal}
    (h : pyGet ps k = some v) : sizeOf v < sizeOf ps := by
  induction ps with
  | nil => simp [pyGet] at h
  | cons p rest ih =>
    obtain ⟨k0, v0⟩ := p
    simp only [pyGet] at h
    by_cases hk : k0 = k
    · rw [if_pos hk] at h
      cases h
      simp
      omega
    · rw [if_neg hk] at h
      have := ih h
      simp
      omega

theorem pairsFromArr_sizeOf {arr : List PyVal} {pairs : List (String × PyVal)}
    (h : pairsFromArr arr = some pairs) : sizeOf pairs ≤ sizeOf arr := by
  induction arr generalizing pairs with
  | nil =>
    simp [pairsFromArr] at h
    subst h
    simp
  | cons a rest ih =>
    unfold pairsFromArr at h
    split at h
    · rename_i heq
      simp at heq
    · rename_i k v rest2 heq
      rw [Option.map_eq_some'] at h
      obtain ⟨l, hl, rfl⟩ := h
      obtain ⟨ha, hrest⟩ := List.cons.injEq _ _ _ _ ▸ heq
      subst hrest
      have := ih hl
      subst ha
      simp
      omega
    · exact absurd h (by simp)

theorem pyInsert_sizeOf (acc : List (String × PyVal)) (k : String) (v : PyVal) :
    sizeOf (pyInsert acc k v) ≤ sizeOf acc + 2 + sizeOf k + sizeOf v := by
  induction acc with
  | nil => simp [pyInsert]; omega
  | cons p rest ih =>
    obtain ⟨k0, v0⟩ := p
    by_cases hk : k0 = k
    · subst hk
      simp [pyInsert]
      omega
    · simp [pyInsert, hk]
      omega

theorem pyDictOf_sizeOf_aux (l acc : List (String × PyVal)) :
    sizeOf (l.foldl (fun a p => pyInsert a p.1 p.2) acc) ≤ sizeOf acc + sizeOf l := by
  induction l generalizing acc with
  | nil => simp
  | cons p rest ih =>
    obtain ⟨k, v⟩ := p
    simp only [List.foldl_cons]
    calc sizeOf (rest.foldl (fun a p => pyInsert a p.1 p.2) (pyInsert acc k v))
        ≤ sizeOf (pyInsert acc k v) + sizeOf rest := ih _
      _ ≤ sizeOf acc + 2 + sizeOf k + sizeOf v + sizeOf rest := by
          have := pyInsert_sizeOf acc k v; omega
      _ ≤ sizeOf acc + sizeOf ((k, v) :: rest) := by simp; omega

theorem pyDictOf_sizeOf (l : List (String × PyVal)) :
    sizeOf (pyDictOf l) ≤ 1 + sizeOf l := by
  have := pyDictOf_sizeOf_aux l []
  simp only [pyDictOf]
  simp at this
  omega

mutual

/-- `Spec.__key2dict`: invert the wrapper transform.  A wrapper node (the
`transformed` key maps to `True` and a `dict` key is present) is rebuilt into
a dict via `dict(pairs)` and its values are inverted recursively; any other
value is returned unchanged. -/
def key2dict : PyVal → Except SpecErr PyVal
  | .pdict ps =>
    match pyGet ps "transformed", hpd : pyGet ps "dict" with
    | some (.pbool true), some (.plist arr) =>
      (match hpa : pairsFromArr arr with
       | some pairs => (key2dictPairs (pyDictOf pairs)).map PyVal.pdict
       | none => .error .malformedKey)
    | some (.pbool true), some _ => .error .malformedKey
    | _, _ => pure (.pdict ps)
  | v => pure v
termination_by v => (sizeOf v, 0)
decreasing_by
  simp_wf
  have h1 := pyGet_sizeOf hpd
  have h2 := pairsFromArr_sizeOf hpa
  have h3 := pyDictOf_sizeOf pairs
  have h4 : sizeOf (PyVal.plist arr) = 1 + sizeOf arr := by simp
  apply Prod.Lex.left
  omega

/-- The value-inversion loop of `Spec.__key2dict`. -/
def key2dictPairs : List (String × PyVal) → Except SpecErr (List (String × PyVal))
  | [] => pure []
  | (k, v) :: rest => do
    let v2 ← key2dict v
    let rest2 ← key2dictPairs rest
    pure ((k, v2) :: rest2)
termination_by l => (sizeOf l, 1)
decreasing_by
  all_goals (apply Prod.Lex.left; try simp; try omega)

end

theorem sizeOf_eq_of_perm {l1 l2 : List (String × PyVal)} (h : l1.Perm l2) :
    sizeOf l1 = sizeOf l2 := by
  induction h with
  | nil => rfl
  | cons x _ ih => simp [ih]
  | swap x y l => simp; omega
  | trans _ _ ih1 ih2 => omega

mutual

/-- The net effect of a canonical-key round trip on a value: every dict
reachable through dict values comes back with its pairs sorted by key
(`dict(sorted(...))` preserves the sorted iteration order); lists and
scalars are untouched. -/
def dictCanon : PyVal → PyVal
  | .pdict ps => .pdict (dictCanonPairs (sortPairs ps))
  | v => v
termination_by v => (sizeOf v, 1)
decreasing_by
  apply Prod.Lex.left
  rw [sizeOf_eq_of_perm (sortPairs_perm ps)]
  simp
  try omega

def dictCanonPairs : List (String × PyVal) → List (String × PyVal)
  | [] => []
  | (k, v) :: rest => (k, dictCanon v) :: dictCanonPairs rest
termination_by l => (sizeOf l, 0)
decreasing_by
  all_goals (apply Prod.Lex.left; simp; try omega)

end

mutual

/-- Dicts reachable through dict values have unique keys: the representation
invariant Python dicts satisfy by construction, needed for the sort in
`dict2key` to be deterministic and invertible. -/
def chainGood : PyVal → Bool
  | .pdict ps => decide (keysOf ps).Nodup && chainGoodPairs ps
  | _ => true
termination_by v => (sizeOf v, 1)

def chainGoodPairs : List (String × PyVal) → Bool
  | [] => true
  | (_, v) :: rest => chainGood v && chainGoodPairs rest
termination_by l => (sizeOf l, 0)
decreasing_by
  all_goals (apply Prod.Lex.left; simp; try omega)

end

theorem dict2keyPairs_eq_mapVal (l : List (String × PyVal)) :
    dict2keyPairs l = mapVal dict2keyV l := by
  induction l with
  | nil => simp [dict2keyPairs, mapVal]
  | cons p rest ih =>
    obtain ⟨k, v⟩ := p
    simp [dict2keyPairs, mapVal, ih]

theorem dictCanonPairs_eq_mapVal (l : List (String × PyVal)) :
    dictCanonPairs l = mapVal dictCanon l := by
  induction l with
  | nil => unfold dictCanonPairs mapVal; rfl
  | cons p rest ih =>
    obtain ⟨k, v⟩ := p
    unfold dictCanonPairs mapVal
    rw [ih]

theorem pairsFromArr_map_wrap (l : List (String × PyVal)) :
    pairsFromArr (l.map fun p => PyVal.plist [.pstr p.1, p.2]) = some l := by
  induction l with
  | nil => simp [pairsFromArr]
  | cons p rest ih =>
    obtain ⟨k, v⟩ := p
    simp [pairsFromArr, ih]

@[simp] theorem keysOf_append (l1 l2 : List (String × PyVal)) :
    keysOf (l1 ++ l2) = keysOf l1 ++ keysOf l2 := by
  simp [keysOf]

theorem pyInsert_append (acc : List (String × PyVal)) (k : String) (v : PyVal)
    (h : k ∉ keysOf acc) : pyInsert acc k v = acc ++ [(k, v)] := by
  induction acc with
  | nil => simp [pyInsert]
  | cons p rest ih =>
    obtain ⟨k0, v0⟩ := p
    simp only [keysOf_cons, List.mem_cons] at h
    push_neg at h
    simp only [pyInsert, if_neg (Ne.symm h.1), List.cons_append]
    rw [ih h.2]

theorem pyDictOf_eq_self_aux (l acc : List (String × PyVal))
    (h : (keysOf (acc ++ l)).Nodup) :
    l.foldl (fun a p => pyInsert a p.1 p.2) acc = acc ++ l := by
  induction l generalizing acc with
  | nil => simp
  | cons p rest ih =>
    obtain ⟨k, v⟩ := p
    simp only [List.foldl_cons]
    have hk : k ∉ keysOf acc := by
      have hd := List.disjoint_of_nodup_append (by simpa using h)
      exact fun hmem => hd hmem (List.mem_cons_self _ _)
    rw [pyInsert_append acc k v hk]
    have h3 : (keysOf ((acc ++ [(k, v)]) ++ rest)).Nodup := by
      simpa [keysOf] using h
    rw [ih (acc ++ [(k, v)]) h3]
    simp

/-- On unique keys, Python's `dict(pairs)` is the identity on the pair list. -/
theorem pyDictOf_eq_self (l : List (String × PyVal)) (h : (keysOf l).Nodup) :
    pyDictOf l = l := by
  have := pyDictOf_eq_self_aux l [] (by simpa [keysOf] using h)
  simpa [pyDictOf] using this

theorem goodJsonList_iff (l : List PyVal) :
    goodJsonList l = true ↔ ∀ v ∈ l, goodJson v = true := by
  induction l with
  | nil => simp [goodJsonList]
  | cons v rest ih => simp [goodJsonList, ih]

theorem goodJsonPairs_iff (l : List (String × PyVal)) :
    goodJsonPairs l = true ↔ ∀ p ∈ l, goodStr p.1 = true ∧ goodJson p.2 = true := by
  induction l with
  | nil => simp [goodJsonPairs]
  | cons p rest ih =>
    obtain ⟨k, v⟩ := p
    simp [goodJsonPairs, ih]
    try tauto

theorem chainGoodPairs_iff (l : List (String × PyVal)) :
    chainGoodPairs l = true ↔ ∀ p ∈ l, chainGood p.2 = true := by
  induction l with
  | nil => simp [chainGoodPairs]
  | cons p rest ih =>
    obtain ⟨k, v⟩ := p
    unfold chainGoodPairs
    simp [ih]

theorem keysOf_dict2keyPairs (l : List (String × PyVal)) :
    keysOf (dict2keyPairs l) = keysOf l := by
  rw [dict2keyPairs_eq_mapVal, keysOf_mapVal]

theorem sortPairs_idem (ps : List (String × PyVal)) (h : (keysOf ps).Nodup) :
    sortPairs (sortPairs ps) = sortPairs ps :=
  sortPairs_eq_of_perm (sortPairs_perm ps)
    (((sortPairs_perm ps).map Prod.fst).nodup_iff.2 h)

theorem mapVal_mapVal (f g : PyVal → PyVal) (l : List (String × PyVal)) :
    mapVal f (mapVal g l) = mapVal (fun v => f (g v)) l := by
  induction l with
  | nil => rfl
  | cons p rest ih =>
    obtain ⟨k, v⟩ := p
    simp [mapVal, ih]

theorem mapVal_congr {f g : PyVal → PyVal} {l : List (String × PyVal)}
    (h : ∀ p ∈ l, f p.2 = g p.2) : mapVal f l = mapVal g l := by
  induction l with
  | nil => rfl
  | cons p rest ih =>
    obtain ⟨k, v⟩ := p
    simp only [mapVal]
    rw [h (k, v) (List.mem_cons_self _ _), ih fun p hp => h p (List.mem_cons_of_mem _ hp)]

theorem key2dict_wrapper (arr : List PyVal) :
    key2dict (.pdict [("transformed", .pbool true), ("dict", .plist arr)])
      = (match pairsFromArr arr with
         | some pairs => (key2dictPairs (pyDictOf pairs)).map PyVal.pdict
         | none => .error .malformedKey) := by
  unfold key2dict
  have h1 : pyGet [("transformed", PyVal.pbool true), ("dict", PyVal.plist arr)] "transformed"
      = some (PyVal.pbool true) := by simp [pyGet]
  have h2 : pyGet [("transformed", PyVal.pbool true), ("dict", PyVal.plist arr)] "dict"
      = some (PyVal.plist arr) := by simp [pyGet]
  rw [h1, h2]
  split
  · rename_i xo arr3 ht heq
    injection heq with h3
    injection h3 with h4
    subst h4
    cases hp : pairsFromArr arr with
    | none => rfl
    | some pairs => rfl
  · rename_i val hval heq1 heq2
    injection heq2 with h5
    exact (hval arr h5.symm).elim
  · rename_i h9 h10
    exact (h9 arr rfl rfl).elim

mutual

/-- `Spec.__key2dict` inverts `Spec.__dict2key` up to sorting: the round trip
on any value whose dict chain has unique keys yields its canonical form. -/
theorem key2dict_dict2keyV : ∀ (v : PyVal), chainGood v = true →
    key2dict (dict2keyV v) = .ok (dictCanon v)
  | .pdict ps, h => by
    have hps : dict2keyV (.pdict ps) = dict2key ps := by unfold dict2keyV; rfl
    rw [hps]
    unfold dict2key
    rw [key2dict_wrapper, pairsFromArr_map_wrap]
    unfold chainGood at h
    simp only [Bool.and_eq_true, decide_eq_true_eq] at h
    have hknd : (keysOf (sortPairs (dict2keyPairs ps))).Nodup := by
      show (List.map Prod.fst (sortPairs (dict2keyPairs ps))).Nodup
      rw [((sortPairs_perm (dict2keyPairs ps)).map Prod.fst).nodup_iff]
      show (keysOf (dict2keyPairs ps)).Nodup
      rw [keysOf_dict2keyPairs]
      exact h.1
    show Except.map PyVal.pdict (key2dictPairs (pyDictOf (sortPairs (dict2keyPairs ps))))
        = Except.ok (dictCanon (PyVal.pdict ps))
    rw [pyDictOf_eq_self _ hknd]
    rw [dict2keyPairs_eq_mapVal, sortPairs_mapVal]
    rw [key2dictPairs_mapVal (sortPairs ps) (fun p hp =>
      (chainGoodPairs_iff ps).1 h.2 p ((sortPairs_perm ps).mem_iff.1 hp))]
    have hcanon : dictCanon (.pdict ps) = .pdict (dictCanonPairs (sortPairs ps)) := by
      unfold dictCanon; rfl
    rw [hcanon, dictCanonPairs_eq_mapVal]
    rfl
  | .pnone, _ => by unfold dict2keyV key2dict dictCanon; rfl
  | .pbool b, _ => by unfold dict2keyV key2dict dictCanon; rfl
  | .pint n, _ => by unfold dict2keyV key2dict dictCanon; rfl
  | .pstr s, _ => by unfold dict2keyV key2dict dictCanon; rfl
  | .plist l, _ => by unfold dict2keyV key2dict dictCanon; rfl
  | .pspec c fs, _ => by unfold dict2keyV key2dict dictCanon; rfl
termination_by v => (sizeOf v, 1)
decreasing_by
  apply Prod.Lex.left
  rw [sizeOf_eq_of_perm (sortPairs_perm ps)]
  simp
  try omega

/-- The member loop of the inversion: applied to transformed values it
recovers the canonical values. -/
theorem key2dictPairs_mapVal : ∀ (l : List (String × PyVal)),
    (∀ p ∈ l, chainGood p.2 = true) →
    key2dictPairs (mapVal dict2keyV l) = .ok (mapVal dictCanon l)
  | [], _ => by unfold mapVal key2dictPairs; rfl
  | (k, v) :: rest, h => by
    show key2dictPairs ((k, dict2keyV v) :: mapVal dict2keyV rest)
        = .ok ((k, dictCanon v) :: mapVal dictCanon rest)
    unfold key2dictPairs
    rw [key2dict_dict2keyV v (h (k, v) (List.mem_cons_self _ _))]
    rw [key2dictPairs_mapVal rest (fun p hp => h p (List.mem_cons_of_mem _ hp))]
    rfl
termination_by l => (sizeOf l, 0)
decreasing_by
  all_goals (apply Prod.Lex.left; simp; try omega)

end

mutual

/-- Applying the wrapper transform to the canonical form of a value gives the
same result as applying it to the value itself: `dict2key` is insensitive to
the pair order its own round trip normalizes. -/
theorem dict2keyV_dictCanon : ∀ (v : PyVal), chainGood v = true →
    dict2keyV (dictCanon v) = dict2keyV v
  | .pdict ps, h => by
    unfold chainGood at h
    simp only [Bool.and_eq_true, decide_eq_true_eq] at h
    have hcanon : dictCanon (.pdict ps) = .pdict (dictCanonPairs (sortPairs ps)) := by
      unfold dictCanon; rfl
    rw [hcanon]
    have h1 : dict2keyV (.pdict (dictCanonPairs (sortPairs ps)))
        = dict2key (dictCanonPairs (sortPairs ps)) := by unfold dict2keyV; rfl
    have h2 : dict2keyV (.pdict ps) = dict2key ps := by unfold dict2keyV; rfl
    rw [h1, h2]
    unfold dict2key
    rw [dictCanonPairs_eq_mapVal, dict2keyPairs_eq_mapVal, dict2keyPairs_eq_mapVal,
      mapVal_mapVal]
    rw [mapVal_dict2keyV_dictCanon (sortPairs ps) (fun p hp =>
      (chainGoodPairs_iff ps).1 h.2 p ((sortPairs_perm ps).mem_iff.1 hp))]
    rw [sortPairs_mapVal, sortPairs_idem ps h.1, ← sortPairs_mapVal]
  | .pnone, _ => by unfold dictCanon; rfl
  | .pbool b, _ => by unfold dictCanon; rfl
  | .pint n, _ => by unfold dictCanon; rfl
  | .pstr s, _ => by unfold dictCanon; rfl
  | .plist l, _ => by unfold dictCanon; rfl
  | .pspec c fs, _ => by unfold dictCanon; rfl
termination_by v => (sizeOf v, 1)
decreasing_by
  apply Prod.Lex.left
  rw [sizeOf_eq_of_perm (sortPairs_perm ps)]
  simp
  try omega

theorem mapVal_dict2keyV_dictCanon : ∀ (l : List (String × PyVal)),
    (∀ p ∈ l, chainGood p.2 = true) →
    mapVal (fun v => dict2keyV (dictCanon v)) l = mapVal dict2keyV l
  | [], _ => rfl
  | (k, v) :: rest, h => by
    simp only [mapVal]
    rw [dict2keyV_dictCanon v (h (k, v) (List.mem_cons_self _ _))]
    rw [mapVal_dict2keyV_dictCanon rest (fun p hp => h p (List.mem_cons_of_mem _ hp))]
termination_by l => (sizeOf l, 0)
decreasing_by
  all_goals (apply Prod.Lex.left; simp; try omega)

end

@[simp] theorem goodJson_pnone : goodJson .pnone = true := by unfold goodJson; rfl

@[simp] theorem goodJson_pbool (b : Bool) : goodJson (.pbool b) = true := by
  unfold goodJson; rfl

@[simp] theorem goodJson_pint (n : Int) : goodJson (.pint n) = true := by
  unfold goodJson; rfl

@[simp] theorem goodJson_pstr (s : String) : goodJson (.pstr s) = goodStr s := by
  unfold goodJson; rfl

@[simp] theorem goodJson_plist (l : List PyVal) : goodJson (.plist l) = goodJsonList l := by
  unfold goodJson; rfl

@[simp] theorem goodJson_pdict (l : List (String × PyVal)) :
    goodJson (.pdict l) = goodJsonPairs l := by
  unfold goodJson; rfl

@[simp] theorem goodJson_pspec (c : String) (fs : List (String × PyVal)) :
    goodJson (.pspec c fs) = false := by
  unfold goodJson; rfl

@[simp] theorem goodJsonList_nil : goodJsonList [] = true := by unfold goodJsonList; rfl

@[simp] theorem goodJsonList_cons (v : PyVal) (rest : List PyVal) :
    goodJsonList (v :: rest) = (goodJson v && goodJsonList rest) := by
  simp [goodJsonList]

@[simp] theorem goodJsonPairs_nil : goodJsonPairs [] = true := by unfold goodJsonPairs; rfl

@[simp] theorem goodJsonPairs_cons (p : String × PyVal) (rest : List (String × PyVal)) :
    goodJsonPairs (p :: rest) = (goodStr p.1 && goodJson p.2 && goodJsonPairs rest) := by
  obtain ⟨k, v⟩ := p
  simp [goodJsonPairs]

@[simp] theorem chainGood_pdict (l : List (String × PyVal)) :
    chainGood (.pdict l) = (decide (keysOf l).Nodup && chainGoodPairs l) := by
  unfold chainGood; rfl

theorem goodJsonPairs_of_perm {l l2 : List (String × PyVal)} (hp : l.Perm l2)
    (h : goodJsonPairs l = true) : goodJsonPairs l2 = true := by
  rw [goodJsonPairs_iff] at h ⊢
  exact fun p hpmem => h p (hp.mem_iff.2 hpmem)

theorem goodJsonList_map_wrap (l : List (String × PyVal)) (h : goodJsonPairs l = true) :
    goodJsonList (l.map fun p => PyVal.plist [.pstr p.1, p.2]) = true := by
  induction l with
  | nil => simp
  | cons p rest ih =>
    obtain ⟨k, v⟩ := p
    simp only [goodJsonPairs_cons, Bool.and_eq_true] at h
    simp only [List.map_cons, goodJsonList_cons, goodJson_plist, goodJsonList_nil,
      goodJson_pstr, Bool.and_eq_true]
    exact ⟨⟨h.1.1, h.1.2, trivial⟩, ih h.2⟩

mutual

/-- The wrapper transform keeps values in the `json.dumps`-serializable
fragment: the canonical key of a good instance is printable. -/
theorem goodJson_dict2keyV : ∀ (v : PyVal), goodJson v = true →
    goodJson (dict2keyV v) = true
  | .pdict ps, h => by
    have hps : dict2keyV (.pdict ps) = dict2key ps := by unfold dict2keyV; rfl
    rw [hps]
    unfold dict2key
    simp only [goodJson_pdict, goodJsonPairs_cons, goodJsonPairs_nil, goodJson_pbool,
      goodJson_plist, Bool.and_eq_true, Bool.and_true]
    refine ⟨by decide, by decide, ?_⟩
    apply goodJsonList_map_wrap
    rw [dict2keyPairs_eq_mapVal]
    apply goodJsonPairs_of_perm (sortPairs_perm (mapVal dict2keyV ps)).symm
    exact goodJsonPairs_dict2keyV ps (by simpa using h)
  | .pnone, h => by unfold dict2keyV; exact h
  | .pbool b, h => by unfold dict2keyV; exact h
  | .pint n, h => by unfold dict2keyV; exact h
  | .pstr s, h => by unfold dict2keyV; exact h
  | .plist l, h => by unfold dict2keyV; exact h
  | .pspec c fs, h => by unfold dict2keyV; exact h
termination_by v => (sizeOf v, 1)

/-- The member loop of the wrapper transform keeps pair lists good. -/
theorem goodJsonPairs_dict2keyV : ∀ (l : List (String × PyVal)),
    goodJsonPairs l = true → goodJsonPairs (mapVal dict2keyV l) = true
  | [], h => by unfold mapVal; exact h
  | (k, v) :: rest, h => by
    simp only [goodJsonPairs_cons, Bool.and_eq_true] at h
    show goodJsonPairs ((k, dict2keyV v) :: mapVal dict2keyV rest) = true
    simp only [goodJsonPairs_cons, Bool.and_eq_true]
    exact ⟨⟨h.1.1, goodJson_dict2keyV v h.1.2⟩, goodJsonPairs_dict2keyV rest h.2⟩
termination_by l => (sizeOf l, 0)
decreasing_by
  all_goals (apply Prod.Lex.left; simp; try omega)

end

/-!
### The class registry

A fito Spec class is described by its name, its superclass, its declared
fields and whether it is one of the synthetic `SpecField<T>` classes the
`SpecField` factory creates (line 144): those are genuine subclasses of their
`base_type` and therefore show up in `_get_all_subclasses`, which is why the
grid generator has to skip them.  A registry is the list of loaded Spec
subclasses (in Python, every class of every live instance is loaded, so a
registry models exactly the classes `Spec.__subclasses__` can reach).
-/

/-- The field descriptor kinds of `fito.specs.base` (`ModelParameter` is from
`fito.model.model`; it is a `PrimitiveField` carrying a sweep grid). -/
inductive FieldKind where
  | primitive
  | collection
  | numeric
  | modelParam (grid : List PyVal)
  | baseSpec (base : Option String)
  | specCollection

/-- One declared field: `pos` and `default` mirror the `Field` constructor
(`default = none` models the `_no_default` marker, while an explicit default
of Python `None` is `some .pnone`). -/
structure FieldDef where
  name : String
  kind : FieldKind
  pos : Option Nat
  default : Option PyVal

/-- One loaded Spec subclass. -/
structure ClassDef where
  name : String
  parent : String
  fields : List FieldDef
  isField : Bool

abbrev Registry := List ClassDef

def lookupClass (reg : Registry) (name : String) : Option ClassDef :=
  reg.find? fun cd => cd.name == name

/-- `issubclass` along parent links, with fuel bounding the chain length
(`reg.length + 1` suffices for any acyclic registry). -/
def isSubclassAux (reg : Registry) : Nat → String → String → Bool
  | 0, _, _ => false
  | fuel + 1, c, target =>
    c == target ||
      (match lookupClass reg c with
       | some cd => isSubclassAux reg fuel cd.parent target
       | none => false)

def isSubclass (reg : Registry) (c target : String) : Bool :=
  isSubclassAux reg (reg.length + 1) c target

/-- `Spec._get_all_subclasses` (line 397): every loaded strict subclass of
`c`.  The source's worklist enumerates each subclass once; the order is
modelled as registry order (no claim depends on it). -/
def allSubclasses (reg : Registry) (c : String) : List ClassDef :=
  reg.filter fun cd => !(cd.name == c) && isSubclass reg cd.name c

/-- `Spec.type2spec_class` (line 408), the bare-name branch: scan the loaded
Spec subclasses for the class name; `None` when unresolved.  The
`module.path:ClassName` branch performs a dynamic import, which has no
in-model counterpart; registry well-formedness keeps names colon-free. -/
def type2spec_class (reg : Registry) (spec_type : String) : Option ClassDef :=
  if spec_type.data.contains ':' then none
  else (allSubclasses reg "Spec").find? fun cd => cd.name == spec_type

def insertNat (n : Nat) : List Nat → List Nat
  | [] => [n]
  | m :: rest => if n ≤ m then n :: m :: rest else m :: insertNat n rest

def sortNats : List Nat → List Nat
  | [] => []
  | n :: rest => insertNat n (sortNats rest)

/-- `SpecMeta.__new__` (line 176): the sorted declared positions must be
exactly `range(k)`, else the class definition is rejected with a ValueError. -/
def specMetaCheck (cls : ClassDef) : Except SpecErr Unit :=
  if sortNats (cls.fields.filterMap FieldDef.pos)
      = List.range (sortNats (cls.fields.filterMap FieldDef.pos)).length then .ok ()
  else .error (.badPos cls.name)

/-- Modelled from the spec: `fito.specs.utils.is_iterable` (the module is not
in the provided sources).  Per the data model, iterables are the
ordered-sequence/mapping/tuple-like values; tuples are folded into lists. -/
def is_iterable : PyVal → Bool
  | .plist _ => true
  | .pdict _ => true
  | _ => false

/-- Modelled from the spec: the values `fito.specs.utils.general_iterator`
yields (it pairs them with keys or indices, which the callers here discard). -/
def generalIterVals : PyVal → List PyVal
  | .plist l => l
  | .pdict ps => ps.map Prod.snd
  | _ => []

def isSpecVal : PyVal → Bool
  | .pspec _ _ => true
  | _ => false

/-- `Field.check_valid_value` per descriptor kind: `any(isinstance(value, t)
for t in allowed_types)`, with `SpecCollection.check_valid_value` overridden
to demand an iterable whose members are all Specs (line 167).  Numeric
accepts booleans because `isinstance(True, int)` holds in Python. -/
def check_valid_value (reg : Registry) (k : FieldKind) (v : PyVal) : Bool :=
  match k with
  | .primitive => true
  | .modelParam _ => true
  | .collection =>
    (match v with
     | .plist _ => true
     | .pdict _ => true
     | _ => false)
  | .numeric =>
    (match v with
     | .pint _ => true
     | .pbool _ => true
     | _ => false)
  | .baseSpec Option.none => isSpecVal v
  | .baseSpec (some b) =>
    (match v with
     | .pspec c _ => isSubclass reg c b
     | _ => false)
  | .specCollection => is_iterable v && (generalIterVals v).all isSpecVal

/-!
### Construction (`Spec.__init__`, line 237)
-/

def pos2nameOf (fields : List FieldDef) : List (Nat × String) :=
  fields.filterMap fun fd => fd.pos.map fun p => (p, fd.name)

def lookupPos (l : List (Nat × String)) (i : Nat) : Option String :=
  (l.find? fun p => p.1 == i).map Prod.snd

/-- `max_nargs` (line 244): 0 without positional fields, else the largest
position plus one plus the number of position-less fields. -/
def maxNargs (fields : List FieldDef) : Nat :=
  if (pos2nameOf fields).isEmpty then 0
  else ((pos2nameOf fields).map Prod.fst).foldl max 0 + 1
    + (fields.filter fun fd => fd.pos.isNone).length

/-- The `kwargs[pos2name[i]] = arg` loop (line 258); a position with no
declared field raises Python's KeyError. -/
def applyPositionalAux (p2n : List (Nat × String)) :
    Nat → List PyVal → List (String × PyVal) → Except SpecErr (List (String × PyVal))
  | _, [], kwargs => .ok kwargs
  | i, arg :: rest, kwargs =>
    match lookupPos p2n i with
    | some name => applyPositionalAux p2n (i + 1) rest (pyInsert kwargs name arg)
    | none => .error (.posKeyError i)

/-- The default-filling loop (line 261): declared defaults fill fields not
present in kwargs (an explicitly supplied `None` counts as present). -/
def applyDefaults (fields : List FieldDef) (kwargs : List (String × PyVal)) :
    List (String × PyVal) :=
  fields.foldl
    (fun kw fd =>
      match fd.default with
      | some d => if (pyGet kw fd.name).isNone then pyInsert kw fd.name d else kw
      | none => kw)
    kwargs

def fieldNames (fields : List FieldDef) : List String := fields.map FieldDef.name

/-- The `val is None` test. -/
def PyVal.isNone : PyVal → Bool
  | .pnone => true
  | _ => false

/-- The value-check loop (line 272): `kwargs.get(attr)` is `None` both for an
absent field and for an explicit `None`, and both skip the type predicate. -/
def checkValues (reg : Registry) : List FieldDef → List (String × PyVal) → Except SpecErr Unit
  | [], _ => .ok ()
  | fd :: rest, kwargs =>
    match pyGet kwargs fd.name with
    | Option.none => checkValues reg rest kwargs
    | some v =>
      if v.isNone then checkValues reg rest kwargs
      else if check_valid_value reg fd.kind v then checkValues reg rest kwargs
      else .error (.invalidValue fd.name)

/-- The extra-parameter loop (line 281). -/
def checkExtraParams (fields : List FieldDef) : List (String × PyVal) → Except SpecErr Unit
  | [] => .ok ()
  | (k, _) :: rest =>
    if k ∈ fieldNames fields then checkExtraParams fields rest
    else .error (.extraParam k)

/-- `Spec.__init__` (line 237): map positional arguments to field names, fill
defaults, reject wrong argument counts, check each supplied non-None value
against its field's predicate, reject unknown names, and assign the resolved
kwargs as the instance's attributes.  The check loops run in declared-field
order (CPython iterates its dicts in an unspecified but fixed order; which of
several simultaneous violations gets reported first is not load-bearing). -/
def specConstruct (reg : Registry) (cd : ClassDef) (args : List PyVal)
    (kwargs0 : List (String × PyVal)) : Except SpecErr Inst :=
  if args.length > maxNargs cd.fields then
    .error (.tooManyPositional args.length (maxNargs cd.fields))
  else
    match applyPositionalAux (pos2nameOf cd.fields) 0 args kwargs0 with
    | .error e => .error e
    | .ok kw1 =>
      let kw2 := applyDefaults cd.fields kw1
      if kw2.length > cd.fields.length then
        .error (.doesNotTake ((keysOf kw2).filter fun k => decide (k ∉ fieldNames cd.fields)))
      else if kw2.length < cd.fields.length then
        .error (.missingArgs ((fieldNames cd.fields).filter fun f => decide (f ∉ keysOf kw2)))
      else
        match checkValues reg cd.fields kw2 with
        | .error e => .error e
        | .ok _ =>
          match checkExtraParams cd.fields kw2 with
          | .error e => .error e
          | .ok _ => .ok (cd.name, kw2)

/-!
### Serialization (`Spec.to_dict`, line 333) and the canonical key
-/

def fieldKindOf (reg : Registry) (cls attr : String) : FieldKind :=
  match lookupClass reg cls with
  | some cd =>
    (match cd.fields.find? fun fd => fd.name == attr with
     | some fd => fd.kind
     | none => .primitive)
  | none => .primitive

/-- `getattr` on an instance: every constructed instance assigns each
declared field exactly once, so the default is unreachable there. -/
def getattrV (fs : List (String × PyVal)) (attr : String) : PyVal :=
  (pyGet fs attr).getD .pnone

/-- The per-field entries of `to_dict`, read back from the serialized
attribute dict in declared-field order. -/
def instFieldVals (reg : Registry) (cls : String) (serialized : List (String × PyVal)) :
    List (String × PyVal) :=
  match lookupClass reg cls with
  | some cd => (fieldNames cd.fields).map fun n => (n, getattrV serialized n)
  | Option.none => []

mutual

/-- Serialization of one field value by its descriptor kind (the branches of
`to_dict`, line 338): primitive-family values are emitted raw, Spec values
recurse (with `None` kept as is, line 342), and SpecCollection values are
walked by `recursive_map` with the Spec-to-dict leaf transform. -/
def spec2dictVal (reg : Registry) (k : FieldKind) (v : PyVal) : PyVal :=
  match k, v with
  | .baseSpec _, .pspec c fs => inst2dict reg c fs
  | .specCollection, w => spec2dictColl reg w
  | _, w => w
termination_by (sizeOf v, 1, 0)

/-- Modelled from the spec: `recursive_map` over a collection, recursing into
iterables and applying the Spec-to-dict transform at Spec leaves. -/
def spec2dictColl (reg : Registry) : PyVal → PyVal
  | .plist l => .plist (spec2dictCollList reg l)
  | .pdict ps => .pdict (spec2dictCollPairs reg ps)
  | .pspec c fs => inst2dict reg c fs
  | v => v
termination_by v => (sizeOf v, 0, 0)

def spec2dictCollList (reg : Registry) : List PyVal → List PyVal
  | [] => []
  | v :: rest => spec2dictColl reg v :: spec2dictCollList reg rest
termination_by l => (sizeOf l, 1, 0)

def spec2dictCollPairs (reg : Registry) : List (String × PyVal) → List (String × PyVal)
  | [] => []
  | (k, v) :: rest => (k, spec2dictColl reg v) :: spec2dictCollPairs reg rest
termination_by l => (sizeOf l, 1, 0)

/-- The serialization loop over an instance's attributes. -/
def spec2dictFields (reg : Registry) (cls : String) : List (String × PyVal) → List (String × PyVal)
  | [] => []
  | (a, v) :: rest =>
    (a, spec2dictVal reg (fieldKindOf reg cls a) v) :: spec2dictFields reg cls rest
termination_by l => (sizeOf l, 1, 1)

/-- `Spec.to_dict` (line 333): `{type: <class name>}` followed by one entry
per declared field, read back via `getattr`.  Equivalent to the source's
loop over `get_fields` whenever the instance assigns each declared field
exactly once (the construction invariant); the class of a live instance is
always loaded, so the registry miss is unreachable. -/
def inst2dict (reg : Registry) (cls : String) (fs : List (String × PyVal)) : PyVal :=
  .pdict (("type", .pstr cls) :: instFieldVals reg cls (spec2dictFields reg cls fs))
termination_by (sizeOf fs, 2, 0)

end

/-- `Spec.key` (line 324): '/' plus the JSON encoding of the wrapper
transform of the dict form.  (The memoized-property caching and its
invalidation in `__setattr__` have no observable effect on the key's value,
which is all the claims concern.) -/
def spec_key (reg : Registry) (cls : String) (fs : List (String × PyVal)) : String :=
  "/" ++ jdumps (dict2keyV (inst2dict reg cls fs))

theorem removeKey_sizeOf (ps : List (String × PyVal)) (k : String) :
    sizeOf (removeKey ps k) ≤ sizeOf ps := by
  induction ps with
  | nil => simp [removeKey]
  | cons p rest ih =>
    obtain ⟨k0, v0⟩ := p
    by_cases h : k0 = k
    · simp [removeKey, h]
      try omega
    · simp [removeKey, h]
      try omega

theorem pyGet_opt_sizeOf (ps : List (String × PyVal)) (k : String) :
    sizeOf (pyGet ps k) ≤ sizeOf ps := by
  induction ps with
  | nil => simp [pyGet]
  | cons p rest ih =>
    obtain ⟨k0, v0⟩ := p
    by_cases h : k0 = k
    · simp [pyGet, h]
      omega
    · simp only [pyGet, if_neg h]
      have hc : sizeOf ((k0, v0) :: rest) = 1 + sizeOf (k0, v0) + sizeOf rest := by simp
      omega

/-- Lexicographic descent from a kwargs dict to one of its looked-up
values. -/
theorem lex3_pyGet (K : List (String × PyVal)) (N : String) (L : Nat) (hL : 0 < L) :
    Prod.Lex (· < ·) (Prod.Lex (· < ·) (· < ·))
      (sizeOf (pyGet K N), 0, 0) (sizeOf K, 0, L) := by
  rcases Nat.lt_or_ge (sizeOf (pyGet K N)) (sizeOf K) with h | h
  · exact Prod.Lex.left _ _ h
  · have he : sizeOf (pyGet K N) = sizeOf K := Nat.le_antisymm (pyGet_opt_sizeOf _ _) h
    rw [he]
    exact Prod.Lex.right _ (Prod.Lex.right _ hL)

/-- The per-field combination step of `_from_dict`: a Spec-typed field takes
the sub-spec rebuilt by `dict2spec` (`kwargs[attr]` raising KeyError when the
key is absent, a failing `dict2spec` propagating first), a SpecCollection
field takes the `recursive_map` walk of its value, and other fields pass
through.  The sub-results are computed eagerly here; the source evaluates
them only on the matching branch, which is indistinguishable for pure
functions. -/
def combineUpd (n : String) (k : FieldKind) (sub : Except SpecErr Inst)
    (coll : Except SpecErr PyVal) (restRes : Except SpecErr (List (String × PyVal))) :
    Except SpecErr (List (String × PyVal)) :=
  match k with
  | .baseSpec _ => sub.bind fun i => restRes.map fun restUp => (n, .pspec i.1 i.2) :: restUp
  | .specCollection => coll.bind fun w => restRes.map fun restUp => (n, w) :: restUp
  | _ => restRes

/-- The Spec-or-fallback choice of `recursive_map`: a successful `dict2spec`
replaces the dict by the rebuilt Spec, otherwise the walked dict stands. -/
def fromDictCollDict (res : Except SpecErr Inst) (fallback : List (String × PyVal)) : PyVal :=
  match res with
  | .ok i => .pspec i.1 i.2
  | .error _ => .pdict fallback

def applyUpdates (kwargs : List (String × PyVal)) (updates : List (String × PyVal)) :
    List (String × PyVal) :=
  updates.foldl (fun a p => pyInsert a p.1 p.2) kwargs

/-- The `spec_type = dict['type']` resolution of `dict2spec` (line 431): a
missing key raises KeyError, a non-string type raises TypeError inside
`type2spec_class`, an unresolvable name the `Unknown spec type` ValueError. -/
def resolveType (reg : Registry) (tv : Option PyVal) : Except SpecErr ClassDef :=
  match tv with
  | Option.none => .error (.keyError "type")
  | some (.pstr t) =>
    (match type2spec_class reg t with
     | some cd => .ok cd
     | Option.none => .error .unknownSpecType)
  | some _ => .error .typeSubscriptError

mutual

/-- `Spec.dict2spec` (line 431): resolve `dict['type']` (a non-dict raises
Python's TypeError, a missing key its KeyError, an unresolvable or non-string
name the `Unknown spec type` ValueError) and rebuild via `_from_dict`. -/
def dict2spec (reg : Registry) : PyVal → Except SpecErr Inst
  | .pdict ps =>
    (resolveType reg (pyGet ps "type")).bind fun cd => _from_dict reg cd ps
  | _ => .error .typeSubscriptError
termination_by v => (sizeOf v, 1, 0)

/-- `Spec._from_dict` (line 457): pop `type`, rebuild Spec-typed fields with
`dict2spec` (`kwargs[attr]` raises KeyError when absent) and SpecCollection
fields with the fallback walk, then construct.  The field loop reads every
value from the popped kwargs before any update lands; since declared field
names are unique the sequential updates of the source bind the same values. -/
def _from_dict (reg : Registry) (cd : ClassDef) (ps : List (String × PyVal)) :
    Except SpecErr Inst :=
  match fromDictUpdates reg cd.fields (removeKey ps "type") with
  | .error e => .error e
  | .ok updates => specConstruct reg cd [] (applyUpdates (removeKey ps "type") updates)
termination_by (sizeOf ps, 1, 0)
decreasing_by
  rcases Nat.lt_or_ge (sizeOf (removeKey ps "type")) (sizeOf ps) with h | h
  · exact Prod.Lex.left _ _ h
  · have he : sizeOf (removeKey ps "type") = sizeOf ps :=
      Nat.le_antisymm (removeKey_sizeOf ps "type") h
    rw [he]
    exact Prod.Lex.right _ (Prod.Lex.left _ _ (by omega))

def fromDictUpdates (reg : Registry) :
    List FieldDef → List (String × PyVal) → Except SpecErr (List (String × PyVal))
  | [], _ => .ok []
  | fd :: rest, kwargs0 =>
    combineUpd fd.name fd.kind
      (dict2specOpt reg fd.name (pyGet kwargs0 fd.name))
      (fromDictCollOpt reg fd.name (pyGet kwargs0 fd.name))
      (fromDictUpdates reg rest kwargs0)
termination_by fds kwargs0 => (sizeOf kwargs0, 0, sizeOf fds)
decreasing_by
  all_goals first
    | (apply Prod.Lex.right
       apply Prod.Lex.right
       simp
       try omega)
    | (apply lex3_pyGet
       simp
       try omega)

/-- `kwargs[attr]` followed by `Spec.dict2spec`: the missing key raises
Python's KeyError. -/
def dict2specOpt (reg : Registry) (n : String) : Option PyVal → Except SpecErr Inst
  | Option.none => .error (.keyError n)
  | some v => dict2spec reg v
termination_by o => (sizeOf o, 0, 0)

/-- `kwargs[attr]` followed by the `recursive_map` walk. -/
def fromDictCollOpt (reg : Registry) (n : String) : Option PyVal → Except SpecErr PyVal
  | Option.none => .error (.keyError n)
  | some v => .ok (fromDictColl reg v)
termination_by o => (sizeOf o, 0, 0)

/-- The `recursive_map` of `_from_dict` (line 464): try to interpret a value
as a Spec dict; if that fails, recurse into iterables and keep other leaves
unchanged.  `dict2spec` rejects every non-dict immediately, so trying it
only on dicts is the same map. -/
def fromDictColl (reg : Registry) (v : PyVal) : PyVal :=
  match v with
  | .pdict ps => fromDictCollDict (dict2spec reg (.pdict ps)) (fromDictCollPairs reg ps)
  | .plist l => .plist (fromDictCollList reg l)
  | w => w
termination_by (sizeOf v, 2, 0)

def fromDictCollList (reg : Registry) : List PyVal → List PyVal
  | [] => []
  | v :: rest => fromDictColl reg v :: fromDictCollList reg rest
termination_by l => (sizeOf l, 2, 1)

def fromDictCollPairs (reg : Registry) : List (String × PyVal) → List (String × PyVal)
  | [] => []
  | (k, v) :: rest => (k, fromDictColl reg v) :: fromDictCollPairs reg rest
termination_by l => (sizeOf l, 2, 1)

end

/-- `Spec.key2spec` (line 439): strip the leading slash, `json.loads`,
invert the wrapper transform, resolve the dict form. -/
def key2spec (reg : Registry) (s : String) : Except SpecErr Inst :=
  let s2 := if s.data.head? = some '/' then String.mk s.data.tail else s
  match jparse s2 with
  | Option.none => .error .malformedKey
  | some j =>
    match key2dict j with
    | .error e => .error e
    | .ok j2 => dict2spec reg j2

/-- `Spec.copy` (line 288): `type(self)._from_dict(self.to_dict())`.  The
class of a live instance is loaded, so the registry miss is unreachable; the
dict form of an instance is always a dict. -/
def spec_copy (reg : Registry) (cls : String) (fs : List (String × PyVal)) :
    Except SpecErr Inst :=
  match lookupClass reg cls with
  | Option.none => .error .unknownSpecType
  | some cd =>
    (match inst2dict reg cls fs with
     | .pdict ps => _from_dict reg cd ps
     | _ => .error .typeSubscriptError)

/-- `Spec.get_field_spec` (line 304): `getattr(cls, field_name)` must be a
declared Field, else Python raises an AttributeError (or the assert fires). -/
def getFieldSpec (reg : Registry) (cls attr : String) : Option FieldDef :=
  match lookupClass reg cls with
  | some cd => cd.fields.find? fun fd => fd.name == attr
  | Option.none => Option.none

/-- The per-change loop of `Spec.replace` (line 293): each supplied value is
checked against its field descriptor with no `None` exemption, then
assigned. -/
def replaceFields (reg : Registry) (cls : String) :
    List (String × PyVal) → Inst → Except SpecErr Inst
  | [], res => .ok res
  | (attr, val) :: rest, res =>
    match getFieldSpec reg cls attr with
    | Option.none => .error (.attrError attr)
    | some fd =>
      if check_valid_value reg fd.kind val then
        replaceFields reg cls rest (res.1, pyInsert res.2 attr val)
      else .error (.invalidValue attr)

/-- `Spec.replace` (line 291): copy, then validate and assign each change. -/
def spec_replace (reg : Registry) (cls : String) (fs : List (String × PyVal))
    (changes : List (String × PyVal)) : Except SpecErr Inst :=
  match spec_copy reg cls fs with
  | .error e => .error e
  | .ok res => replaceFields reg cls changes res

/-!
### The Mongo-backed stores (`fito.data_store.mongo`)

An operation is identified in the store by its canonical key (`Spec.__eq__`
compares keys, line 448); a stored record keeps the operation's dict form,
which `_dict2operation` turns back into an operation compared by key, so a
document is modelled by its operation's canonical key.  The `mmh3.hash` of
the key is an external C function and is a parameter of the model; payloads
(the pickled/gridfs `values` blobs) are opaque tokens; `random()` draws are
explicit inputs.  `BaseDataStore._get_operation` (the module is not in the
provided sources) resolves a name-or-operation argument to an operation;
callers here pass the resolved operation's key directly.
-/

/-- One collection document as `_build_doc` (line 78) shapes it: `_id` (absent
until the incremental-id insert path assigns it), the operation (by canonical
key), the values payload, `op_hash` and the `rnd` sampling coordinate. -/
structure Doc where
  id : Option Int
  opKey : String
  values : Nat
  opHash : Int
  rnd : ℚ
deriving DecidableEq

/-- The observable `MongoHashMap` state: collection contents in natural
(insertion) order plus the `id_seq` counter of the `conf` collection. -/
structure StoreState where
  docs : List Doc
  idSeq : Int
  addIncrementalId : Bool
deriving DecidableEq

/-- `MongoHashMap._build_doc` (line 78). -/
def _build_doc (hash : String → Int) (opKey : String) (value : Nat) (r : ℚ) : Doc :=
  { id := Option.none, opKey := opKey, values := value, opHash := hash opKey, rnd := r }

/-- `MongoHashMap._get_doc` (line 136): narrow to the documents whose
`op_hash` equals the hash of the probe's key, break at the first whose
(rebuilt) operation equals the probe — equality being canonical-key equality
— and raise `ValueError(&quot;Operation not found&quot;)` when the scan is
exhausted. -/
def _get_doc (hash : String → Int) (st : StoreState) (opKey : String) : Except SpecErr Doc :=
  match (st.docs.filter fun d => d.opHash == hash opKey).find? (fun d => d.opKey == opKey) with
  | some d => .ok d
  | Option.none => .error .notFound

/-- `MongoHashMap._get` (line 150): the located document's payload. -/
def _get (hash : String → Int) (st : StoreState) (opKey : String) : Except SpecErr Nat :=
  (_get_doc hash st opKey).map Doc.values

/-- `MongoHashMap.delete` (line 159): locate via `_get_doc`, then remove by
`_id`. -/
def store_delete (hash : String → Int) (st : StoreState) (opKey : String) :
    Except SpecErr StoreState :=
  (_get_doc hash st opKey).map fun d =>
    { st with docs := st.docs.filter fun d2 => !(d2.id == d.id) }

/-- The id assignment of `_insert` (line 104): `doc['_id'] = max_id - len(docs) + i`
with `i` running over `enumerate(docs)`. -/
def assignIdsAux (maxId : Int) (len : Nat) : Nat → List Doc → List Doc
  | _, [] => []
  | i, d :: rest => { d with id := some (maxId - len + i) } :: assignIdsAux maxId len (i + 1) rest

def assignIds (docs : List Doc) (maxId : Int) : List Doc :=
  assignIdsAux maxId docs.length 0 docs

def hasId (st : StoreState) (i : Int) : Bool :=
  st.docs.any fun d => d.id == some i

/-- Whether inserting `docs` raises `DuplicateKeyError`: some assigned id is
already present. -/
def anyDupId (st : StoreState) (docs : List Doc) : Bool :=
  docs.any fun d =>
    match d.id with
    | some i => hasId st i
    | Option.none => false

/-- `MongoHashMap._insert` (line 92).  Without incremental ids the documents
are appended as they are.  With them, `find_and_modify` post-increments
`id_seq` by `len(docs)` and returns the new value `max_id`, the documents get
the ids `max_id - len(docs) .. max_id - 1`, and a `DuplicateKeyError` retries
the whole `_insert` (against the already-advanced counter).  The retry fuel
bounds the loop; mongo's partial progress inside a failed bulk insert is not
modelled — the claims only exercise duplicate-free inserts. -/
def _insert (st : StoreState) (docs : List Doc) : Nat → Except SpecErr StoreState
  | 0 => .error .fuelExhausted
  | fuel + 1 =>
    if !st.addIncrementalId then .ok { st with docs := st.docs ++ docs }
    else
      let maxId := st.idSeq + docs.length
      let docs2 := assignIds docs maxId
      let st2 : StoreState := { st with idSeq := maxId }
      if anyDupId st2 docs2 then _insert st2 docs fuel
      else .ok { st2 with docs := st2.docs ++ docs2 }

/-- `MongoHashMap.save` (line 154): build one document and insert it. -/
def store_save (hash : String → Int) (st : StoreState) (opKey : String) (value : Nat)
    (r : ℚ) (fuel : Nat) : Except SpecErr StoreState :=
  _insert st [_build_doc hash opKey value r] fuel

/-- `MongoHashMap.Batch` (line 226): a buffer of built, uncommitted
documents. -/
structure Batch where
  _docs : List Doc
deriving DecidableEq

/-- `Batch.append` (line 231): build a document and buffer it. -/
def batchAppend (hash : String → Int) (b : Batch) (opKey : String) (value : Nat)
    (r : ℚ) : Batch :=
  { _docs := b._docs ++ [_build_doc hash opKey value r] }

/-- `Batch.commit` via `_save_batch` (line 220): a non-empty buffer is
flushed through `_insert` and emptied; an empty buffer is a no-op. -/
def batchCommit (st : StoreState) (b : Batch) (fuel : Nat) :
    Except SpecErr (StoreState × Batch) :=
  if b._docs.length > 0 then
    match _insert st b._docs fuel with
    | .error e => .error e
    | .ok st2 => .ok (st2, { _docs := [] })
  else .ok (st, b)

/-- The documents of the sampled interval, in natural order:
`coll.find(\x7b'rnd': \x7b'$gte': lbound, '$lt': ubound\x7d\x7d)`. -/
def choiceFilter (st : StoreState) (lb ub : ℚ) : List Doc :=
  st.docs.filter fun d => decide (lb ≤ d.rnd) && decide (d.rnd < ub)

/-- The result of `choice`: a bare item or a list, depending on the
`len(res) == 1` unwrapping (line 190). -/
inductive ChoiceOut where
  | single (d : Doc)
  | many (l : List Doc)
deriving DecidableEq

/-- The `while True` of `choice` (line 176): draw, build the interval of
width `n / count` at a position scaled into `[0, 1 - size]`, and stop at the
first draw whose interval holds at least one document.  One explicit draw is
consumed per iteration; exhausting the supplied draws models the loop
spinning without a hit. -/
def choiceLoop (st : StoreState) (n : Nat) : List ℚ → Except SpecErr (List Doc)
  | [] => .error .fuelExhausted
  | r :: rest =>
    let size : ℚ := (n : ℚ) / (st.docs.length : ℚ)
    let lb := r * (1 - size)
    let cur := choiceFilter st lb (lb + size)
    if cur.length > 0 then .ok cur else choiceLoop st n rest

/-- `MongoHashMap.choice` (line 175): on an empty collection the width
computation divides by zero; otherwise the loop's hits are clipped to the
first `n` and a length-1 result is unwrapped to the bare item. -/
def store_choice (st : StoreState) (n : Nat) (draws : List ℚ) : Except SpecErr ChoiceOut :=
  if st.docs.length = 0 then .error .zeroDivision
  else
    match choiceLoop st n draws with
    | .error e => .error e
    | .ok cur =>
      match cur.take n with
      | [d] => .ok (.single d)
      | l => .ok (.many l)

/-- The observable `MongoDataStore` state: the underlying collection state
plus the loaded shared index (`None` means per-document indexes). -/
structure DataStoreState where
  hm : StoreState
  index : Option Nat
deriving DecidableEq

/-- `MongoDataStore.extend` (line 350): assert that `new_data` has as many
series as the store holds, refuse per-document-index stores with
`NotImplementedError`, and otherwise rebuild into a fresh store that is
renamed over this one.  The successful branch's pandas merge and collection
renames are summarized by the `merge` parameter; both error exits precede
any mutation, so they return the state unchanged. -/
def store_extend (merge : DataStoreState → List (String × Nat) → DataStoreState)
    (st : DataStoreState) (df : List (String × Nat)) :
    Except SpecErr Unit × DataStoreState :=
  if df.length ≠ st.hm.docs.length then (.error .assertionFailed, st)
  else
    match st.index with
    | Option.none => (.error .notImplementedOnPerDocumentIndex, st)
    | some _ => (.ok (), merge st df)

/-!
### Store lemmas and the store claims
-/

theorem find?_eq_some_of_unique {α : Type} (p : α → Bool) (l : List α) (a : α)
    (ha : a ∈ l) (hpa : p a = true) (huniq : ∀ b ∈ l, p b = true → b = a) :
    l.find? p = some a := by
  induction l with
  | nil => cases ha
  | cons b rest ih =>
    by_cases hb : p b = true
    · have hba : b = a := huniq b (by simp) hb
      subst hba
      exact List.find?_cons_of_pos _ hb
    · have ha' : a ∈ rest := by
        rcases List.mem_cons.1 ha with h1 | h1
        · subst h1; exact absurd hpa hb
        · exact h1
      rw [List.find?_cons_of_neg _ hb]
      exact ih ha' (fun b2 hb2 hp2 => huniq b2 (List.mem_cons_of_mem _ hb2) hp2)

/-- A stored document whose canonical key is unique in the collection is
located by `_get_doc` (its own hash bucket contains it, and the key scan
stops at it). -/
theorem _get_doc_found (hash : String → Int) (st : StoreState) (d : Doc)
    (hm : d ∈ st.docs) (hh : d.opHash = hash d.opKey)
    (hu : ∀ d2 ∈ st.docs, d2.opKey = d.opKey → d2 = d) :
    _get_doc hash st d.opKey = .ok d := by
  have hmem : d ∈ st.docs.filter (fun d2 => d2.opHash == hash d.opKey) := by
    rw [List.mem_filter]
    exact ⟨hm, by simp [hh]⟩
  have hfind : (st.docs.filter fun d2 => d2.opHash == hash d.opKey).find?
      (fun d2 => d2.opKey == d.opKey) = some d := by
    apply find?_eq_some_of_unique _ _ _ hmem (by simp)
    intro b hb hpb
    exact hu b (List.mem_of_mem_filter hb) (by simpa using hpb)
  simp [_get_doc, hfind]

/-- When no stored document carries the probed canonical key, the scan is
exhausted and `_get_doc` raises the not-found error. -/
theorem _get_doc_not_found (hash : String → Int) (st : StoreState) (k : String)
    (h : ∀ d ∈ st.docs, d.opKey ≠ k) :
    _get_doc hash st k = .error .notFound := by
  have hfind : (st.docs.filter fun d2 => d2.opHash == hash k).find?
      (fun d2 => d2.opKey == k) = Option.none := by
    rw [List.find?_eq_none]
    intro d hd
    simp only [beq_iff_eq]
    exact h d (List.mem_of_mem_filter hd)
  simp [_get_doc, hfind]

/-- Claim C3: store lookup narrows candidates by the operation's `op_hash`
and then confirms identity by full canonical-key comparison only: two stored
operations with distinct canonical keys but colliding hashes are each
retrieved as exactly their own record (on the shared `_get_doc` path used by
get and delete), and a probe whose canonical key matches no stored record
raises the not-found error. -/
theorem c3_collision_safe_lookup (hash : String → Int) (st : StoreState) (d1 d2 : Doc)
    (h1 : d1 ∈ st.docs) (h2 : d2 ∈ st.docs)
    (hh1 : d1.opHash = hash d1.opKey) (hh2 : d2.opHash = hash d2.opKey)
    (hne : d1.opKey ≠ d2.opKey) (hcol : hash d1.opKey = hash d2.opKey)
    (hu : ∀ da ∈ st.docs, ∀ db ∈ st.docs, da.opKey = db.opKey → da = db) :
    _get_doc hash st d1.opKey = .ok d1 ∧ _get_doc hash st d2.opKey = .ok d2
    ∧ _get hash st d1.opKey = .ok d1.values ∧ _get hash st d2.opKey = .ok d2.values
    ∧ ∀ k, (∀ d ∈ st.docs, d.opKey ≠ k) → _get_doc hash st k = .error .notFound := by
  have g1 := _get_doc_found hash st d1 h1 hh1 (fun da ha hk => hu da ha d1 h1 hk)
  have g2 := _get_doc_found hash st d2 h2 hh2 (fun da ha hk => hu da ha d2 h2 hk)
  exact ⟨g1, g2, by simp [_get, g1, Except.map], by simp [_get, g2, Except.map],
    fun k hk => _get_doc_not_found hash st k hk⟩

theorem c3_collision_safe_lookup_witness :
    _get_doc (fun _ => 7) ⟨[⟨Option.none, "a", 0, 7, 0⟩, ⟨Option.none, "b", 1, 7, 0⟩], 0, true⟩
      "a" = .ok ⟨Option.none, "a", 0, 7, 0⟩ :=
  (c3_collision_safe_lookup (fun _ => 7)
    ⟨[⟨Option.none, "a", 0, 7, 0⟩, ⟨Option.none, "b", 1, 7, 0⟩], 0, true⟩
    ⟨Option.none, "a", 0, 7, 0⟩ ⟨Option.none, "b", 1, 7, 0⟩
    (by decide) (by decide) (by decide) (by decide) (by decide) (by decide)
    (by decide)).1

/-- Claim C8: `extend` on a tabular store whose loaded index is per-document
(`index is None`), fed data whose key set matches the store's key set,
raises `NotImplementedError` and leaves the store contents untouched. -/
theorem c8_extend_per_document_index (merge : DataStoreState → List (String × Nat) → DataStoreState)
    (st : DataStoreState) (df : List (String × Nat))
    (hidx : st.index = Option.none)
    (hkeys : (df.map Prod.fst).Perm (st.hm.docs.map Doc.opKey)) :
    store_extend merge st df = (.error .notImplementedOnPerDocumentIndex, st) := by
  have hlen : df.length = st.hm.docs.length := by
    have h := hkeys.length_eq
    simpa using h
  simp [store_extend, hlen, hidx]

theorem c8_extend_per_document_index_witness :
    store_extend (fun s _ => s)
      ⟨⟨[⟨Option.none, "k", 0, 3, 0⟩], 0, true⟩, Option.none⟩ [("k", 5)]
      = (.error .notImplementedOnPerDocumentIndex,
         ⟨⟨[⟨Option.none, "k", 0, 3, 0⟩], 0, true⟩, Option.none⟩) :=
  c8_extend_per_document_index (fun s _ => s)
    ⟨⟨[⟨Option.none, "k", 0, 3, 0⟩], 0, true⟩, Option.none⟩ [("k", 5)]
    (by decide) (by decide)

theorem insertNat_perm (n : Nat) (l : List Nat) : (insertNat n l).Perm (n :: l) := by
  induction l with
  | nil => simp [insertNat]
  | cons m rest ih =>
    by_cases h : n ≤ m
    · simp [insertNat, h]
    · rw [insertNat, if_neg h]
      exact (ih.cons m).trans (List.Perm.swap n m rest)

theorem sortNats_perm (l : List Nat) : (sortNats l).Perm l := by
  induction l with
  | nil => simp [sortNats]
  | cons n rest ih => exact (insertNat_perm n (sortNats rest)).trans (ih.cons n)

theorem insertNat_sorted (n : Nat) (l : List Nat) (h : l.Sorted (· ≤ ·)) :
    (insertNat n l).Sorted (· ≤ ·) := by
  induction l with
  | nil => simp [insertNat]
  | cons m rest ih =>
    rcases List.sorted_cons.1 h with ⟨hm, hrest⟩
    by_cases hnm : n ≤ m
    · rw [insertNat, if_pos hnm]
      refine List.sorted_cons.2 ⟨?_, h⟩
      intro b hb
      rcases List.mem_cons.1 hb with h1 | h1
      · omega
      · exact le_trans hnm (hm b h1)
    · rw [insertNat, if_neg hnm]
      refine List.sorted_cons.2 ⟨?_, ih hrest⟩
      intro b hb
      have hb2 := (insertNat_perm n rest).mem_iff.1 hb
      rcases List.mem_cons.1 hb2 with h1 | h1
      · omega
      · exact hm b h1

theorem sortNats_sorted (l : List Nat) : (sortNats l).Sorted (· ≤ ·) := by
  induction l with
  | nil => simp [sortNats]
  | cons n rest ih => exact insertNat_sorted n (sortNats rest) ih

/-- Sorting equals `range` exactly when the list is a permutation of
`range`. -/
theorem sortNats_eq_range_iff (l : List Nat) :
    sortNats l = List.range l.length ↔ l.Perm (List.range l.length) := by
  constructor
  · intro h
    have hp := sortNats_perm l
    rw [h] at hp
    exact hp.symm
  · intro h
    apply List.eq_of_perm_of_sorted ((sortNats_perm l).trans h) (sortNats_sorted l)
    exact List.Pairwise.imp le_of_lt (List.pairwise_lt_range _)

/-- The metaclass check passes exactly when the declared positions are, as a
multiset, the contiguous block `0..k-1`. -/
theorem specMetaCheck_perm_iff (cd : ClassDef) :
    specMetaCheck cd = .ok () ↔
      (cd.fields.filterMap FieldDef.pos).Perm
        (List.range (cd.fields.filterMap FieldDef.pos).length) := by
  have hlen : (sortNats (cd.fields.filterMap FieldDef.pos)).length
      = (cd.fields.filterMap FieldDef.pos).length := (sortNats_perm _).length_eq
  constructor
  · intro h
    unfold specMetaCheck at h
    by_cases hc : sortNats (cd.fields.filterMap FieldDef.pos)
        = List.range (sortNats (cd.fields.filterMap FieldDef.pos)).length
    · rw [hlen] at hc
      exact (sortNats_eq_range_iff _).1 hc
    · rw [if_neg hc] at h
      exact absurd h (by simp)
  · intro h
    have hc : sortNats (cd.fields.filterMap FieldDef.pos)
        = List.range (sortNats (cd.fields.filterMap FieldDef.pos)).length := by
      rw [hlen]
      exact (sortNats_eq_range_iff _).2 h
    unfold specMetaCheck
    rw [if_pos hc]

/-- Claim C9: the metaclass accepts a Spec class exactly when its declared
field positions are (as a multiset) the contiguous sequence `0..k-1`; any
gap — such as fields at positions 0 and 2 — is rejected at class-definition
time with an error. -/
theorem c9_metaclass_rejects_position_gaps (cd : ClassDef) :
    specMetaCheck cd = .ok () ↔
      (cd.fields.filterMap FieldDef.pos).Perm
        (List.range (cd.fields.filterMap FieldDef.pos).length) :=
  specMetaCheck_perm_iff cd

theorem choiceLoop_pos {st : StoreState} {n : Nat} {draws : List ℚ} {cur : List Doc}
    (h : choiceLoop st n draws = .ok cur) : 0 < cur.length := by
  induction draws with
  | nil => simp [choiceLoop] at h
  | cons r rest ih =>
    simp only [choiceLoop] at h
    split at h
    · rename_i hpos
      cases h
      exact hpos
    · exact ih h

/-- Claim C6 (amended): `choice` returns a bare single item whenever the
result clipped to the first `n` matches has exactly one element — always
when `n = 1`, but also when `n > 1` and the sampled interval held a single
match; with at least two clipped matches it returns the list of the first
`n` matches, which may number fewer than `n`. -/
theorem c6_choice_shape (st : StoreState) (n : Nat) (draws : List ℚ) (cur : List Doc)
    (hne : st.docs.length ≠ 0) (hloop : choiceLoop st n draws = .ok cur) :
    (n = 1 → ∃ d, store_choice st n draws = .ok (.single d))
    ∧ ((cur.take n).length = 1 → ∃ d, store_choice st n draws = .ok (.single d))
    ∧ (2 ≤ (cur.take n).length →
        store_choice st n draws = .ok (.many (cur.take n)) ∧ (cur.take n).length ≤ n) := by
  have hpos := choiceLoop_pos hloop
  refine ⟨?_, ?_, ?_⟩
  · intro hn1
    subst hn1
    cases cur with
    | nil => simp at hpos
    | cons d rest => exact ⟨d, by simp [store_choice, hne, hloop]⟩
  · intro hone
    obtain ⟨d, hd⟩ := List.length_eq_one.1 hone
    exact ⟨d, by simp [store_choice, hne, hloop, hd]⟩
  · intro htwo
    constructor
    · match hc : cur.take n with
      | [] => rw [hc] at htwo; simp at htwo
      | [d] => rw [hc] at htwo; simp at htwo
      | d1 :: d2 :: rest => simp [store_choice, hne, hloop, hc]
    · rw [List.length_take]
      omega

/-- Claim C6, counterexample to the original wording: with `n = 2` and a
draw whose interval holds exactly one of four documents, the result is a
bare single item although `n ≠ 1`. -/
theorem c6_counterexample :
    store_choice ⟨[⟨Option.none, "a", 0, 0, (1 : ℚ)/4⟩, ⟨Option.none, "b", 1, 0, (3 : ℚ)/5⟩,
        ⟨Option.none, "c", 2, 0, (7 : ℚ)/10⟩, ⟨Option.none, "d", 3, 0, (4 : ℚ)/5⟩], 0, true⟩
      2 [0] = .ok (.single ⟨Option.none, "a", 0, 0, (1 : ℚ)/4⟩) ∧ 2 ≠ 1 := by
  refine ⟨?_, by decide⟩
  norm_num [store_choice, choiceLoop, choiceFilter, List.filter, List.take]

theorem c6_choice_shape_witness :
    ∃ d, store_choice ⟨[⟨Option.none, "a", 0, 0, (1 : ℚ)/4⟩, ⟨Option.none, "b", 1, 0, (3 : ℚ)/5⟩,
        ⟨Option.none, "c", 2, 0, (7 : ℚ)/10⟩, ⟨Option.none, "d", 3, 0, (4 : ℚ)/5⟩], 0, true⟩
      1 [(1 : ℚ)/3] = .ok (.single d) :=
  (c6_choice_shape _ 1 _ [⟨Option.none, "a", 0, 0, (1 : ℚ)/4⟩] (by decide)
    (by norm_num [choiceLoop, choiceFilter, List.filter])).1 rfl

theorem assignIdsAux_length (m : Int) (len : Nat) (docs : List Doc) (i : Nat) :
    (assignIdsAux m len i docs).length = docs.length := by
  induction docs generalizing i with
  | nil => rfl
  | cons d rest ih => simp [assignIdsAux, ih]

theorem assignIdsAux_map_opKey (m : Int) (len : Nat) (docs : List Doc) (i : Nat) :
    (assignIdsAux m len i docs).map Doc.opKey = docs.map Doc.opKey := by
  induction docs generalizing i with
  | nil => rfl
  | cons d rest ih => simp [assignIdsAux, ih]

theorem assignIdsAux_map_id (m : Int) (len : Nat) (docs : List Doc) (i : Nat) :
    (assignIdsAux m len i docs).map Doc.id
      = (List.range docs.length).map (fun j : Nat => some (m - (len : Int) + ((i : Int) + (j : Int)))) := by
  induction docs generalizing i with
  | nil => rfl
  | cons d rest ih =>
    rw [List.length_cons, List.range_succ_eq_map]
    simp only [assignIdsAux, List.map_cons, List.map_map]
    congr 1
    rw [ih (i + 1)]
    apply List.map_congr_left
    intro j _
    simp only [Function.comp]
    congr 1
    push_cast
    ring

theorem mem_assignIdsAux_of_mem (m : Int) (len : Nat) (docs : List Doc) (i : Nat)
    (d0 : Doc) (h : d0 ∈ docs) :
    ∃ n : Int, ({ d0 with id := some n } : Doc) ∈ assignIdsAux m len i docs := by
  induction docs generalizing i with
  | nil => cases h
  | cons d rest ih =>
    rcases List.mem_cons.1 h with h1 | h1
    · subst h1
      exact ⟨m - len + i, by simp [assignIdsAux]⟩
    · obtain ⟨n, hn⟩ := ih (i + 1) h1
      exact ⟨n, List.mem_cons_of_mem _ hn⟩

theorem anyDupId_false (st : StoreState) (docs : List Doc) (B : Int)
    (hlow : ∀ d ∈ st.docs, ∀ i : Int, d.id = some i → i < B)
    (hhigh : ∀ d ∈ docs, ∀ i : Int, d.id = some i → B ≤ i) :
    anyDupId st docs = false := by
  rw [anyDupId, List.any_eq_false]
  intro d hd
  cases hid : d.id with
  | none => simp [hid]
  | some i =>
    simp only [hid]
    intro hcontra
    rw [hasId, List.any_eq_true] at hcontra
    obtain ⟨d2, hd2, hbeq⟩ := hcontra
    have hd2i : d2.id = some i := by simpa using hbeq
    have hlt := hlow d2 hd2 i hd2i
    have hge := hhigh d hd i hid
    omega

/-- Claim C7: committing a non-empty batch of `k` appended documents on a
store with incremental ids persists exactly `k` new records whose `_id`s are
the contiguous ascending range `max_id - k .. max_id - 1` (with `max_id` the
post-increment counter value), each retrievable by its operation's canonical
key, and leaves the batch buffer empty. -/
theorem c7_batch_commit (hash : String → Int) (st : StoreState) (b : Batch) (k fuel : Nat)
    (hinc : st.addIncrementalId = true)
    (hkk : b._docs.length = k) (hk0 : 0 < k)
    (hbound : ∀ d ∈ st.docs, ∀ i : Int, d.id = some i → i < st.idSeq)
    (hnodup : ((st.docs ++ b._docs).map Doc.opKey).Nodup)
    (hhb : ∀ d ∈ b._docs, d.opHash = hash d.opKey) :
    ∃ st2, batchCommit st b (fuel + 1) = .ok (st2, ⟨[]⟩)
      ∧ st2.idSeq = st.idSeq + (k : Int)
      ∧ st2.docs.length = st.docs.length + k
      ∧ st2.docs.map Doc.opKey = (st.docs ++ b._docs).map Doc.opKey
      ∧ (st2.docs.drop st.docs.length).map Doc.id
          = (List.range k).map (fun j : Nat => some (st.idSeq + (j : Int)))
      ∧ ∀ d0 ∈ b._docs, ∃ d2 ∈ st2.docs, d2.opKey = d0.opKey ∧ d2.values = d0.values
          ∧ _get_doc hash st2 d2.opKey = .ok d2 := by
  subst hkk
  have hids : (assignIds b._docs (st.idSeq + (b._docs.length : Int))).map Doc.id
      = (List.range b._docs.length).map (fun j : Nat => some (st.idSeq + (j : Int))) := by
    rw [assignIds, assignIdsAux_map_id]
    apply List.map_congr_left
    intro j _
    congr 1
    push_cast
    ring
  have hkeys : (assignIds b._docs (st.idSeq + (b._docs.length : Int))).map Doc.opKey
      = b._docs.map Doc.opKey := by
    rw [assignIds, assignIdsAux_map_opKey]
  have hhigh : ∀ d ∈ assignIds b._docs (st.idSeq + (b._docs.length : Int)),
      ∀ i : Int, d.id = some i → st.idSeq ≤ i := by
    intro d hd i hdi
    have hmm : d.id ∈ (assignIds b._docs (st.idSeq + (b._docs.length : Int))).map Doc.id :=
      List.mem_map_of_mem _ hd
    rw [hids] at hmm
    obtain ⟨j, hj, hji⟩ := List.mem_map.1 hmm
    rw [hdi] at hji
    have hij : st.idSeq + (j : Int) = i := Option.some.inj hji
    omega
  have hdup : ∀ (q : Int) (a : Bool),
      anyDupId { docs := st.docs, idSeq := q, addIncrementalId := a }
        (assignIds b._docs (st.idSeq + (b._docs.length : Int))) = false := by
    intro q a
    apply anyDupId_false _ _ st.idSeq
    · exact fun d hd i hdi => hbound d hd i hdi
    · exact hhigh
  have hins : _insert st b._docs (fuel + 1)
      = .ok { docs := st.docs ++ assignIds b._docs (st.idSeq + (b._docs.length : Int)),
              idSeq := st.idSeq + (b._docs.length : Int),
              addIncrementalId := st.addIncrementalId } := by
    simp [_insert, hinc, hdup]
  have hcommit : batchCommit st b (fuel + 1)
      = .ok ({ docs := st.docs ++ assignIds b._docs (st.idSeq + (b._docs.length : Int)),
               idSeq := st.idSeq + (b._docs.length : Int),
               addIncrementalId := st.addIncrementalId }, ⟨[]⟩) := by
    rw [batchCommit, if_pos (by omega)]
    rw [hins]
  refine ⟨_, hcommit, rfl, ?_, ?_, ?_, ?_⟩
  · simp only [List.length_append]
    rw [assignIds, assignIdsAux_length]
  · simp only [List.map_append]
    rw [hkeys]
  · rw [List.drop_left]
    exact hids
  · intro d0 hd0
    obtain ⟨n, hn⟩ := mem_assignIdsAux_of_mem (st.idSeq + (b._docs.length : Int))
      b._docs.length b._docs 0 d0 hd0
    have hd2mem : ({ d0 with id := some n } : Doc)
        ∈ st.docs ++ assignIds b._docs (st.idSeq + (b._docs.length : Int)) :=
      List.mem_append_right _ hn
    refine ⟨{ d0 with id := some n }, hd2mem, rfl, rfl, ?_⟩
    apply _get_doc_found
    · exact hd2mem
    · show d0.opHash = hash d0.opKey
      exact hhb d0 hd0
    · intro d3 hd3 hk3
      have hnodup2 : ((st.docs
          ++ assignIds b._docs (st.idSeq + (b._docs.length : Int))).map Doc.opKey).Nodup := by
        simp only [List.map_append]
        rw [hkeys]
        simpa using hnodup
      exact List.inj_on_of_nodup_map hnodup2 hd3 hd2mem hk3

theorem c7_batch_commit_witness :
    ∃ st2, batchCommit ⟨[], 0, true⟩ ⟨[⟨Option.none, "x", 5, 0, 0⟩]⟩ 1 = .ok (st2, ⟨[]⟩)
      ∧ st2.idSeq = 1 ∧ st2.docs.length = 1 := by
  obtain ⟨st2, h1, h2, h3, _⟩ := c7_batch_commit (fun _ => 0) ⟨[], 0, true⟩
    ⟨[⟨Option.none, "x", 5, 0, 0⟩]⟩ 1 0 rfl rfl (by decide) (by decide) (by decide) (by decide)
  exact ⟨st2, h1, by simpa using h2, by simpa using h3⟩

/-!
### Construction analysis (claim C4)
-/

theorem pos2nameOf_map_fst (fields : List FieldDef) :
    (pos2nameOf fields).map Prod.fst = fields.filterMap FieldDef.pos := by
  induction fields with
  | nil => rfl
  | cons fd rest ih =>
    cases hp : fd.pos with
    | none => simp [pos2nameOf, List.filterMap_cons, hp] at ih ⊢; exact ih
    | some p => simp [pos2nameOf, List.filterMap_cons, hp] at ih ⊢; exact ih

theorem filterMap_pos_length (fields : List FieldDef) :
    (fields.filterMap FieldDef.pos).length
      + (fields.filter fun fd => fd.pos.isNone).length = fields.length := by
  induction fields with
  | nil => rfl
  | cons fd rest ih =>
    cases hp : fd.pos with
    | none =>
      simp only [List.filterMap_cons, hp, List.filter_cons, Option.isNone_none, if_pos,
        List.length_cons]
      omega
    | some p =>
      simp only [List.filterMap_cons, hp, List.filter_cons, Option.isNone_some,
        Bool.false_eq_true, if_false, List.length_cons]
      omega

theorem foldl_max_lt (B : Nat) :
    ∀ (l : List Nat) (a : Nat), (∀ x ∈ l, x < B) → a < B → l.foldl max a < B
  | [], a, _, ha => by simpa using ha
  | x :: rest, a, h, ha => by
    simp only [List.foldl_cons]
    exact foldl_max_lt B rest (max a x)
      (fun y hy => h y (List.mem_cons_of_mem _ hy))
      (by have := h x (List.mem_cons_self x rest); omega)

/-- Any position declared by a metaclass-valid class is below the number of
positional fields. -/
theorem metaCheck_pos_lt (cd : ClassDef) (hm : specMetaCheck cd = .ok ()) :
    ∀ x ∈ cd.fields.filterMap FieldDef.pos,
      x < (cd.fields.filterMap FieldDef.pos).length := by
  intro x hx
  have hperm := (specMetaCheck_perm_iff cd).1 hm
  exact List.mem_range.1 (hperm.mem_iff.1 hx)

/-- Under the metaclass invariant, `max_nargs` never exceeds the number of
declared fields. -/
theorem maxNargs_le (cd : ClassDef) (hm : specMetaCheck cd = .ok ()) :
    maxNargs cd.fields ≤ cd.fields.length := by
  by_cases hp : (pos2nameOf cd.fields).isEmpty
  · rw [maxNargs, if_pos hp]
    omega
  · rw [maxNargs, if_neg hp]
    rw [pos2nameOf_map_fst]
    have hlen0 : 0 < (pos2nameOf cd.fields).length := by
      cases hq : pos2nameOf cd.fields with
      | nil => rw [hq] at hp; exact absurd rfl hp
      | cons q rest => simp [hq]
    have hlenL : (cd.fields.filterMap FieldDef.pos).length = (pos2nameOf cd.fields).length := by
      rw [← pos2nameOf_map_fst, List.length_map]
    have hfold : (cd.fields.filterMap FieldDef.pos).foldl max 0
        < (cd.fields.filterMap FieldDef.pos).length := by
      apply foldl_max_lt _ _ _ (metaCheck_pos_lt cd hm)
      omega
    have hsum := filterMap_pos_length cd.fields
    omega

/-- Under the metaclass invariant, every position below the number of
positional fields resolves through `pos2name`. -/
theorem lookupPos_isSome (cd : ClassDef) (hm : specMetaCheck cd = .ok ())
    (i : Nat) (hi : i < (pos2nameOf cd.fields).length) :
    (lookupPos (pos2nameOf cd.fields) i).isSome = true := by
  have hperm := (specMetaCheck_perm_iff cd).1 hm
  have hlenL : (cd.fields.filterMap FieldDef.pos).length = (pos2nameOf cd.fields).length := by
    rw [← pos2nameOf_map_fst, List.length_map]
  have hiL : i ∈ cd.fields.filterMap FieldDef.pos := by
    apply hperm.mem_iff.2
    rw [hlenL]
    exact List.mem_range.2 hi
  have hiM : i ∈ (pos2nameOf cd.fields).map Prod.fst := by
    rw [pos2nameOf_map_fst]
    exact hiL
  obtain ⟨q, hqmem, hqi⟩ := List.mem_map.1 hiM
  have hfind : ((pos2nameOf cd.fields).find? fun p => p.1 == i).isSome = true := by
    rw [List.find?_isSome]
    exact ⟨q, hqmem, by simp [hqi]⟩
  obtain ⟨q2, hq2⟩ := Option.isSome_iff_exists.1 hfind
  simp [lookupPos, hq2]

/-- The positional loop succeeds whenever every consumed index resolves. -/
theorem applyPositionalAux_ok (p2n : List (Nat × String)) :
    ∀ (args : List PyVal) (i : Nat) (kwargs : List (String × PyVal)),
      (∀ j, j < args.length → (lookupPos p2n (i + j)).isSome = true) →
      ∃ kw, applyPositionalAux p2n i args kwargs = .ok kw
  | [], _, kwargs, _ => ⟨kwargs, rfl⟩
  | arg :: rest, i, kwargs, h => by
    have h0 := h 0 (by simp)
    rcases hl : lookupPos p2n (i + 0) with _ | name
    · rw [hl] at h0
      simp at h0
    · have hl' : lookupPos p2n i = some name := by simpa using hl
      rw [applyPositionalAux, hl']
      apply applyPositionalAux_ok p2n rest (i + 1) (pyInsert kwargs name arg)
      intro j hj
      have h2 := h (j + 1) (by simp only [List.length_cons]; omega)
      rw [show i + 1 + j = i + (j + 1) by omega]
      exact h2

theorem checkValues_ok_iff (reg : Registry) (fields : List FieldDef)
    (kw : List (String × PyVal)) :
    checkValues reg fields kw = .ok () ↔
      ∀ fd ∈ fields, ∀ v, pyGet kw fd.name = some v → v.isNone = false →
        check_valid_value reg fd.kind v = true := by
  induction fields with
  | nil => simp [checkValues]
  | cons fd rest ih =>
    have hstep : checkValues reg (fd :: rest) kw = .ok () ↔
        ((∀ v, pyGet kw fd.name = some v → v.isNone = false →
            check_valid_value reg fd.kind v = true)
          ∧ checkValues reg rest kw = .ok ()) := by
      cases hv : pyGet kw fd.name with
      | none =>
        simp only [checkValues, hv]
        constructor
        · intro h
          exact ⟨fun v hveq _ => absurd hveq (by simp), h⟩
        · intro h
          exact h.2
      | some v =>
        simp only [checkValues, hv]
        by_cases hn : v.isNone = true
        · rw [if_pos hn]
          constructor
          · intro h
            refine ⟨?_, h⟩
            intro v2 hv2 hnone2
            have he : v = v2 := Option.some.inj hv2
            subst he
            rw [hn] at hnone2
            cases hnone2
          · exact fun h => h.2
        · rw [if_neg hn]
          by_cases hcv : check_valid_value reg fd.kind v = true
          · rw [if_pos hcv]
            constructor
            · intro h
              refine ⟨?_, h⟩
              intro v2 hv2 _
              have he : v = v2 := Option.some.inj hv2
              subst he
              exact hcv
            · exact fun h => h.2
          · rw [if_neg hcv]
            constructor
            · intro h
              exact absurd h (by simp)
            · intro h
              have hn' : v.isNone = false := by simpa using hn
              exact absurd (h.1 v rfl hn') hcv
    rw [hstep, ih]
    constructor
    · intro h fd2 hfd2 v hv2 hn2
      rcases List.mem_cons.1 hfd2 with h1 | h1
      · subst h1
        exact h.1 v hv2 hn2
      · exact h.2 fd2 h1 v hv2 hn2
    · intro h
      exact ⟨fun v hv2 hn2 => h fd (List.mem_cons_self _ _) v hv2 hn2,
             fun fd2 h1 v hv2 hn2 => h fd2 (List.mem_cons_of_mem _ h1) v hv2 hn2⟩

theorem checkValues_error (reg : Registry) (fields : List FieldDef)
    (kw : List (String × PyVal)) (e : SpecErr)
    (h : checkValues reg fields kw = .error e) : ∃ n, e = .invalidValue n := by
  induction fields with
  | nil => simp [checkValues] at h
  | cons fd rest ih =>
    cases hv : pyGet kw fd.name with
    | none =>
      simp only [checkValues, hv] at h
      exact ih h
    | some v =>
      simp only [checkValues, hv] at h
      by_cases hn : v.isNone = true
      · rw [if_pos hn] at h
        exact ih h
      · rw [if_neg hn] at h
        by_cases hcv : check_valid_value reg fd.kind v = true
        · rw [if_pos hcv] at h
          exact ih h
        · rw [if_neg hcv] at h
          exact ⟨fd.name, (Except.error.inj h).symm⟩

theorem checkExtraParams_error (fields : List FieldDef) (kw : List (String × PyVal))
    (e : SpecErr) (h : checkExtraParams fields kw = .error e) : ∃ n, e = .extraParam n := by
  induction kw with
  | nil => simp [checkExtraParams] at h
  | cons p rest ih =>
    obtain ⟨k, v⟩ := p
    rw [checkExtraParams] at h
    by_cases hk : k ∈ fieldNames fields
    · rw [if_pos hk] at h
      exact ih h
    · rw [if_neg hk] at h
      exact ⟨k, (Except.error.inj h).symm⟩

theorem checkExtraParams_ok_sub (fields : List FieldDef) (kw : List (String × PyVal))
    (h : checkExtraParams fields kw = .ok ()) :
    ∀ k ∈ keysOf kw, k ∈ fieldNames fields := by
  induction kw with
  | nil => simp [keysOf]
  | cons p rest ih =>
    obtain ⟨k, v⟩ := p
    rw [checkExtraParams] at h
    by_cases hk : k ∈ fieldNames fields
    · rw [if_pos hk] at h
      intro k2 hk2
      rw [keysOf_cons] at hk2
      rcases List.mem_cons.1 hk2 with h1 | h1
      · subst h1; exact hk
      · exact ih h k2 h1
    · rw [if_neg hk] at h
      exact absurd h (by simp)

theorem keysOf_pyInsert (kw : List (String × PyVal)) (k : String) (v : PyVal) :
    keysOf (pyInsert kw k v) = if k ∈ keysOf kw then keysOf kw else keysOf kw ++ [k] := by
  induction kw with
  | nil => simp [pyInsert, keysOf]
  | cons p rest ih =>
    obtain ⟨k0, v0⟩ := p
    by_cases h : k0 = k
    · subst h
      simp [pyInsert]
    · rw [pyInsert, if_neg h]
      simp only [keysOf_cons, ih]
      by_cases hm : k ∈ keysOf rest
      · rw [if_pos hm, if_pos (List.mem_cons_of_mem _ hm)]
      · rw [if_neg hm, if_neg]
        · simp
        · intro hc
          rcases List.mem_cons.1 hc with h1 | h1
          · exact h h1.symm
          · exact hm h1

theorem keysOf_pyInsert_nodup (kw : List (String × PyVal)) (k : String) (v : PyVal)
    (h : (keysOf kw).Nodup) : (keysOf (pyInsert kw k v)).Nodup := by
  rw [keysOf_pyInsert]
  by_cases hm : k ∈ keysOf kw
  · rw [if_pos hm]
    exact h
  · rw [if_neg hm]
    rw [List.nodup_append]
    refine ⟨h, List.nodup_singleton _, ?_⟩
    intro a ha hb
    rw [List.mem_singleton] at hb
    subst hb
    exact hm ha

theorem applyPositionalAux_nodup (p2n : List (Nat × String)) :
    ∀ (args : List PyVal) (i : Nat) (kwargs kw : List (String × PyVal)),
      (keysOf kwargs).Nodup → applyPositionalAux p2n i args kwargs = .ok kw →
      (keysOf kw).Nodup
  | [], _, kwargs, kw, hn, h => by
    rw [applyPositionalAux] at h
    cases h
    exact hn
  | arg :: rest, i, kwargs, kw, hn, h => by
    rw [applyPositionalAux] at h
    cases hl : lookupPos p2n i with
    | none =>
      rw [hl] at h
      cases h
    | some name =>
      rw [hl] at h
      exact applyPositionalAux_nodup p2n rest (i + 1) _ kw
        (keysOf_pyInsert_nodup _ _ _ hn) h

theorem applyDefaults_nodup (fields : List FieldDef) :
    ∀ kw : List (String × PyVal), (keysOf kw).Nodup →
      (keysOf (applyDefaults fields kw)).Nodup := by
  induction fields with
  | nil =>
    intro kw h
    simpa [applyDefaults] using h
  | cons fd rest ih =>
    intro kw h
    have hstep : (keysOf (match fd.default with
        | some d => if (pyGet kw fd.name).isNone then pyInsert kw fd.name d else kw
        | Option.none => kw)).Nodup := by
      cases fd.default with
      | none => exact h
      | some d =>
        show (keysOf (if (pyGet kw fd.name).isNone = true then pyInsert kw fd.name d
          else kw)).Nodup
        by_cases hg : (pyGet kw fd.name).isNone = true
        · rw [if_pos hg]
          exact keysOf_pyInsert_nodup _ _ _ h
        · rw [if_neg hg]
          exact h
    have := ih _ hstep
    simpa [applyDefaults, List.foldl_cons] using this

/-- Claim C4: for a metaclass-valid Spec class, supplying one more positional
argument than the class declares fields for is rejected with the
validation error that cites both counts; every failure of construction whose
positional arguments stay within the declared positions is an
InvalidSpecInstance validation error (missing required fields, unknown
names, wrong arity, or a value failing its field's type predicate); and a
successful construction binds every declared field, mentions only declared
names, and carries only values that pass their field's predicate (the `None`
exemption aside). -/
theorem c4_construction_validation (reg : Registry) (cd : ClassDef)
    (args : List PyVal) (kwargs0 : List (String × PyVal))
    (hm : specMetaCheck cd = .ok ()) :
    (args.length = cd.fields.length + 1 →
      specConstruct reg cd args kwargs0
        = .error (.tooManyPositional args.length (maxNargs cd.fields))
      ∧ (SpecErr.tooManyPositional args.length (maxNargs cd.fields)).isInvalidSpecInstance
          = true)
    ∧ (∀ e, args.length ≤ (pos2nameOf cd.fields).length →
        specConstruct reg cd args kwargs0 = .error e → e.isInvalidSpecInstance = true)
    ∧ (∀ c fs, (keysOf kwargs0).Nodup → specConstruct reg cd args kwargs0 = .ok (c, fs) →
        c = cd.name
        ∧ (∀ fd ∈ cd.fields, (pyGet fs fd.name).isSome = true)
        ∧ (∀ k ∈ keysOf fs, k ∈ fieldNames cd.fields)
        ∧ (∀ fd ∈ cd.fields, ∀ v, pyGet fs fd.name = some v → v.isNone = false →
            check_valid_value reg fd.kind v = true)) := by
  refine ⟨?_, ?_, ?_⟩
  · intro hlen
    have hgt : args.length > maxNargs cd.fields := by
      have := maxNargs_le cd hm
      omega
    rw [specConstruct, if_pos hgt]
    exact ⟨rfl, rfl⟩
  · intro e hargs hcon
    rw [specConstruct] at hcon
    by_cases hgt : args.length > maxNargs cd.fields
    · rw [if_pos hgt] at hcon
      cases hcon
      rfl
    · rw [if_neg hgt] at hcon
      obtain ⟨kw1, hkw1⟩ := applyPositionalAux_ok (pos2nameOf cd.fields) args 0 kwargs0
        (fun j hj => lookupPos_isSome cd hm (0 + j) (by omega))
      simp only [hkw1] at hcon
      by_cases h2 : (applyDefaults cd.fields kw1).length > cd.fields.length
      · rw [if_pos h2] at hcon
        cases hcon
        rfl
      · rw [if_neg h2] at hcon
        by_cases h3 : (applyDefaults cd.fields kw1).length < cd.fields.length
        · rw [if_pos h3] at hcon
          cases hcon
          rfl
        · rw [if_neg h3] at hcon
          cases hcv : checkValues reg cd.fields (applyDefaults cd.fields kw1) with
          | error e2 =>
            simp only [hcv] at hcon
            cases hcon
            obtain ⟨n, hn⟩ := checkValues_error _ _ _ _ hcv
            subst hn
            rfl
          | ok u =>
            cases u
            simp only [hcv] at hcon
            cases hce : checkExtraParams cd.fields (applyDefaults cd.fields kw1) with
            | error e2 =>
              simp only [hce] at hcon
              cases hcon
              obtain ⟨n, hn⟩ := checkExtraParams_error _ _ _ hce
              subst hn
              rfl
            | ok u2 =>
              cases u2
              simp only [hce] at hcon
              cases hcon
  · intro c fs hnk hcon
    rw [specConstruct] at hcon
    by_cases hgt : args.length > maxNargs cd.fields
    · rw [if_pos hgt] at hcon
      cases hcon
    · rw [if_neg hgt] at hcon
      cases hap : applyPositionalAux (pos2nameOf cd.fields) 0 args kwargs0 with
      | error e =>
        simp only [hap] at hcon
        cases hcon
      | ok kw1 =>
        simp only [hap] at hcon
        by_cases h2 : (applyDefaults cd.fields kw1).length > cd.fields.length
        · rw [if_pos h2] at hcon
          cases hcon
        · rw [if_neg h2] at hcon
          by_cases h3 : (applyDefaults cd.fields kw1).length < cd.fields.length
          · rw [if_pos h3] at hcon
            cases hcon
          · rw [if_neg h3] at hcon
            cases hcv : checkValues reg cd.fields (applyDefaults cd.fields kw1) with
            | error e2 =>
              simp only [hcv] at hcon
              cases hcon
            | ok u =>
              cases u
              simp only [hcv] at hcon
              cases hce : checkExtraParams cd.fields (applyDefaults cd.fields kw1) with
              | error e2 =>
                simp only [hce] at hcon
                cases hcon
              | ok u2 =>
                cases u2
                simp only [hce] at hcon
                have hpair := Except.ok.inj hcon
                cases hpair
                have hlen : (applyDefaults cd.fields kw1).length = cd.fields.length := by
                  omega
                have hnod1 := applyPositionalAux_nodup (pos2nameOf cd.fields) args 0
                  kwargs0 kw1 hnk hap
                have hnod2 := applyDefaults_nodup cd.fields kw1 hnod1
                have hsub := checkExtraParams_ok_sub cd.fields _ hce
                have hkeylen : (fieldNames cd.fields).length
                    ≤ (keysOf (applyDefaults cd.fields kw1)).length := by
                  simp only [keysOf, fieldNames, List.length_map]
                  omega
                have hperm : (keysOf (applyDefaults cd.fields kw1)).Perm
                    (fieldNames cd.fields) :=
                  (List.subperm_of_subset hnod2 hsub).perm_of_length_le hkeylen
                refine ⟨rfl, ?_, hsub, (checkValues_ok_iff reg cd.fields _).1 hcv⟩
                intro fd hfd
                rw [pyGet_isSome_iff]
                exact hperm.mem_iff.2 (List.mem_map_of_mem _ hfd)

theorem c4_construction_validation_witness :
    specConstruct [] (⟨"A", "Spec", [⟨"x", .primitive, some 0, Option.none⟩], false⟩ : ClassDef)
        [.pint 1, .pint 2] [] = .error (.tooManyPositional 2 1)
      ∧ (SpecErr.tooManyPositional 2 1).isInvalidSpecInstance = true :=
  (c4_construction_validation [] ⟨"A", "Spec", [⟨"x", .primitive, some 0, Option.none⟩], false⟩
    [.pint 1, .pint 2] [] rfl).1 (by decide)

theorem applyDefaults_id (fields : List FieldDef) :
    ∀ kw : List (String × PyVal), (∀ fd ∈ fields, fd.name ∈ keysOf kw) →
      applyDefaults fields kw = kw := by
  induction fields with
  | nil =>
    intro kw _
    rfl
  | cons fd rest ih =>
    intro kw h
    have hmem := h fd (List.mem_cons_self _ _)
    have hsome : (pyGet kw fd.name).isNone = false := by
      cases hg : pyGet kw fd.name with
      | none => exact absurd hmem ((pyGet_eq_none_iff _ _).1 hg)
      | some v => rfl
    have hstep : (match fd.default with
        | some d => if (pyGet kw fd.name).isNone = true then pyInsert kw fd.name d else kw
        | Option.none => kw) = kw := by
      cases fd.default with
      | none => rfl
      | some d =>
        show (if (pyGet kw fd.name).isNone = true then pyInsert kw fd.name d else kw) = kw
        rw [hsome]
        simp
    simp only [applyDefaults, List.foldl_cons]
    rw [hstep]
    exact ih kw (fun fd2 h2 => h fd2 (List.mem_cons_of_mem _ h2))

theorem checkExtraParams_ok_of_sub (fields : List FieldDef) :
    ∀ kw : List (String × PyVal), (∀ k ∈ keysOf kw, k ∈ fieldNames fields) →
      checkExtraParams fields kw = .ok () := by
  intro kw
  induction kw with
  | nil => intro _; rfl
  | cons p rest ih =>
    obtain ⟨k, v⟩ := p
    intro h
    rw [checkExtraParams, if_pos (h k (by simp))]
    exact ih (fun k2 h2 => h k2 (by simp [h2]))

/-- Claim C10: supplying `None` for any declared field at construction
bypasses the field's type predicate (`if val is None: continue`), so the
instance is built with the field bound to `None` even for Numeric,
Collection, Spec-typed and SpecCollection fields whose predicate rejects
`None`; `replace(field=None)` has no such exemption — it runs the predicate
on `None` and fails with the validation error. -/
theorem c10_none_skips_validation (reg : Registry) (cd : ClassDef)
    (kwargs : List (String × PyVal)) (f : FieldDef) (hf : f ∈ cd.fields)
    (hperm : (keysOf kwargs).Perm (fieldNames cd.fields))
    (hnk : (keysOf kwargs).Nodup)
    (hvals : ∀ fd ∈ cd.fields, ∀ v, pyGet kwargs fd.name = some v → v.isNone = false →
      check_valid_value reg fd.kind v = true)
    (hfnone : pyGet kwargs f.name = some .pnone) :
    specConstruct reg cd [] kwargs = .ok (cd.name, kwargs)
    ∧ pyGet kwargs f.name = some .pnone
    ∧ (check_valid_value reg .numeric .pnone = false
       ∧ check_valid_value reg .collection .pnone = false
       ∧ (∀ b, check_valid_value reg (.baseSpec b) .pnone = false)
       ∧ check_valid_value reg .specCollection .pnone = false)
    ∧ (∀ (cls attr : String) (fd : FieldDef) (rest : List (String × PyVal))
         (fs : List (String × PyVal)) (res : Inst),
        getFieldSpec reg cls attr = some fd →
        check_valid_value reg fd.kind .pnone = false →
        spec_copy reg cls fs = .ok res →
        spec_replace reg cls fs ((attr, .pnone) :: rest) = .error (.invalidValue attr)) := by
  refine ⟨?_, hfnone, ⟨rfl, rfl, ?_, rfl⟩, ?_⟩
  · have hpresent : ∀ fd ∈ cd.fields, fd.name ∈ keysOf kwargs :=
      fun fd hfd => hperm.mem_iff.2 (List.mem_map_of_mem _ hfd)
    have hlen : kwargs.length = cd.fields.length := by
      have hq := hperm.length_eq
      simpa [keysOf, fieldNames] using hq
    have hcv : checkValues reg cd.fields kwargs = .ok () :=
      (checkValues_ok_iff reg cd.fields kwargs).2 hvals
    have hce : checkExtraParams cd.fields kwargs = .ok () :=
      checkExtraParams_ok_of_sub cd.fields kwargs
        (fun k hk => hperm.mem_iff.1 hk)
    rw [specConstruct, if_neg (by simp)]
    simp only [applyPositionalAux]
    rw [applyDefaults_id cd.fields kwargs hpresent]
    rw [if_neg (by omega), if_neg (by omega)]
    simp only [hcv, hce]
  · intro b
    cases b <;> rfl
  · intro cls attr fd rest fs res hg hcv hcopy
    simp only [spec_replace, hcopy]
    simp only [replaceFields, hg]
    rw [if_neg (by simp [hcv])]

theorem c10_none_skips_validation_witness :
    specConstruct [] (⟨"A", "Spec", [⟨"x", .numeric, Option.none, Option.none⟩], false⟩ : ClassDef)
        [] [("x", .pnone)] = .ok ("A", [("x", .pnone)]) :=
  (c10_none_skips_validation [] ⟨"A", "Spec", [⟨"x", .numeric, Option.none, Option.none⟩], false⟩
    [("x", .pnone)] ⟨"x", .numeric, Option.none, Option.none⟩ (by simp)
    (by simp [keysOf, fieldNames]) (by simp [keysOf])
    (by
      intro fd hfd v hv hn
      simp at hfd
      subst hfd
      simp [pyGet] at hv
      subst hv
      simp [PyVal.isNone] at hn)
    (by simp [pyGet])).1

/-!
### Serialization equations and key congruence (claim C2)
-/

theorem spec2dictFields_nil (reg : Registry) (cls : String) :
    spec2dictFields reg cls [] = [] := by
  simp [spec2dictFields]

theorem spec2dictFields_cons (reg : Registry) (cls : String) (a : String) (v : PyVal)
    (rest : List (String × PyVal)) :
    spec2dictFields reg cls ((a, v) :: rest)
      = (a, spec2dictVal reg (fieldKindOf reg cls a) v) :: spec2dictFields reg cls rest := by
  simp [spec2dictFields]

theorem inst2dict_eq (reg : Registry) (cls : String) (fs : List (String × PyVal)) :
    inst2dict reg cls fs
      = .pdict (("type", .pstr cls) :: instFieldVals reg cls (spec2dictFields reg cls fs)) := by
  simp [inst2dict]

theorem pyGet_pyInsert (kw : List (String × PyVal)) (k : String) (v : PyVal) (n : String) :
    pyGet (pyInsert kw k v) n = if k = n then some v else pyGet kw n := by
  induction kw with
  | nil =>
    simp [pyInsert, pyGet]
  | cons p rest ih =>
    obtain ⟨k0, w⟩ := p
    by_cases hk : k0 = k
    · subst hk
      by_cases hn : k0 = n
      · subst hn
        simp [pyInsert, pyGet]
      · simp [pyInsert, pyGet, hn]
    · rw [pyInsert, if_neg hk]
      by_cases hn : k0 = n
      · subst hn
        rw [pyGet, if_pos rfl, if_neg (fun hc => hk hc.symm), pyGet, if_pos rfl]
      · rw [pyGet, if_neg hn, ih]
        by_cases hkn : k = n
        · rw [if_pos hkn, if_pos hkn]
        · rw [if_neg hkn, if_neg hkn, pyGet, if_neg hn]

theorem pyGet_spec2dictFields (reg : Registry) (cls : String) (fs : List (String × PyVal))
    (n : String) :
    pyGet (spec2dictFields reg cls fs) n
      = (pyGet fs n).map (spec2dictVal reg (fieldKindOf reg cls n)) := by
  induction fs with
  | nil => simp [spec2dictFields, pyGet]
  | cons p rest ih =>
    obtain ⟨a, v⟩ := p
    by_cases h : a = n
    · subst h
      rw [spec2dictFields_cons]
      simp [pyGet]
    · rw [spec2dictFields_cons]
      simp [pyGet, h, ih]

/-- `to_dict` reads attributes only through lookups, so instances with equal
attribute lookups serialize identically. -/
theorem inst2dict_congr (reg : Registry) (cls : String)
    (fs1 fs2 : List (String × PyVal)) (h : ∀ n, pyGet fs1 n = pyGet fs2 n) :
    inst2dict reg cls fs1 = inst2dict reg cls fs2 := by
  have hbase : ∀ n, getattrV (spec2dictFields reg cls fs1) n
      = getattrV (spec2dictFields reg cls fs2) n := by
    intro n
    rw [getattrV, getattrV, pyGet_spec2dictFields, pyGet_spec2dictFields, h n]
  have hvals : instFieldVals reg cls (spec2dictFields reg cls fs1)
      = instFieldVals reg cls (spec2dictFields reg cls fs2) := by
    rw [instFieldVals, instFieldVals]
    cases lookupClass reg cls with
    | none => rfl
    | some cd =>
      show (fieldNames cd.fields).map (fun n => (n, getattrV (spec2dictFields reg cls fs1) n))
        = (fieldNames cd.fields).map (fun n => (n, getattrV (spec2dictFields reg cls fs2) n))
      apply List.map_congr_left
      intro n _
      rw [hbase n]
  rw [inst2dict_eq, inst2dict_eq, hvals]

theorem spec_key_congr (reg : Registry) (cls : String)
    (fs1 fs2 : List (String × PyVal)) (h : ∀ n, pyGet fs1 n = pyGet fs2 n) :
    spec_key reg cls fs1 = spec_key reg cls fs2 := by
  rw [spec_key, spec_key, inst2dict_congr reg cls fs1 fs2 h]

theorem applyDefaults_pyGet_congr (fields : List FieldDef) :
    ∀ kw1 kw2 : List (String × PyVal), (∀ n, pyGet kw1 n = pyGet kw2 n) →
      ∀ n, pyGet (applyDefaults fields kw1) n = pyGet (applyDefaults fields kw2) n := by
  induction fields with
  | nil =>
    intro kw1 kw2 h n
    exact h n
  | cons fd rest ih =>
    intro kw1 kw2 h n
    have hstep : ∀ m, pyGet (match fd.default with
        | some d => if (pyGet kw1 fd.name).isNone = true then pyInsert kw1 fd.name d else kw1
        | Option.none => kw1) m
        = pyGet (match fd.default with
        | some d => if (pyGet kw2 fd.name).isNone = true then pyInsert kw2 fd.name d else kw2
        | Option.none => kw2) m := by
      intro m
      cases fd.default with
      | none => exact h m
      | some d =>
        show pyGet (if (pyGet kw1 fd.name).isNone = true then pyInsert kw1 fd.name d else kw1) m
          = pyGet (if (pyGet kw2 fd.name).isNone = true then pyInsert kw2 fd.name d else kw2) m
        rw [h fd.name]
        by_cases hg : (pyGet kw2 fd.name).isNone = true
        · rw [if_pos hg, if_pos hg, pyGet_pyInsert, pyGet_pyInsert]
          by_cases hm : fd.name = m
          · rw [if_pos hm, if_pos hm]
          · rw [if_neg hm, if_neg hm]
            exact h m
        · rw [if_neg hg, if_neg hg]
          exact h m
    have := ih _ _ hstep n
    simpa [applyDefaults, List.foldl_cons] using this

/-- A successful construction names the class and binds the default-filled
resolved kwargs. -/
theorem specConstruct_ok_shape (reg : Registry) (cd : ClassDef) (args : List PyVal)
    (kwargs0 : List (String × PyVal)) (c : String) (fs : List (String × PyVal))
    (h : specConstruct reg cd args kwargs0 = .ok (c, fs)) :
    c = cd.name ∧ ∃ kw1, applyPositionalAux (pos2nameOf cd.fields) 0 args kwargs0 = .ok kw1
      ∧ fs = applyDefaults cd.fields kw1 := by
  rw [specConstruct] at h
  by_cases hgt : args.length > maxNargs cd.fields
  · rw [if_pos hgt] at h
    cases h
  · rw [if_neg hgt] at h
    cases hap : applyPositionalAux (pos2nameOf cd.fields) 0 args kwargs0 with
    | error e =>
      simp only [hap] at h
      cases h
    | ok kw1 =>
      simp only [hap] at h
      by_cases hg2 : (applyDefaults cd.fields kw1).length > cd.fields.length
      · rw [if_pos hg2] at h
        cases h
      · rw [if_neg hg2] at h
        by_cases hg3 : (applyDefaults cd.fields kw1).length < cd.fields.length
        · rw [if_pos hg3] at h
          cases h
        · rw [if_neg hg3] at h
          cases hcv : checkValues reg cd.fields (applyDefaults cd.fields kw1) with
          | error e =>
            simp only [hcv] at h
            cases h
          | ok u =>
            cases u
            simp only [hcv] at h
            cases hce : checkExtraParams cd.fields (applyDefaults cd.fields kw1) with
            | error e =>
              simp only [hce] at h
              cases h
            | ok u2 =>
              cases u2
              simp only [hce] at h
              have hp := Except.ok.inj h
              exact ⟨(congrArg Prod.fst hp).symm, kw1, rfl, (congrArg Prod.snd hp).symm⟩

/-- Claim C2: two instances of the same Spec subclass built from the same
field values — however they were distributed between positional and keyword
arguments, and in whatever order — have byte-identical canonical keys.  The
resolved kwargs (positional arguments mapped onto their field names) are the
field values supplied; sameness is lookup equality of those dicts. -/
theorem c2_key_order_independence (reg : Registry) (cd : ClassDef)
    (args1 args2 : List PyVal) (kwargs1 kwargs2 : List (String × PyVal))
    (c1 c2 : String) (fs1 fs2 : List (String × PyVal)) (kw1 kw2 : List (String × PyVal))
    (h1 : specConstruct reg cd args1 kwargs1 = .ok (c1, fs1))
    (h2 : specConstruct reg cd args2 kwargs2 = .ok (c2, fs2))
    (hr1 : applyPositionalAux (pos2nameOf cd.fields) 0 args1 kwargs1 = .ok kw1)
    (hr2 : applyPositionalAux (pos2nameOf cd.fields) 0 args2 kwargs2 = .ok kw2)
    (hsame : ∀ n, pyGet kw1 n = pyGet kw2 n) :
    spec_key reg c1 fs1 = spec_key reg c2 fs2 := by
  obtain ⟨hc1, kw1', hkw1', hfs1⟩ := specConstruct_ok_shape reg cd args1 kwargs1 c1 fs1 h1
  obtain ⟨hc2, kw2', hkw2', hfs2⟩ := specConstruct_ok_shape reg cd args2 kwargs2 c2 fs2 h2
  rw [hr1] at hkw1'
  rw [hr2] at hkw2'
  have e1 : kw1 = kw1' := Except.ok.inj hkw1'
  have e2 : kw2 = kw2' := Except.ok.inj hkw2'
  subst hc1
  subst hc2
  subst hfs1
  subst hfs2
  subst e1
  subst e2
  exact spec_key_congr reg cd.name _ _ (applyDefaults_pyGet_congr cd.fields kw1 kw2 hsame)

theorem c2_key_order_independence_witness :
    spec_key [] "A" [("x", .pint 1), ("y", .pint 2)]
      = spec_key [] "A" [("y", .pint 2), ("x", .pint 1)] :=
  c2_key_order_independence [] ⟨"A", "Spec",
      [⟨"x", .primitive, some 0, Option.none⟩, ⟨"y", .primitive, some 1, Option.none⟩], false⟩
    [.pint 1, .pint 2] [] [] [("y", .pint 2), ("x", .pint 1)]
    "A" "A" [("x", .pint 1), ("y", .pint 2)] [("y", .pint 2), ("x", .pint 1)]
    [("x", .pint 1), ("y", .pint 2)] [("y", .pint 2), ("x", .pint 1)]
    rfl rfl rfl rfl
    (by
      intro n
      by_cases hx : "x" = n
      · subst hx
        rfl
      · by_cases hy : "y" = n
        · subst hy
          rfl
        · simp [pyGet, hx, hy])

/-!
### The model hyper-parameter grid (`fito.model.model`, claim C5)

`Model.get_fields` enumerates attributes through `dir(cls)` and
`sklearn.grid_search.ParameterGrid` iterates `sorted(p.items())`, so the
primitive grid walks the `ModelParameter` fields in sorted-name order, the
cartesian product putting the last key's values fastest (`itertools.product`
semantics).  `ParameterGrid` itself is external; modelled from the spec as
the cartesian product of the per-field value grids.
-/

def insertGrid (p : String × List PyVal) :
    List (String × List PyVal) → List (String × List PyVal)
  | [] => [p]
  | q :: qs => if p.1 ≤ q.1 then p :: q :: qs else q :: insertGrid p qs

def sortGrid : List (String × List PyVal) → List (String × List PyVal)
  | [] => []
  | p :: ps => insertGrid p (sortGrid ps)

/-- `itertools.product` over named value lists: the first list varies
slowest. -/
def gridProduct : List (String × List PyVal) → List (List (String × PyVal))
  | [] => [[]]
  | (n, vs) :: rest => vs.flatMap fun v => (gridProduct rest).map fun combo => (n, v) :: combo

/-- `Model.get_primitive_param_grid` (model.py line 16): the `ParameterGrid`
of the `ModelParameter` fields' sweep grids. -/
def get_primitive_param_grid (cd : ClassDef) : List (List (String × PyVal)) :=
  gridProduct (sortGrid (cd.fields.filterMap fun fd =>
    match fd.kind with
    | .modelParam g => some (fd.name, g)
    | _ => Option.none))

/-- `product(*submodels_params)`: one choice of sub-configuration per nested
model field. -/
def subProduct : List (String × List PyVal) → List (List (String × PyVal))
  | [] => [[]]
  | (n, ds) :: rest => ds.flatMap fun d => (subProduct rest).map fun tail => (n, d) :: tail

/-- `params = map(Spec.dict2spec, params)` plus `zip(submodel_fields,
params)` (model.py line 50): every chosen sub-configuration dict is rebuilt
into a Spec instance bound to its field. -/
def resolveChoice (reg : Registry) : List (String × PyVal) → Except SpecErr (List (String × PyVal))
  | [] => .ok []
  | (n, d) :: rest =>
    (dict2spec reg d).bind fun i =>
      (resolveChoice reg rest).map fun r => (n, .pspec i.1 i.2) :: r

/-- `cls(**model_fields_combination).to_dict()` (model.py line 54): the
combination updated with the resolved submodel choices, constructed and
serialized. -/
def buildConfig (reg : Registry) (cd : ClassDef) (combo upd : List (String × PyVal)) :
    Except SpecErr PyVal :=
  (specConstruct reg cd [] (applyUpdates combo upd)).map fun i => inst2dict reg i.1 i.2

/-- The no-submodel loop: one configuration per primitive combination. -/
def configsNoSub (reg : Registry) (cd : ClassDef) :
    List (List (String × PyVal)) → Except SpecErr (List PyVal)
  | [] => .ok []
  | combo :: rest =>
    (buildConfig reg cd combo []).bind fun cfg =>
      (configsNoSub reg cd rest).map fun r => cfg :: r

/-- The inner submodel loop for one primitive combination. -/
def configsPerCombo (reg : Registry) (cd : ClassDef) (combo : List (String × PyVal)) :
    List (List (String × PyVal)) → Except SpecErr (List PyVal)
  | [] => .ok []
  | ch :: rest =>
    (resolveChoice reg ch).bind fun upd =>
      (buildConfig reg cd combo upd).bind fun cfg =>
        (configsPerCombo reg cd combo rest).map fun r => cfg :: r

/-- The outer loop over primitive combinations. -/
def configsAll (reg : Registry) (cd : ClassDef) (choices : List (List (String × PyVal))) :
    List (List (String × PyVal)) → Except SpecErr (List PyVal)
  | [] => .ok []
  | combo :: rest =>
    (configsPerCombo reg cd combo choices).bind fun l1 =>
      (configsAll reg cd choices rest).map fun l2 => l1 ++ l2

mutual

/-- `Model.get_hyper_parameters_grid` (model.py line 24), with fuel bounding
the nesting depth of sub-models (Python's call stack).  The defaultdict
iteration order of `submodels_params` is unspecified in Python 2; the model
keeps declared-field order. -/
def getHyperParametersGrid (reg : Registry) : Nat → ClassDef → Except SpecErr (List PyVal)
  | 0, _ => .error .fuelExhausted
  | fuel + 1, cd =>
    (collectSubmodels reg fuel cd.fields).bind fun subs =>
      if subs.isEmpty then configsNoSub reg cd (get_primitive_param_grid cd)
      else configsAll reg cd (subProduct subs) (get_primitive_param_grid cd)
termination_by fuel _ => (fuel, 0, 0)

/-- The submodel collection loop (model.py line 28): Spec-typed fields with
a Model-subclass `base_type` contribute one entry holding the concatenated
grids of the loaded concrete implementations (`submodels_params[name]` is
only created when at least one non-Field implementation exists). -/
def collectSubmodels (reg : Registry) (fuel : Nat) :
    List FieldDef → Except SpecErr (List (String × List PyVal))
  | [] => .ok []
  | fd :: rest =>
    match fd.kind with
    | .baseSpec (some b) =>
      if isSubclass reg b "Model" then
        (if himp : ((allSubclasses reg b).filter fun c2 => !c2.isField).isEmpty then
          collectSubmodels reg fuel rest
        else
          (implGrids reg fuel ((allSubclasses reg b).filter fun c2 => !c2.isField)).bind
            fun grids =>
              (collectSubmodels reg fuel rest).map fun restS => (fd.name, grids) :: restS)
      else collectSubmodels reg fuel rest
    | _ => collectSubmodels reg fuel rest
termination_by fds => (fuel, 2, sizeOf fds)

/-- `impl.get_hyper_parameters_grid()` concatenated over the implementations
(`extend`, model.py line 37). -/
def implGrids (reg : Registry) (fuel : Nat) : List ClassDef → Except SpecErr (List PyVal)
  | [] => .ok []
  | c2 :: rest =>
    (getHyperParametersGrid reg fuel c2).bind fun g =>
      (implGrids reg fuel rest).map fun grest => g ++ grest
termination_by l => (fuel, 1, sizeOf l)

end

theorem buildConfig_shape (reg : Registry) (cd : ClassDef) (combo upd : List (String × PyVal))
    (cfg : PyVal) (h : buildConfig reg cd combo upd = .ok cfg) :
    ∃ i : Inst, specConstruct reg cd [] (applyUpdates combo upd) = .ok i
      ∧ cfg = inst2dict reg i.1 i.2 := by
  rw [buildConfig] at h
  cases hs : specConstruct reg cd [] (applyUpdates combo upd) with
  | error e =>
    rw [hs] at h
    exact absurd h (by simp [Except.map])
  | ok i =>
    rw [hs] at h
    have hcfg : inst2dict reg i.1 i.2 = cfg := by simpa [Except.map] using h
    exact ⟨i, rfl, hcfg.symm⟩

theorem configsNoSub_ok (reg : Registry) (cd : ClassDef) :
    ∀ (combos : List (List (String × PyVal))) (res : List PyVal),
      configsNoSub reg cd combos = .ok res →
      res.length = combos.length ∧ ∀ cfg ∈ res, ∃ ps, cfg = .pdict ps
  | [], res, h => by
    cases h
    simp
  | combo :: rest, res, h => by
    rw [configsNoSub] at h
    cases hb : buildConfig reg cd combo [] with
    | error e =>
      rw [hb] at h
      exact absurd h (by simp [Except.bind])
    | ok cfg =>
      rw [hb] at h
      simp only [Except.bind] at h
      cases hr : configsNoSub reg cd rest with
      | error e =>
        rw [hr] at h
        exact absurd h (by simp [Except.bind, Except.map])
      | ok r =>
        rw [hr] at h
        have hres : cfg :: r = res := by simpa [Except.bind, Except.map] using h
        subst hres
        obtain ⟨hlen, hshape⟩ := configsNoSub_ok reg cd rest r hr
        refine ⟨by simp [hlen], ?_⟩
        intro cfg2 hc2
        rcases List.mem_cons.1 hc2 with h1 | h1
        · obtain ⟨i, _, hcfg⟩ := buildConfig_shape reg cd combo [] cfg hb
          exact ⟨_, by rw [h1, hcfg, inst2dict_eq]⟩
        · exact hshape cfg2 h1

theorem configsPerCombo_ok (reg : Registry) (cd : ClassDef) (combo : List (String × PyVal)) :
    ∀ (choices : List (List (String × PyVal))) (res : List PyVal),
      configsPerCombo reg cd combo choices = .ok res →
      res.length = choices.length
      ∧ (∀ cfg ∈ res, ∃ ps, cfg = .pdict ps)
      ∧ ∀ ch ∈ choices, ∃ upd cfg, resolveChoice reg ch = .ok upd
          ∧ buildConfig reg cd combo upd = .ok cfg ∧ cfg ∈ res
  | [], res, h => by
    cases h
    simp
  | ch :: rest, res, h => by
    rw [configsPerCombo] at h
    cases hrc : resolveChoice reg ch with
    | error e =>
      rw [hrc] at h
      exact absurd h (by simp [Except.bind])
    | ok upd =>
      rw [hrc] at h
      simp only [Except.bind] at h
      cases hb : buildConfig reg cd combo upd with
      | error e =>
        rw [hb] at h
        exact absurd h (by simp [Except.bind])
      | ok cfg =>
        rw [hb] at h
        simp only [Except.bind] at h
        cases hr : configsPerCombo reg cd combo rest with
        | error e =>
          rw [hr] at h
          exact absurd h (by simp [Except.bind, Except.map])
        | ok r =>
          rw [hr] at h
          have hres : cfg :: r = res := by simpa [Except.bind, Except.map] using h
          subst hres
          obtain ⟨hlen, hshape, hcov⟩ := configsPerCombo_ok reg cd combo rest r hr
          refine ⟨by simp [hlen], ?_, ?_⟩
          · intro cfg2 hc2
            rcases List.mem_cons.1 hc2 with h1 | h1
            · obtain ⟨i, _, hcfg⟩ := buildConfig_shape reg cd combo upd cfg hb
              exact ⟨_, by rw [h1, hcfg, inst2dict_eq]⟩
            · exact hshape cfg2 h1
          · intro ch2 hch2
            rcases List.mem_cons.1 hch2 with h1 | h1
            · subst h1
              exact ⟨upd, cfg, hrc, hb, by simp⟩
            · obtain ⟨upd2, cfg2, ha, hb2, hm⟩ := hcov ch2 h1
              exact ⟨upd2, cfg2, ha, hb2, List.mem_cons_of_mem _ hm⟩

theorem configsAll_ok (reg : Registry) (cd : ClassDef)
    (choices : List (List (String × PyVal))) :
    ∀ (combos : List (List (String × PyVal))) (res : List PyVal),
      configsAll reg cd choices combos = .ok res →
      res.length = combos.length * choices.length
      ∧ (∀ cfg ∈ res, ∃ ps, cfg = .pdict ps)
      ∧ ∀ combo ∈ combos, ∀ ch ∈ choices, ∃ upd cfg, resolveChoice reg ch = .ok upd
          ∧ buildConfig reg cd combo upd = .ok cfg ∧ cfg ∈ res
  | [], res, h => by
    cases h
    simp
  | combo :: rest, res, h => by
    rw [configsAll] at h
    cases hp : configsPerCombo reg cd combo choices with
    | error e =>
      rw [hp] at h
      exact absurd h (by simp [Except.bind])
    | ok l1 =>
      rw [hp] at h
      simp only [Except.bind] at h
      cases hr : configsAll reg cd choices rest with
      | error e =>
        rw [hr] at h
        exact absurd h (by simp [Except.bind, Except.map])
      | ok l2 =>
        rw [hr] at h
        have hres : l1 ++ l2 = res := by simpa [Except.bind, Except.map] using h
        subst hres
        obtain ⟨hlen1, hshape1, hcov1⟩ := configsPerCombo_ok reg cd combo choices l1 hp
        obtain ⟨hlen2, hshape2, hcov2⟩ := configsAll_ok reg cd choices rest l2 hr
        refine ⟨?_, ?_, ?_⟩
        · rw [List.length_append, hlen1, hlen2, List.length_cons]
          ring
        · intro cfg hc
          rcases List.mem_append.1 hc with h1 | h1
          · exact hshape1 cfg h1
          · exact hshape2 cfg h1
        · intro combo2 hc2 ch hch
          rcases List.mem_cons.1 hc2 with h1 | h1
          · subst h1
            obtain ⟨upd, cfg, ha, hb, hm⟩ := hcov1 ch hch
            exact ⟨upd, cfg, ha, hb, List.mem_append_left _ hm⟩
          · obtain ⟨upd, cfg, ha, hb, hm⟩ := hcov2 combo2 h1 ch hch
            exact ⟨upd, cfg, ha, hb, List.mem_append_right _ hm⟩

theorem subProduct_singleton (n : String) (ds : List PyVal) :
    subProduct [(n, ds)] = ds.map fun d => [(n, d)] := by
  induction ds with
  | nil => rfl
  | cons d rest ih => exact congrArg (List.cons [(n, d)]) ih

theorem resolveChoice_singleton (reg : Registry) (n : String) (d : PyVal)
    (upd : List (String × PyVal)) (h : resolveChoice reg [(n, d)] = .ok upd) :
    ∃ i : Inst, dict2spec reg d = .ok i ∧ upd = [(n, .pspec i.1 i.2)] := by
  rw [resolveChoice] at h
  cases hd : dict2spec reg d with
  | error e =>
    rw [hd] at h
    exact absurd h (by simp [Except.bind])
  | ok i =>
    rw [hd] at h
    simp only [Except.bind] at h
    have : [(n, PyVal.pspec i.1 i.2)] = upd := by
      simpa [Except.bind, Except.map, resolveChoice] using h
    exact ⟨i, rfl, this.symm⟩

/-- Claim C5: with exactly one nested Model-typed field collected (its
sub-grid the concatenation of the loaded implementations' grids, e.g. 2+2
sweep points for two implementations), `get_hyper_parameters_grid` yields
`|primitive grid| * |sub-grid|` configurations — 3 * (2+2) = 12 in the
claim's scenario — each a plain serialized dict, covering every pairing of a
primitive combination with one submodel assignment; with no nested model
fields it yields exactly one configuration per primitive combination; and
implementation grids concatenate. -/
theorem c5_hyper_parameters_grid (reg : Registry) (cd : ClassDef) (fuel : Nat)
    (n : String) (g : List PyVal) (res res0 : List PyVal) :
    (collectSubmodels reg fuel cd.fields = .ok [(n, g)] →
      getHyperParametersGrid reg (fuel + 1) cd = .ok res →
        res.length = (get_primitive_param_grid cd).length * g.length
        ∧ (∀ cfg ∈ res, ∃ ps, cfg = .pdict ps)
        ∧ (∀ combo ∈ get_primitive_param_grid cd, ∀ d ∈ g,
            ∃ (i : Inst) (cfg : PyVal), dict2spec reg d = .ok i
              ∧ buildConfig reg cd combo [(n, .pspec i.1 i.2)] = .ok cfg
              ∧ cfg ∈ res))
    ∧ (collectSubmodels reg fuel cd.fields = .ok [] →
        getHyperParametersGrid reg (fuel + 1) cd = .ok res0 →
        res0.length = (get_primitive_param_grid cd).length
        ∧ ∀ cfg ∈ res0, ∃ ps, cfg = .pdict ps)
    ∧ (∀ (c2 : ClassDef) (impls : List ClassDef) (gs : List PyVal),
        implGrids reg fuel (c2 :: impls) = .ok gs →
        ∃ g1 grest, getHyperParametersGrid reg fuel c2 = .ok g1
          ∧ implGrids reg fuel impls = .ok grest ∧ gs = g1 ++ grest) := by
  refine ⟨?_, ?_, ?_⟩
  · intro hc hres
    simp only [getHyperParametersGrid, hc, Except.bind] at hres
    rw [if_neg (by simp)] at hres
    obtain ⟨hlen, hshape, hcov⟩ := configsAll_ok reg cd (subProduct [(n, g)]) _ _ hres
    refine ⟨?_, hshape, ?_⟩
    · rw [hlen, subProduct_singleton, List.length_map]
    · intro combo hcombo d hd
      have hch : [(n, d)] ∈ subProduct [(n, g)] := by
        rw [subProduct_singleton]
        exact List.mem_map_of_mem _ hd
      obtain ⟨upd, cfg, ha, hb, hm⟩ := hcov combo hcombo [(n, d)] hch
      obtain ⟨i, hi, hupd⟩ := resolveChoice_singleton reg n d upd ha
      subst hupd
      exact ⟨i, cfg, hi, hb, hm⟩
  · intro hc hres
    simp only [getHyperParametersGrid, hc, Except.bind] at hres
    rw [if_pos (by simp)] at hres
    exact configsNoSub_ok reg cd _ _ hres
  · intro c2 impls gs h
    rw [implGrids] at h
    cases hg1 : getHyperParametersGrid reg fuel c2 with
    | error e =>
      rw [hg1] at h
      exact absurd h (by simp [Except.bind])
    | ok g1 =>
      rw [hg1] at h
      simp only [Except.bind] at h
      cases hg2 : implGrids reg fuel impls with
      | error e =>
        rw [hg2] at h
        exact absurd h (by simp [Except.bind, Except.map])
      | ok grest =>
        rw [hg2] at h
        have hgs : g1 ++ grest = gs := by simpa [Except.bind, Except.map] using h
        exact ⟨g1, grest, rfl, rfl, hgs.symm⟩

theorem c5_hyper_parameters_grid_witness :
    ∃ res0 : List PyVal,
      getHyperParametersGrid [⟨"M", "Model", [⟨"p", .modelParam [.pint 1], Option.none,
          Option.none⟩], false⟩] 1
        ⟨"M", "Model", [⟨"p", .modelParam [.pint 1], Option.none, Option.none⟩], false⟩
          = .ok res0
      ∧ res0.length = (get_primitive_param_grid
          ⟨"M", "Model", [⟨"p", .modelParam [.pint 1], Option.none, Option.none⟩], false⟩).length := by
  have hc : collectSubmodels [⟨"M", "Model", [⟨"p", .modelParam [.pint 1], Option.none,
      Option.none⟩], false⟩] 0
      [⟨"p", FieldKind.modelParam [.pint 1], Option.none, Option.none⟩] = .ok [] := by
    simp [collectSubmodels]
  have hres : getHyperParametersGrid [⟨"M", "Model", [⟨"p", .modelParam [.pint 1], Option.none,
      Option.none⟩], false⟩] 1
      ⟨"M", "Model", [⟨"p", .modelParam [.pint 1], Option.none, Option.none⟩], false⟩
      = .ok [inst2dict [⟨"M", "Model", [⟨"p", .modelParam [.pint 1], Option.none,
          Option.none⟩], false⟩] "M" [("p", .pint 1)]] := by
    simp only [getHyperParametersGrid, hc, Except.bind]
    rw [if_pos (by simp)]
    simp [configsNoSub, buildConfig, get_primitive_param_grid, sortGrid, insertGrid,
      gridProduct, applyUpdates, specConstruct, maxNargs, pos2nameOf, applyPositionalAux,
      applyDefaults, checkValues, check_valid_value, checkExtraParams, fieldNames, pyGet,
      keysOf, Except.bind, Except.map, PyVal.isNone]
  exact ⟨_, hres, ((c5_hyper_parameters_grid _ _ 0 "" [] [] _).2.1 hc hres).1⟩


/-- Lexicographic descent from a kwargs dict to one of its looked-up values,
with a drop in the middle component. -/
theorem lex3_pyGet_mid (K : List (String × PyVal)) (N : String) (a b c d : Nat)
    (hab : a < b) :
    Prod.Lex (· < ·) (Prod.Lex (· < ·) (· < ·))
      (sizeOf (pyGet K N), a, c) (sizeOf K, b, d) := by
  rcases Nat.lt_or_ge (sizeOf (pyGet K N)) (sizeOf K) with h | h
  · exact Prod.Lex.left _ _ h
  · have he : sizeOf (pyGet K N) = sizeOf K := Nat.le_antisymm (pyGet_opt_sizeOf _ _) h
    rw [he]
    exact Prod.Lex.right _ (Prod.Lex.left _ _ hab)

/-!
### Valid instances and the canonical-key round trip (claim C1)

A valid instance of a loaded Spec subclass: the class resolves (by its own
name, through `type2spec_class`), its declared field names are unique,
JSON-encodable and do not collide with the reserved `type` entry, the
attribute dict binds exactly the declared fields, and every value fits its
descriptor — with Spec-typed fields holding actual (recursively valid)
sub-instances, the condition the amended C1 adds, and SpecCollection fields
holding lists or dicts of such sub-instances.  Primitive-family values must
be JSON-representable (`goodJson`) with unique keys along nested dict
chains (`chainGood`), which is what "JSON-representable field values" means
for the key pipeline.
-/

def baseOk (reg : Registry) (b : Option String) (c : String) : Bool :=
  match b with
  | some base => isSubclass reg c base
  | Option.none => true

mutual

def validInst (reg : Registry) (cls : String) (fs : List (String × PyVal)) : Bool :=
  match lookupClass reg cls with
  | Option.none => false
  | some cd =>
    decide (cd.name = cls)
    && decide ((reg.map ClassDef.name).Nodup)
    && isSubclass reg cls "Spec"
    && !(cls == "Spec")
    && !(cls.data.contains ':')
    && goodStr cls
    && decide ("type" ∉ fieldNames cd.fields)
    && decide ((fieldNames cd.fields).Nodup)
    && cd.fields.all (fun fd => goodStr fd.name)
    && decide ((keysOf fs).Perm (fieldNames cd.fields))
    && decide ((keysOf fs).Nodup)
    && validFields reg fs cd.fields
termination_by (sizeOf fs, 4, 0)

def validFields (reg : Registry) (fs : List (String × PyVal)) : List FieldDef → Bool
  | [] => true
  | fd :: rest =>
    validValOpt reg fd.kind (pyGet fs fd.name)
      && validFields reg fs rest
termination_by fds => (sizeOf fs, 3, sizeOf fds)
decreasing_by
  all_goals first
    | (apply Prod.Lex.right
       apply Prod.Lex.right
       simp
       try omega)
    | (apply lex3_pyGet_mid
       omega)

def validValOpt (reg : Registry) (k : FieldKind) : Option PyVal → Bool
  | Option.none => false
  | some v => validVal reg k v && (v.isNone || check_valid_value reg k v)
termination_by o => (sizeOf o, 2, 0)

def validVal (reg : Registry) : FieldKind → PyVal → Bool
  | .baseSpec b, .pspec c fs => validInst reg c fs && baseOk reg b c
  | .baseSpec _, _ => false
  | .specCollection, .plist l => validList reg l
  | .specCollection, .pdict ps =>
    decide ((keysOf ps).Nodup) && decide ("type" ∉ keysOf ps)
      && ps.all (fun p => goodStr p.1) && validPairs reg ps
  | .specCollection, _ => false
  | _, v => goodJson v && chainGood v
termination_by _ v => (sizeOf v, 1, 0)

def validList (reg : Registry) : List PyVal → Bool
  | [] => true
  | .pspec c fs :: rest => validInst reg c fs && validList reg rest
  | _ :: _ => false
termination_by l => (sizeOf l, 1, 1)

def validPairs (reg : Registry) : List (String × PyVal) → Bool
  | [] => true
  | (_, .pspec c fs) :: rest => validInst reg c fs && validPairs reg rest
  | _ :: _ => false
termination_by l => (sizeOf l, 1, 1)

end

theorem lookupClass_some {reg : Registry} {cls : String} {cd : ClassDef}
    (h : lookupClass reg cls = some cd) : cd ∈ reg ∧ cd.name = cls := by
  rw [lookupClass] at h
  constructor
  · exact List.mem_of_find?_eq_some h
  · have := List.find?_some h
    simpa using this

theorem type2spec_resolves {reg : Registry} {cls : String} {cd : ClassDef}
    (hcd : lookupClass reg cls = some cd)
    (hn : (reg.map ClassDef.name).Nodup)
    (hsub : isSubclass reg cls "Spec" = true)
    (hne : cls ≠ "Spec") (hnc : cls.data.contains ':' = false) :
    type2spec_class reg cls = some cd := by
  obtain ⟨hmem, hname⟩ := lookupClass_some hcd
  rw [type2spec_class, if_neg (by rw [hnc]; simp)]
  apply find?_eq_some_of_unique _ _ _ ?_ (by simp [hname]) ?_
  · rw [allSubclasses, List.mem_filter]
    refine ⟨hmem, ?_⟩
    rw [hname]
    simp [hne, hsub]
  · intro b hb hpb
    have hbmem : b ∈ reg := List.mem_of_mem_filter (by rwa [allSubclasses] at hb)
    have hbname : b.name = cls := by simpa using hpb
    exact List.inj_on_of_nodup_map hn hbmem hmem (by rw [hbname, hname])

theorem fieldKindOf_eq {reg : Registry} {cls : String} {cd : ClassDef}
    (hcd : lookupClass reg cls = some cd)
    (hnodup : (fieldNames cd.fields).Nodup) {fd : FieldDef} (hfd : fd ∈ cd.fields) :
    fieldKindOf reg cls fd.name = fd.kind := by
  have hfind : cd.fields.find? (fun fd2 => fd2.name == fd.name) = some fd := by
    apply find?_eq_some_of_unique _ _ _ hfd (by simp)
    intro b hb hpb
    exact List.inj_on_of_nodup_map hnodup hb hfd (by simpa using hpb)
  simp only [fieldKindOf, hcd, hfind]

theorem pyGet_map_self (g : String → PyVal) :
    ∀ (l : List String) (n : String),
      pyGet (l.map fun m => (m, g m)) n = if n ∈ l then some (g n) else Option.none
  | [], n => by simp [pyGet]
  | m :: rest, n => by
    by_cases h : m = n
    · subst h
      simp [pyGet]
    · simp only [List.map_cons, pyGet, if_neg h]
      rw [pyGet_map_self g rest n]
      by_cases hn : n ∈ rest
      · rw [if_pos hn, if_pos (List.mem_cons_of_mem _ hn)]
      · rw [if_neg hn, if_neg]
        intro hc
        rcases List.mem_cons.1 hc with h1 | h1
        · exact h h1.symm
        · exact hn h1

theorem instFieldVals_eq {reg : Registry} {cls : String} {cd : ClassDef}
    (hcd : lookupClass reg cls = some cd) (s : List (String × PyVal)) :
    instFieldVals reg cls s = (fieldNames cd.fields).map fun n => (n, getattrV s n) := by
  simp [instFieldVals, hcd]

theorem keysOf_instFieldVals {reg : Registry} {cls : String} {cd : ClassDef}
    (hcd : lookupClass reg cls = some cd) (s : List (String × PyVal)) :
    keysOf (instFieldVals reg cls s) = fieldNames cd.fields := by
  rw [instFieldVals_eq hcd]
  simp only [keysOf, List.map_map]
  exact List.map_id _ ▸ (List.map_congr_left fun n _ => rfl)

theorem pyGet_removeKey (l : List (String × PyVal)) (k n : String) (hne : n ≠ k) :
    pyGet (removeKey l k) n = pyGet l n := by
  induction l with
  | nil => rfl
  | cons p rest ih =>
    obtain ⟨k0, v0⟩ := p
    by_cases h : k0 = k
    · subst h
      rw [removeKey, if_pos rfl, pyGet, if_neg (fun hc => hne hc.symm)]
    · rw [removeKey, if_neg h]
      by_cases hn : k0 = n
      · subst hn
        rw [pyGet, if_pos rfl, pyGet, if_pos rfl]
      · rw [pyGet, if_neg hn, pyGet, if_neg hn, ih]

theorem keysOf_removeKey_sublist (l : List (String × PyVal)) (k : String) :
    (keysOf (removeKey l k)).Sublist (keysOf l) := by
  induction l with
  | nil => simp [removeKey]
  | cons p rest ih =>
    obtain ⟨k0, v0⟩ := p
    by_cases h : k0 = k
    · rw [removeKey, if_pos h]
      exact List.Sublist.cons _ (List.Sublist.refl _)
    · rw [removeKey, if_neg h]
      simp only [keysOf_cons]
      exact ih.cons₂ k0

theorem keysOf_removeKey_perm (l : List (String × PyVal)) (k : String)
    (hmem : k ∈ keysOf l) :
    (k :: keysOf (removeKey l k)).Perm (keysOf l) := by
  induction l with
  | nil => simp at hmem
  | cons p rest ih =>
    obtain ⟨k0, v0⟩ := p
    by_cases h : k0 = k
    · subst h
      rw [removeKey, if_pos rfl]
      exact List.Perm.refl _
    · rw [removeKey, if_neg h]
      simp only [keysOf_cons]
      have hm2 : k ∈ keysOf rest := by
        rcases List.mem_cons.1 (by simpa using hmem) with h1 | h1
        · exact absurd h1.symm h
        · exact h1
      exact (List.Perm.swap k0 k _).trans ((ih hm2).cons k0)

theorem applyUpdates_keys (kw : List (String × PyVal)) :
    ∀ ups : List (String × PyVal), (∀ p ∈ ups, p.1 ∈ keysOf kw) →
      keysOf (applyUpdates kw ups) = keysOf kw
  | [], _ => rfl
  | (k0, w0) :: rest, h => by
    have hins : keysOf (pyInsert kw k0 w0) = keysOf kw := by
      rw [keysOf_pyInsert, if_pos (h (k0, w0) (List.mem_cons_self _ _))]
    have happ : applyUpdates kw ((k0, w0) :: rest) = applyUpdates (pyInsert kw k0 w0) rest := by
      simp [applyUpdates, List.foldl_cons]
    rw [happ, applyUpdates_keys (pyInsert kw k0 w0) rest]
    · exact hins
    · intro p hp
      rw [hins]
      exact h p (List.mem_cons_of_mem _ hp)

theorem applyUpdates_pyGet :
    ∀ (ups kw : List (String × PyVal)) (n : String), (keysOf ups).Nodup →
      pyGet (applyUpdates kw ups) n = (pyGet ups n).elim (pyGet kw n) some
  | [], kw, n, _ => by simp [applyUpdates, pyGet, Option.elim]
  | (k0, w0) :: rest, kw, n, hn => by
    have hn2 : (keysOf rest).Nodup := (List.nodup_cons.1 (by simpa using hn)).2
    have hnotin : k0 ∉ keysOf rest := (List.nodup_cons.1 (by simpa using hn)).1
    have happ : applyUpdates kw ((k0, w0) :: rest) = applyUpdates (pyInsert kw k0 w0) rest := by
      simp [applyUpdates, List.foldl_cons]
    rw [happ, applyUpdates_pyGet rest (pyInsert kw k0 w0) n hn2]
    by_cases h : k0 = n
    · subst h
      have hrest : pyGet rest k0 = Option.none := (pyGet_eq_none_iff _ _).2 hnotin
      rw [hrest, pyGet, if_pos rfl, pyGet_pyInsert, if_pos rfl]
      rfl
    · rw [pyGet, if_neg h]
      cases hr : pyGet rest n with
      | some w => rfl
      | none =>
        rw [pyGet_pyInsert, if_neg h]

/-- The update a single field contributes in `_from_dict`: Spec-typed fields
are replaced by the rebuilt sub-spec, SpecCollection fields by the
`recursive_map` walk, other fields contribute nothing. -/
def updVal (reg : Registry) (k : FieldKind) (w : PyVal) : Option PyVal :=
  match k with
  | .baseSpec _ =>
    (match dict2spec reg w with
     | .ok i => some (.pspec i.1 i.2)
     | .error _ => Option.none)
  | .specCollection => some (fromDictColl reg w)
  | _ => Option.none

def updateEntries (reg : Registry) (kwargs0 : List (String × PyVal))
    (fields : List FieldDef) : List (String × PyVal) :=
  fields.filterMap fun fd =>
    (pyGet kwargs0 fd.name).bind fun w => (updVal reg fd.kind w).map fun u => (fd.name, u)

theorem fromDictUpdates_eq (reg : Registry) (kwargs0 : List (String × PyVal)) :
    ∀ fields : List FieldDef,
      (∀ fd ∈ fields, ∃ w, pyGet kwargs0 fd.name = some w
        ∧ ∀ b, fd.kind = .baseSpec b → ∃ i : Inst, dict2spec reg w = .ok i) →
      fromDictUpdates reg fields kwargs0 = .ok (updateEntries reg kwargs0 fields)
  | [], _ => by simp [fromDictUpdates, updateEntries]
  | fd :: rest, h => by
    obtain ⟨w, hw, hbase⟩ := h fd (List.mem_cons_self _ _)
    have hrest := fromDictUpdates_eq reg kwargs0 rest
      (fun fd2 h2 => h fd2 (List.mem_cons_of_mem _ h2))
    have hent : updateEntries reg kwargs0 (fd :: rest)
        = ((pyGet kwargs0 fd.name).bind fun w =>
            (updVal reg fd.kind w).map fun u => (fd.name, u)).toList
          ++ updateEntries reg kwargs0 rest := by
      rw [updateEntries, List.filterMap_cons]
      cases (pyGet kwargs0 fd.name).bind fun w =>
          (updVal reg fd.kind w).map fun u => (fd.name, u) with
      | none => rfl
      | some u => rfl
    cases hk : fd.kind with
    | baseSpec b =>
      obtain ⟨i, hi⟩ := hbase b hk
      simp only [fromDictUpdates, hk, hw, combineUpd, dict2specOpt, hi, hrest,
        Except.bind, Except.map, hent, updVal, Option.bind, Option.map, Option.toList]
      rfl
    | specCollection =>
      simp only [fromDictUpdates, hk, hw, combineUpd, fromDictCollOpt, hrest,
        Except.bind, Except.map, hent, updVal, Option.bind, Option.map, Option.toList]
      rfl
    | primitive =>
      simp only [fromDictUpdates, hk, hw, combineUpd, hrest, hent, updVal,
        Option.bind, Option.map, Option.toList]
      rfl
    | collection =>
      simp only [fromDictUpdates, hk, hw, combineUpd, hrest, hent, updVal,
        Option.bind, Option.map, Option.toList]
      rfl
    | numeric =>
      simp only [fromDictUpdates, hk, hw, combineUpd, hrest, hent, updVal,
        Option.bind, Option.map, Option.toList]
      rfl
    | modelParam g =>
      simp only [fromDictUpdates, hk, hw, combineUpd, hrest, hent, updVal,
        Option.bind, Option.map, Option.toList]
      rfl

theorem updateEntries_keys (reg : Registry) (kwargs0 : List (String × PyVal)) :
    ∀ fields : List FieldDef,
      (keysOf (updateEntries reg kwargs0 fields)).Sublist (fieldNames fields)
  | [] => by simp [updateEntries, keysOf, fieldNames]
  | fd :: rest => by
    have ih := updateEntries_keys reg kwargs0 rest
    rw [updateEntries, List.filterMap_cons]
    cases hb : (pyGet kwargs0 fd.name).bind fun w =>
        (updVal reg fd.kind w).map fun u => (fd.name, u) with
    | none =>
      show (keysOf (updateEntries reg kwargs0 rest)).Sublist (fieldNames (fd :: rest))
      exact ih.trans (List.Sublist.cons _ (List.Sublist.refl _))
    | some u =>
      have hu : u.1 = fd.name := by
        cases hg : pyGet kwargs0 fd.name with
        | none => rw [hg] at hb; cases hb
        | some w =>
          rw [hg] at hb
          cases hv : updVal reg fd.kind w with
          | none => simp [hv] at hb
          | some u2 =>
            simp only [hv, Option.bind, Option.map] at hb
            cases hb
            rfl
      show (keysOf (u :: updateEntries reg kwargs0 rest)).Sublist (fieldNames (fd :: rest))
      rw [keysOf_cons, hu]
      show (fd.name :: keysOf (updateEntries reg kwargs0 rest)).Sublist
        (fd.name :: fieldNames rest)
      exact ih.cons₂ _

theorem pyGet_updateEntries (reg : Registry) (kwargs0 : List (String × PyVal)) :
    ∀ fields : List FieldDef, (fieldNames fields).Nodup → ∀ fd ∈ fields,
      pyGet (updateEntries reg kwargs0 fields) fd.name
        = (pyGet kwargs0 fd.name).bind fun w => updVal reg fd.kind w
  | [], _, fd, hfd => by cases hfd
  | fd0 :: rest, hn, fd, hfd => by
    have hn2 : (fieldNames rest).Nodup := (List.nodup_cons.1 (by simpa [fieldNames] using hn)).2
    have hnotin : fd0.name ∉ fieldNames rest :=
      (List.nodup_cons.1 (by simpa [fieldNames] using hn)).1
    rw [updateEntries, List.filterMap_cons]
    rcases List.mem_cons.1 hfd with h1 | h1
    · subst h1
      cases hg : pyGet kwargs0 fd.name with
      | none =>
        simp only [hg, Option.bind]
        show pyGet (updateEntries reg kwargs0 rest) fd.name = Option.none
        rw [pyGet_eq_none_iff]
        intro hc
        exact hnotin (List.Sublist.mem hc (updateEntries_keys reg kwargs0 rest))
      | some w =>
        simp only [hg, Option.bind]
        cases hv : updVal reg fd.kind w with
        | none =>
          simp only [hv, Option.map]
          show pyGet (updateEntries reg kwargs0 rest) fd.name = Option.none
          rw [pyGet_eq_none_iff]
          intro hc
          exact hnotin (List.Sublist.mem hc (updateEntries_keys reg kwargs0 rest))
        | some u =>
          simp only [hv, Option.map]
          show pyGet ((fd.name, u) :: updateEntries reg kwargs0 rest) fd.name = some u
          rw [pyGet, if_pos rfl]
    · have hne : fd0.name ≠ fd.name := by
        intro hc
        exact hnotin (hc ▸ List.mem_map_of_mem _ h1)
      have ih := pyGet_updateEntries reg kwargs0 rest hn2 fd h1
      cases hb : (pyGet kwargs0 fd0.name).bind fun w =>
          (updVal reg fd0.kind w).map fun u => (fd0.name, u) with
      | none =>
        exact ih
      | some u =>
        have hu : u.1 = fd0.name := by
          cases hg : pyGet kwargs0 fd0.name with
          | none => rw [hg] at hb; cases hb
          | some w =>
            rw [hg] at hb
            cases hv : updVal reg fd0.kind w with
            | none => simp [hv] at hb
            | some u2 =>
              simp only [hv, Option.bind, Option.map] at hb
              cases hb
              rfl
        show pyGet (u :: updateEntries reg kwargs0 rest) fd.name = _
        rw [pyGet, if_neg (by rw [hu]; exact hne)]
        exact ih

/-- The shared reconstruction core: `_from_dict` on a dict whose non-`type`
entries bind every declared field to a rebuildable value succeeds, returning
the instance whose field values are the per-kind updates. -/
theorem constructRecon (reg : Registry) (cd : ClassDef) (ps kwargs0 : List (String × PyVal))
    (hrm : removeKey ps "type" = kwargs0)
    (hn : (fieldNames cd.fields).Nodup)
    (hkn : (keysOf kwargs0).Nodup)
    (hkp : (keysOf kwargs0).Perm (fieldNames cd.fields))
    (h : ∀ fd ∈ cd.fields, ∃ w, pyGet kwargs0 fd.name = some w
        ∧ (∀ b, fd.kind = .baseSpec b → ∃ i : Inst, dict2spec reg w = .ok i
             ∧ check_valid_value reg fd.kind (.pspec i.1 i.2) = true)
        ∧ (fd.kind = .specCollection →
             check_valid_value reg .specCollection (fromDictColl reg w) = true)
        ∧ ((∀ b, fd.kind ≠ .baseSpec b) → fd.kind ≠ .specCollection →
             (w.isNone = true ∨ check_valid_value reg fd.kind w = true))) :
    ∃ fs2, _from_dict reg cd ps = .ok (cd.name, fs2)
      ∧ ∀ fd ∈ cd.fields, ∃ w, pyGet kwargs0 fd.name = some w
          ∧ pyGet fs2 fd.name = some ((updVal reg fd.kind w).getD w) := by
  have hbase : ∀ fd ∈ cd.fields, ∃ w, pyGet kwargs0 fd.name = some w
      ∧ ∀ b, fd.kind = .baseSpec b → ∃ i : Inst, dict2spec reg w = .ok i := by
    intro fd hfd
    obtain ⟨w, hw, hb, _, _⟩ := h fd hfd
    exact ⟨w, hw, fun b hkb => (hb b hkb).imp fun i hi => hi.1⟩
  have hupd := fromDictUpdates_eq reg kwargs0 cd.fields hbase
  have hukeys : (keysOf (updateEntries reg kwargs0 cd.fields)).Sublist (fieldNames cd.fields) :=
    updateEntries_keys reg kwargs0 cd.fields
  have hunodup : (keysOf (updateEntries reg kwargs0 cd.fields)).Nodup := hn.sublist hukeys
  have hupdsub : ∀ p ∈ updateEntries reg kwargs0 cd.fields, p.1 ∈ keysOf kwargs0 := by
    intro p hp
    apply hkp.mem_iff.2
    exact hukeys.mem (List.mem_map_of_mem _ hp)
  have hk2 : keysOf (applyUpdates kwargs0 (updateEntries reg kwargs0 cd.fields))
      = keysOf kwargs0 := applyUpdates_keys kwargs0 _ hupdsub
  have hpoint : ∀ fd ∈ cd.fields, ∃ w, pyGet kwargs0 fd.name = some w
      ∧ pyGet (applyUpdates kwargs0 (updateEntries reg kwargs0 cd.fields)) fd.name
          = some ((updVal reg fd.kind w).getD w) := by
    intro fd hfd
    obtain ⟨w, hw, _, _, _⟩ := h fd hfd
    refine ⟨w, hw, ?_⟩
    rw [applyUpdates_pyGet _ kwargs0 fd.name hunodup]
    rw [pyGet_updateEntries reg kwargs0 cd.fields hn fd hfd, hw]
    cases hv : updVal reg fd.kind w with
    | none => simp [Option.bind, hv, Option.elim, hw, Option.getD]
    | some u => simp [Option.bind, hv, Option.elim, Option.getD]
  have hpresent : ∀ fd ∈ cd.fields,
      fd.name ∈ keysOf (applyUpdates kwargs0 (updateEntries reg kwargs0 cd.fields)) := by
    intro fd hfd
    rw [hk2]
    exact hkp.mem_iff.2 (List.mem_map_of_mem _ hfd)
  have hlen : (applyUpdates kwargs0 (updateEntries reg kwargs0 cd.fields)).length
      = cd.fields.length := by
    have h1 : (keysOf (applyUpdates kwargs0 (updateEntries reg kwargs0 cd.fields))).length
        = (fieldNames cd.fields).length := by
      rw [hk2]
      exact hkp.length_eq
    simpa [keysOf, fieldNames] using h1
  have hcv : checkValues reg cd.fields (applyUpdates kwargs0 (updateEntries reg kwargs0 cd.fields))
      = .ok () := by
    rw [checkValues_ok_iff]
    intro fd hfd v hvk hnn
    obtain ⟨w, hw, hbs, hsc, hother⟩ := h fd hfd
    obtain ⟨w2, hw2, hg2⟩ := hpoint fd hfd
    have hww : w2 = w := by
      rw [hw] at hw2
      exact Option.some.inj hw2.symm
    subst hww
    rw [hg2] at hvk
    have hveq : v = (updVal reg fd.kind w2).getD w2 := Option.some.inj hvk.symm
    subst hveq
    cases hk : fd.kind with
    | baseSpec b =>
      obtain ⟨i, hi, hchk⟩ := hbs b hk
      rw [hk] at hchk
      simp only [updVal, hi, Option.getD]
      exact hchk
    | specCollection =>
      simp only [updVal, Option.getD]
      exact hsc hk
    | primitive =>
      simp only [updVal, Option.getD]
      simp [check_valid_value]
    | modelParam g =>
      simp only [updVal, Option.getD]
      simp [check_valid_value]
    | collection =>
      rw [hk] at hnn
      simp only [updVal, Option.getD] at hnn
      rcases hother (by intro b hc; rw [hk] at hc; cases hc) (by rw [hk]; intro hc; cases hc)
        with h1 | h1
      · exact absurd h1 (by simp [hnn])
      · rw [hk] at h1
        simp only [updVal, Option.getD]
        exact h1
    | numeric =>
      rw [hk] at hnn
      simp only [updVal, Option.getD] at hnn
      rcases hother (by intro b hc; rw [hk] at hc; cases hc) (by rw [hk]; intro hc; cases hc)
        with h1 | h1
      · exact absurd h1 (by simp [hnn])
      · rw [hk] at h1
        simp only [updVal, Option.getD]
        exact h1
  have hce : checkExtraParams cd.fields
      (applyUpdates kwargs0 (updateEntries reg kwargs0 cd.fields)) = .ok () := by
    apply checkExtraParams_ok_of_sub
    intro k hkm
    rw [hk2] at hkm
    exact hkp.mem_iff.1 hkm
  have hconstruct : specConstruct reg cd []
      (applyUpdates kwargs0 (updateEntries reg kwargs0 cd.fields))
        = .ok (cd.name, applyUpdates kwargs0 (updateEntries reg kwargs0 cd.fields)) := by
    rw [specConstruct, if_neg (by simp)]
    simp only [applyPositionalAux]
    rw [applyDefaults_id cd.fields _ hpresent]
    rw [if_neg (by omega), if_neg (by omega)]
    simp only [hcv, hce]
  refine ⟨applyUpdates kwargs0 (updateEntries reg kwargs0 cd.fields), ?_, hpoint⟩
  rw [_from_dict, hrm]
  simp only [hupd]
  exact hconstruct

/-!
### Equations of the serialization and reconstruction walks
-/

theorem spec2dictVal_baseSpec (reg : Registry) (b : Option String) (c : String)
    (fs : List (String × PyVal)) :
    spec2dictVal reg (.baseSpec b) (.pspec c fs) = inst2dict reg c fs := by
  simp [spec2dictVal]

theorem spec2dictVal_specColl (reg : Registry) (v : PyVal) :
    spec2dictVal reg .specCollection v = spec2dictColl reg v := by
  simp [spec2dictVal]

theorem spec2dictVal_primitive (reg : Registry) (v : PyVal) :
    spec2dictVal reg .primitive v = v := by
  simp [spec2dictVal]

theorem spec2dictVal_collection (reg : Registry) (v : PyVal) :
    spec2dictVal reg .collection v = v := by
  simp [spec2dictVal]

theorem spec2dictVal_numeric (reg : Registry) (v : PyVal) :
    spec2dictVal reg .numeric v = v := by
  simp [spec2dictVal]

theorem spec2dictVal_modelParam (reg : Registry) (g : List PyVal) (v : PyVal) :
    spec2dictVal reg (.modelParam g) v = v := by
  simp [spec2dictVal]

theorem spec2dictColl_pspec (reg : Registry) (c : String) (fs : List (String × PyVal)) :
    spec2dictColl reg (.pspec c fs) = inst2dict reg c fs := by
  simp [spec2dictColl]

theorem spec2dictColl_plist (reg : Registry) (l : List PyVal) :
    spec2dictColl reg (.plist l) = .plist (spec2dictCollList reg l) := by
  simp [spec2dictColl]

theorem spec2dictColl_pdict (reg : Registry) (ps : List (String × PyVal)) :
    spec2dictColl reg (.pdict ps) = .pdict (spec2dictCollPairs reg ps) := by
  simp [spec2dictColl]

theorem spec2dictCollList_nil (reg : Registry) : spec2dictCollList reg [] = [] := by
  simp [spec2dictCollList]

theorem spec2dictCollList_cons (reg : Registry) (v : PyVal) (l : List PyVal) :
    spec2dictCollList reg (v :: l) = spec2dictColl reg v :: spec2dictCollList reg l := by
  simp [spec2dictCollList]

theorem spec2dictCollPairs_nil (reg : Registry) : spec2dictCollPairs reg [] = [] := by
  simp [spec2dictCollPairs]

theorem spec2dictCollPairs_cons (reg : Registry) (k : String) (v : PyVal)
    (ps : List (String × PyVal)) :
    spec2dictCollPairs reg ((k, v) :: ps)
      = (k, spec2dictColl reg v) :: spec2dictCollPairs reg ps := by
  simp [spec2dictCollPairs]

theorem fromDictColl_pdict (reg : Registry) (ps : List (String × PyVal)) :
    fromDictColl reg (.pdict ps)
      = fromDictCollDict (dict2spec reg (.pdict ps)) (fromDictCollPairs reg ps) := by
  simp [fromDictColl]

theorem fromDictColl_plist (reg : Registry) (l : List PyVal) :
    fromDictColl reg (.plist l) = .plist (fromDictCollList reg l) := by
  simp [fromDictColl]

theorem fromDictCollList_nil (reg : Registry) : fromDictCollList reg [] = [] := by
  simp [fromDictCollList]

theorem fromDictCollList_cons (reg : Registry) (v : PyVal) (l : List PyVal) :
    fromDictCollList reg (v :: l) = fromDictColl reg v :: fromDictCollList reg l := by
  simp [fromDictCollList]

theorem fromDictCollPairs_nil (reg : Registry) : fromDictCollPairs reg [] = [] := by
  simp [fromDictCollPairs]

theorem fromDictCollPairs_cons (reg : Registry) (k : String) (v : PyVal)
    (ps : List (String × PyVal)) :
    fromDictCollPairs reg ((k, v) :: ps)
      = (k, fromDictColl reg v) :: fromDictCollPairs reg ps := by
  simp [fromDictCollPairs]

theorem dict2spec_pdict (reg : Registry) (ps : List (String × PyVal)) :
    dict2spec reg (.pdict ps)
      = (resolveType reg (pyGet ps "type")).bind fun cd => _from_dict reg cd ps := by
  simp [dict2spec]

theorem dict2keyV_pdict (ps : List (String × PyVal)) :
    dict2keyV (.pdict ps) = dict2key ps := by
  simp [dict2keyV]

theorem dictCanon_pdict (ps : List (String × PyVal)) :
    dictCanon (.pdict ps) = .pdict (dictCanonPairs (sortPairs ps)) := by
  simp [dictCanon]

theorem dictCanon_isNone (v : PyVal) : (dictCanon v).isNone = v.isNone := by
  cases v <;> simp [dictCanon, PyVal.isNone]

theorem check_valid_value_dictCanon (reg : Registry) (k : FieldKind) (v : PyVal)
    (hb : ∀ b, k ≠ .baseSpec b) (hs : k ≠ .specCollection) :
    check_valid_value reg k (dictCanon v) = check_valid_value reg k v := by
  cases k with
  | baseSpec b => exact absurd rfl (hb b)
  | specCollection => exact absurd rfl hs
  | primitive => simp [check_valid_value]
  | modelParam g => simp [check_valid_value]
  | collection => cases v <;> simp [check_valid_value, dictCanon]
  | numeric => cases v <;> simp [check_valid_value, dictCanon]

theorem keysOf_spec2dictCollPairs (reg : Registry) (ps : List (String × PyVal)) :
    keysOf (spec2dictCollPairs reg ps) = keysOf ps := by
  induction ps with
  | nil => rw [spec2dictCollPairs_nil]
  | cons p rest ih =>
    obtain ⟨k, v⟩ := p
    rw [spec2dictCollPairs_cons, keysOf_cons, keysOf_cons, ih]

theorem keysOf_fromDictCollPairs (reg : Registry) (ps : List (String × PyVal)) :
    keysOf (fromDictCollPairs reg ps) = keysOf ps := by
  induction ps with
  | nil => rw [fromDictCollPairs_nil]
  | cons p rest ih =>
    obtain ⟨k, v⟩ := p
    rw [fromDictCollPairs_cons, keysOf_cons, keysOf_cons, ih]

theorem mem_spec2dictCollList {reg : Registry} :
    ∀ {l : List PyVal} {w : PyVal}, w ∈ spec2dictCollList reg l →
      ∃ e ∈ l, w = spec2dictColl reg e := by
  intro l
  induction l with
  | nil => intro w hw; rw [spec2dictCollList_nil] at hw; cases hw
  | cons v rest ih =>
    intro w hw
    rw [spec2dictCollList_cons] at hw
    rcases List.mem_cons.1 hw with h1 | h1
    · exact ⟨v, List.mem_cons_self _ _, h1⟩
    · obtain ⟨e, he, hwe⟩ := ih h1
      exact ⟨e, List.mem_cons_of_mem _ he, hwe⟩

theorem mem_spec2dictCollPairs {reg : Registry} :
    ∀ {ps : List (String × PyVal)} {p : String × PyVal}, p ∈ spec2dictCollPairs reg ps →
      ∃ q ∈ ps, p = (q.1, spec2dictColl reg q.2) := by
  intro ps
  induction ps with
  | nil => intro p hp; rw [spec2dictCollPairs_nil] at hp; cases hp
  | cons q rest ih =>
    intro p hp
    obtain ⟨k, v⟩ := q
    rw [spec2dictCollPairs_cons] at hp
    rcases List.mem_cons.1 hp with h1 | h1
    · exact ⟨(k, v), List.mem_cons_self _ _, h1⟩
    · obtain ⟨q2, hq2, hpq⟩ := ih h1
      exact ⟨q2, List.mem_cons_of_mem _ hq2, hpq⟩

theorem mapVal_map_self (f : PyVal → PyVal) (g : String → PyVal) :
    ∀ l : List String, mapVal f (l.map fun n => (n, g n)) = l.map fun n => (n, f (g n))
  | [] => rfl
  | n :: rest => by simp [mapVal, mapVal_map_self f g rest]

theorem dict2key_congr_mapped {P Q : List (String × PyVal)}
    (h : mapVal dict2keyV P = mapVal dict2keyV Q) : dict2key P = dict2key Q := by
  rw [dict2key, dict2key, dict2keyPairs_eq_mapVal, dict2keyPairs_eq_mapVal, h]

/-!
### Unpacking the validity predicate
-/

theorem validInst_spec {reg : Registry} {cls : String} {fs : List (String × PyVal)}
    (h : validInst reg cls fs = true) :
    ∃ cd, lookupClass reg cls = some cd
      ∧ cd.name = cls
      ∧ type2spec_class reg cls = some cd
      ∧ goodStr cls = true
      ∧ "type" ∉ fieldNames cd.fields
      ∧ (fieldNames cd.fields).Nodup
      ∧ (∀ fd ∈ cd.fields, goodStr fd.name = true)
      ∧ (keysOf fs).Perm (fieldNames cd.fields)
      ∧ (keysOf fs).Nodup
      ∧ validFields reg fs cd.fields = true := by
  rw [validInst] at h
  cases hcd : lookupClass reg cls with
  | none => rw [hcd] at h; cases h
  | some cd =>
    rw [hcd] at h
    simp only [Bool.and_eq_true, decide_eq_true_eq, Bool.not_eq_true',
      beq_eq_false_iff_ne, ne_eq, List.all_eq_true] at h
    obtain ⟨⟨⟨⟨⟨⟨⟨⟨⟨⟨⟨hname, hreg⟩, hsub⟩, hne⟩, hnc⟩, hgood⟩, htype⟩, hnodup⟩,
      hfgood⟩, hperm⟩, hknodup⟩, hfields⟩ := h
    exact ⟨cd, rfl, hname, type2spec_resolves hcd hreg hsub hne hnc, hgood, htype,
      hnodup, hfgood, hperm, hknodup, hfields⟩

theorem validFields_spec (reg : Registry) (fs : List (String × PyVal)) :
    ∀ fds : List FieldDef, validFields reg fs fds = true →
      ∀ fd ∈ fds, validValOpt reg fd.kind (pyGet fs fd.name) = true
  | [], _, fd, hfd => by cases hfd
  | fd0 :: rest, h, fd, hfd => by
    have h2 : validValOpt reg fd0.kind (pyGet fs fd0.name) = true
        ∧ validFields reg fs rest = true := by
      simp only [validFields, Bool.and_eq_true] at h
      exact h
    rcases List.mem_cons.1 hfd with h1 | h1
    · subst h1; exact h2.1
    · exact validFields_spec reg fs rest h2.2 fd h1

theorem validValOpt_spec {reg : Registry} {k : FieldKind} {o : Option PyVal}
    (h : validValOpt reg k o = true) :
    ∃ v, o = some v ∧ validVal reg k v = true
      ∧ (v.isNone = true ∨ check_valid_value reg k v = true) := by
  cases o with
  | none => rw [show validValOpt reg k Option.none = false from by simp [validValOpt]] at h; cases h
  | some v =>
    refine ⟨v, rfl, ?_⟩
    simpa only [validValOpt, Bool.and_eq_true, Bool.or_eq_true] using h

theorem validList_spec (reg : Registry) (l : List PyVal) (h : validList reg l = true) :
    ∀ e ∈ l, ∃ c f, e = .pspec c f ∧ validInst reg c f = true := by
  induction l with
  | nil => intro e he; cases he
  | cons x rest ih =>
    intro e he
    cases x with
    | pspec c f =>
      simp only [validList, Bool.and_eq_true] at h
      rcases List.mem_cons.1 he with h1 | h1
      · exact ⟨c, f, h1, h.1⟩
      · exact ih h.2 e h1
    | pnone => simp [validList] at h
    | pbool b => simp [validList] at h
    | pint n => simp [validList] at h
    | pstr s => simp [validList] at h
    | plist l2 => simp [validList] at h
    | pdict ps => simp [validList] at h

theorem validPairs_spec (reg : Registry) (ps : List (String × PyVal))
    (h : validPairs reg ps = true) :
    ∀ q ∈ ps, ∃ c f, q.2 = .pspec c f ∧ validInst reg c f = true := by
  induction ps with
  | nil => intro q hq; cases hq
  | cons x rest ih =>
    intro q hq
    obtain ⟨kx, vx⟩ := x
    cases vx with
    | pspec c f =>
      simp only [validPairs, Bool.and_eq_true] at h
      rcases List.mem_cons.1 hq with h1 | h1
      · exact ⟨c, f, by rw [h1], h.1⟩
      · exact ih h.2 q h1
    | pnone => simp [validPairs] at h
    | pbool b => simp [validPairs] at h
    | pint n => simp [validPairs] at h
    | pstr s => simp [validPairs] at h
    | plist l2 => simp [validPairs] at h
    | pdict ps2 => simp [validPairs] at h

theorem validVal_specColl_pdict {reg : Registry} {ps : List (String × PyVal)}
    (h : validVal reg .specCollection (.pdict ps) = true) :
    (keysOf ps).Nodup ∧ "type" ∉ keysOf ps ∧ (∀ p ∈ ps, goodStr p.1 = true)
      ∧ validPairs reg ps = true := by
  have h2 := h
  simp only [validVal, Bool.and_eq_true, decide_eq_true_eq, List.all_eq_true] at h2
  exact ⟨h2.1.1.1, h2.1.1.2, h2.1.2, h2.2⟩

/-- The serialized dict binds each declared field name to the serialization of
the instance's value for it. -/
theorem pyGet_inst_entries {reg : Registry} {cls : String} {cd : ClassDef}
    (hcd : lookupClass reg cls = some cd)
    (hnodup : (fieldNames cd.fields).Nodup) {fd : FieldDef} (hfd : fd ∈ cd.fields)
    {fs : List (String × PyVal)} {v : PyVal} (hv : pyGet fs fd.name = some v) :
    pyGet (instFieldVals reg cls (spec2dictFields reg cls fs)) fd.name
      = some (spec2dictVal reg fd.kind v) := by
  rw [instFieldVals_eq hcd, pyGet_map_self,
    if_pos (show fd.name ∈ fieldNames cd.fields from List.mem_map_of_mem FieldDef.name hfd)]
  rw [getattrV, pyGet_spec2dictFields, hv, fieldKindOf_eq hcd hnodup hfd]
  rfl

theorem mem_fieldNames {fds : List FieldDef} {n : String} (h : n ∈ fieldNames fds) :
    ∃ fd ∈ fds, fd.name = n := by
  rw [fieldNames] at h
  obtain ⟨fd, hfd, hn⟩ := List.mem_map.1 h
  exact ⟨fd, hfd, hn⟩

/-- `to_dict` outputs agree whenever the two instances' serialized values
agree on every declared field. -/
theorem inst2dict_congr_fields {reg : Registry} {cls : String} {cd : ClassDef}
    (hcd : lookupClass reg cls = some cd) {fs1 fs2 : List (String × PyVal)}
    (h : ∀ fd ∈ cd.fields, getattrV (spec2dictFields reg cls fs1) fd.name
        = getattrV (spec2dictFields reg cls fs2) fd.name) :
    inst2dict reg cls fs1 = inst2dict reg cls fs2 := by
  rw [inst2dict_eq, inst2dict_eq, instFieldVals_eq hcd, instFieldVals_eq hcd]
  have hm : ((fieldNames cd.fields).map fun n => (n, getattrV (spec2dictFields reg cls fs1) n))
      = (fieldNames cd.fields).map fun n => (n, getattrV (spec2dictFields reg cls fs2) n) := by
    apply List.map_congr_left
    intro n hn
    obtain ⟨fd, hfd, rfl⟩ := mem_fieldNames hn
    rw [h fd hfd]
  rw [hm]

/-- Canonical keys agree whenever the two instances' serialized values have
equal wrapper transforms on every declared field. -/
theorem inst2dict_keyV_congr {reg : Registry} {cls : String} {cd : ClassDef}
    (hcd : lookupClass reg cls = some cd) {fs1 fs2 : List (String × PyVal)}
    (h : ∀ fd ∈ cd.fields, dict2keyV (getattrV (spec2dictFields reg cls fs1) fd.name)
        = dict2keyV (getattrV (spec2dictFields reg cls fs2) fd.name)) :
    dict2keyV (inst2dict reg cls fs1) = dict2keyV (inst2dict reg cls fs2) := by
  rw [inst2dict_eq, inst2dict_eq, instFieldVals_eq hcd, instFieldVals_eq hcd,
    dict2keyV_pdict, dict2keyV_pdict]
  apply dict2key_congr_mapped
  simp only [mapVal, mapVal_map_self]
  have hm : ((fieldNames cd.fields).map
        fun n => (n, dict2keyV (getattrV (spec2dictFields reg cls fs1) n)))
      = (fieldNames cd.fields).map
        fun n => (n, dict2keyV (getattrV (spec2dictFields reg cls fs2) n)) := by
    apply List.map_congr_left
    intro n hn
    obtain ⟨fd, hfd, rfl⟩ := mem_fieldNames hn
    rw [h fd hfd]
  rw [hm]

/-!
### Reconstructing serialized SpecCollection values

The `recursive_map` walk of `_from_dict` inverts the `recursive_map` walk of
`to_dict` member by member, given that each member's own serialized dict
rebuilds correctly (the fact the round-trip theorems supply recursively).
-/

/-- A serialized list of sub-instances walks back to Spec values whose
re-serialization is the original list. -/
theorem collListRecon (reg : Registry) : ∀ l : List PyVal,
    (∀ e ∈ l, ∃ c f i2, e = .pspec c f
       ∧ dict2spec reg (inst2dict reg c f) = .ok i2
       ∧ inst2dict reg i2.1 i2.2 = inst2dict reg c f) →
    (∀ w ∈ fromDictCollList reg (spec2dictCollList reg l), isSpecVal w = true)
      ∧ spec2dictCollList reg (fromDictCollList reg (spec2dictCollList reg l))
          = spec2dictCollList reg l
  | [], _ => by
    rw [spec2dictCollList_nil, fromDictCollList_nil, spec2dictCollList_nil]
    exact ⟨fun w hw => absurd hw (List.not_mem_nil w), rfl⟩
  | e :: rest, h => by
    obtain ⟨c, f, i2, he, hd, hi⟩ := h e (List.mem_cons_self _ _)
    obtain ⟨ih1, ih2⟩ := collListRecon reg rest
      (fun e2 h2 => h e2 (List.mem_cons_of_mem _ h2))
    subst he
    have hhead : fromDictColl reg (inst2dict reg c f) = .pspec i2.1 i2.2 := by
      rw [inst2dict_eq, fromDictColl_pdict, ← inst2dict_eq, hd]
      rfl
    rw [spec2dictCollList_cons, spec2dictColl_pspec, fromDictCollList_cons, hhead,
      spec2dictCollList_cons, spec2dictColl_pspec, hi, ih2]
    refine ⟨?_, rfl⟩
    intro w hw
    rcases List.mem_cons.1 hw with h1 | h1
    · rw [h1]; rfl
    · exact ih1 w h1

/-- A serialized dict of sub-instances walks back to Spec values whose
re-serialization is the original pair list. -/
theorem collPairsRecon (reg : Registry) : ∀ ps : List (String × PyVal),
    (∀ q ∈ ps, ∃ c f i2, q.2 = .pspec c f
       ∧ dict2spec reg (inst2dict reg c f) = .ok i2
       ∧ inst2dict reg i2.1 i2.2 = inst2dict reg c f) →
    (∀ p ∈ fromDictCollPairs reg (spec2dictCollPairs reg ps), isSpecVal p.2 = true)
      ∧ spec2dictCollPairs reg (fromDictCollPairs reg (spec2dictCollPairs reg ps))
          = spec2dictCollPairs reg ps
  | [], _ => by
    rw [spec2dictCollPairs_nil, fromDictCollPairs_nil, spec2dictCollPairs_nil]
    exact ⟨fun p hp => absurd hp (List.not_mem_nil p), rfl⟩
  | (k, v) :: rest, h => by
    obtain ⟨c, f, i2, he, hd, hi⟩ := h (k, v) (List.mem_cons_self _ _)
    obtain ⟨ih1, ih2⟩ := collPairsRecon reg rest
      (fun q2 h2 => h q2 (List.mem_cons_of_mem _ h2))
    simp only at he
    subst he
    have hhead : fromDictColl reg (inst2dict reg c f) = .pspec i2.1 i2.2 := by
      rw [inst2dict_eq, fromDictColl_pdict, ← inst2dict_eq, hd]
      rfl
    rw [spec2dictCollPairs_cons, spec2dictColl_pspec, fromDictCollPairs_cons, hhead,
      spec2dictCollPairs_cons, spec2dictColl_pspec, hi, ih2]
    refine ⟨?_, rfl⟩
    intro p hp
    rcases List.mem_cons.1 hp with h1 | h1
    · rw [h1]; rfl
    · exact ih1 p h1

/-- The canonicalized form of a serialized dict of sub-instances walks back to
Spec values whose re-serialization has the same keys and, entrywise, the same
wrapper transform. -/
theorem collPairsReconC (reg : Registry) : ∀ L : List (String × PyVal),
    (∀ p ∈ L, ∃ c f i2, p.2 = inst2dict reg c f
       ∧ dict2spec reg (dictCanon p.2) = .ok i2
       ∧ dict2keyV (inst2dict reg i2.1 i2.2) = dict2keyV p.2) →
    (∀ p ∈ fromDictCollPairs reg (mapVal dictCanon L), isSpecVal p.2 = true)
      ∧ keysOf (fromDictCollPairs reg (mapVal dictCanon L)) = keysOf L
      ∧ mapVal dict2keyV (spec2dictCollPairs reg (fromDictCollPairs reg (mapVal dictCanon L)))
          = mapVal dict2keyV L
  | [], _ => by
    rw [show mapVal dictCanon [] = [] from rfl, fromDictCollPairs_nil, spec2dictCollPairs_nil]
    exact ⟨fun p hp => absurd hp (List.not_mem_nil p), rfl, rfl⟩
  | (k, w) :: rest, h => by
    obtain ⟨c, f, i2, he, hd, hkeq⟩ := h (k, w) (List.mem_cons_self _ _)
    obtain ⟨ih1, ih2, ih3⟩ := collPairsReconC reg rest
      (fun q2 h2 => h q2 (List.mem_cons_of_mem _ h2))
    simp only at he hd hkeq
    subst he
    have hhead : fromDictColl reg (dictCanon (inst2dict reg c f)) = .pspec i2.1 i2.2 := by
      rw [inst2dict_eq, dictCanon_pdict, fromDictColl_pdict, ← dictCanon_pdict,
        ← inst2dict_eq, hd]
      rfl
    rw [show mapVal dictCanon ((k, inst2dict reg c f) :: rest)
        = (k, dictCanon (inst2dict reg c f)) :: mapVal dictCanon rest from rfl]
    rw [fromDictCollPairs_cons, hhead, spec2dictCollPairs_cons, spec2dictColl_pspec]
    refine ⟨?_, ?_, ?_⟩
    · intro p hp
      rcases List.mem_cons.1 hp with h1 | h1
      · rw [h1]; rfl
      · exact ih1 p h1
    · rw [keysOf_cons, keysOf_cons, ih2]
    · rw [show mapVal dict2keyV ((k, inst2dict reg i2.1 i2.2)
          :: spec2dictCollPairs reg (fromDictCollPairs reg (mapVal dictCanon rest)))
          = (k, dict2keyV (inst2dict reg i2.1 i2.2))
            :: mapVal dict2keyV (spec2dictCollPairs reg
                 (fromDictCollPairs reg (mapVal dictCanon rest))) from rfl]
      rw [hkeq, ih3]
      rfl

theorem dictCanon_pnone : dictCanon .pnone = .pnone := by simp [dictCanon]

theorem dictCanon_pbool (b : Bool) : dictCanon (.pbool b) = .pbool b := by simp [dictCanon]

theorem dictCanon_pint (n : Int) : dictCanon (.pint n) = .pint n := by simp [dictCanon]

theorem dictCanon_pstr (s : String) : dictCanon (.pstr s) = .pstr s := by simp [dictCanon]

theorem dictCanon_plist (l : List PyVal) : dictCanon (.plist l) = .plist l := by
  simp [dictCanon]

theorem updVal_baseSpec_ok {reg : Registry} {b : Option String} {w : PyVal} {i : Inst}
    (h : dict2spec reg w = .ok i) :
    updVal reg (.baseSpec b) w = some (.pspec i.1 i.2) := by
  simp [updVal, h]

theorem updVal_specColl (reg : Registry) (w : PyVal) :
    updVal reg .specCollection w = some (fromDictColl reg w) := by
  simp [updVal]

theorem updVal_primitive (reg : Registry) (w : PyVal) :
    updVal reg .primitive w = Option.none := by
  simp [updVal]

theorem updVal_collection (reg : Registry) (w : PyVal) :
    updVal reg .collection w = Option.none := by
  simp [updVal]

theorem updVal_numeric (reg : Registry) (w : PyVal) :
    updVal reg .numeric w = Option.none := by
  simp [updVal]

theorem updVal_modelParam (reg : Registry) (g : List PyVal) (w : PyVal) :
    updVal reg (.modelParam g) w = Option.none := by
  simp [updVal]

theorem resolveType_pstr {reg : Registry} {t : String} {cd : ClassDef}
    (h : type2spec_class reg t = some cd) :
    resolveType reg (some (.pstr t)) = .ok cd := by
  simp [resolveType, h]

/-!
### The serialization round trip on valid instances (claim C1)

`dict2spec` inverts `to_dict` on every valid instance: exactly on the raw
serialized dict (the form `recursive_map` meets inside collections, where no
re-sorting happens), and up to canonical keys on its canonical form (the form
`key2spec` reconstructs after the wrapper round trip re-sorts every dict
reachable through dict values).  The two `_core` lemmas derive the round trip
from the per-field reconstruction facts; the mutual theorems below establish
those facts by structural recursion over the instance.
-/

/-- From per-field reconstruction facts to the exact round trip. -/
theorem roundTripExact_core (reg : Registry) (cls : String) (cd : ClassDef)
    (hcd : lookupClass reg cls = some cd) (hname : cd.name = cls)
    (hty : type2spec_class reg cls = some cd)
    (htype : "type" ∉ fieldNames cd.fields) (hnodup : (fieldNames cd.fields).Nodup)
    (fs : List (String × PyVal))
    (hfield : ∀ fd ∈ cd.fields, ∃ v w, pyGet fs fd.name = some v
      ∧ spec2dictVal reg fd.kind v = w
      ∧ (∀ b, fd.kind = .baseSpec b → ∃ i : Inst, dict2spec reg w = .ok i
           ∧ check_valid_value reg fd.kind (.pspec i.1 i.2) = true)
      ∧ (fd.kind = .specCollection →
           check_valid_value reg .specCollection (fromDictColl reg w) = true)
      ∧ ((∀ b, fd.kind ≠ .baseSpec b) → fd.kind ≠ .specCollection →
           (w.isNone = true ∨ check_valid_value reg fd.kind w = true))
      ∧ spec2dictVal reg fd.kind ((updVal reg fd.kind w).getD w) = w) :
    ∃ fs2, dict2spec reg (inst2dict reg cls fs) = .ok (cls, fs2)
      ∧ inst2dict reg cls fs2 = inst2dict reg cls fs := by
  have hE : removeKey (("type", PyVal.pstr cls)
      :: instFieldVals reg cls (spec2dictFields reg cls fs)) "type"
      = instFieldVals reg cls (spec2dictFields reg cls fs) := by
    simp [removeKey]
  have hkeysE : keysOf (instFieldVals reg cls (spec2dictFields reg cls fs))
      = fieldNames cd.fields := keysOf_instFieldVals hcd _
  have hcr := constructRecon reg cd
    (("type", PyVal.pstr cls) :: instFieldVals reg cls (spec2dictFields reg cls fs))
    (instFieldVals reg cls (spec2dictFields reg cls fs)) hE hnodup
    (by rw [hkeysE]; exact hnodup)
    (by rw [hkeysE])
    (by
      intro fd hfd
      obtain ⟨v, w, hvfs, hw, hb, hs, ho, _⟩ := hfield fd hfd
      refine ⟨w, ?_, hb, hs, ho⟩
      rw [pyGet_inst_entries hcd hnodup hfd hvfs, hw])
  obtain ⟨fs2, hok, hpoint⟩ := hcr
  refine ⟨fs2, ?_, ?_⟩
  · rw [inst2dict_eq, dict2spec_pdict]
    rw [show pyGet (("type", PyVal.pstr cls)
        :: instFieldVals reg cls (spec2dictFields reg cls fs)) "type"
        = some (.pstr cls) from by simp [pyGet]]
    rw [resolveType_pstr hty]
    simp only [Except.bind]
    rw [hok, hname]
  · apply inst2dict_congr_fields hcd
    intro fd hfd
    obtain ⟨v, w, hvfs, hw, _, _, _, hser⟩ := hfield fd hfd
    obtain ⟨w2, hw2, hg2⟩ := hpoint fd hfd
    have hweq : w = w2 := by
      rw [pyGet_inst_entries hcd hnodup hfd hvfs, hw] at hw2
      exact Option.some.inj hw2
    subst hweq
    rw [getattrV, getattrV, pyGet_spec2dictFields, pyGet_spec2dictFields, hvfs, hg2,
      fieldKindOf_eq hcd hnodup hfd]
    simp only [Option.map_some', Option.getD_some]
    rw [hser, hw]

/-- From per-field canonical reconstruction facts to the canonical-key round
trip. -/
theorem roundTripCanon_core (reg : Registry) (cls : String) (cd : ClassDef)
    (hcd : lookupClass reg cls = some cd) (hname : cd.name = cls)
    (hty : type2spec_class reg cls = some cd)
    (htype : "type" ∉ fieldNames cd.fields) (hnodup : (fieldNames cd.fields).Nodup)
    (fs : List (String × PyVal))
    (hfield : ∀ fd ∈ cd.fields, ∃ v w, pyGet fs fd.name = some v
      ∧ spec2dictVal reg fd.kind v = w
      ∧ (∀ b, fd.kind = .baseSpec b → ∃ i : Inst, dict2spec reg (dictCanon w) = .ok i
           ∧ check_valid_value reg fd.kind (.pspec i.1 i.2) = true)
      ∧ (fd.kind = .specCollection →
           check_valid_value reg .specCollection (fromDictColl reg (dictCanon w)) = true)
      ∧ ((∀ b, fd.kind ≠ .baseSpec b) → fd.kind ≠ .specCollection →
           ((dictCanon w).isNone = true ∨ check_valid_value reg fd.kind (dictCanon w) = true))
      ∧ dict2keyV (spec2dictVal reg fd.kind
          ((updVal reg fd.kind (dictCanon w)).getD (dictCanon w))) = dict2keyV w) :
    ∃ fs2, dict2spec reg (dictCanon (inst2dict reg cls fs)) = .ok (cls, fs2)
      ∧ dict2keyV (inst2dict reg cls fs2) = dict2keyV (inst2dict reg cls fs) := by
  have hkeysE : keysOf (instFieldVals reg cls (spec2dictFields reg cls fs))
      = fieldNames cd.fields := keysOf_instFieldVals hcd _
  have hndPS0 : (keysOf (("type", PyVal.pstr cls)
      :: instFieldVals reg cls (spec2dictFields reg cls fs))).Nodup := by
    rw [keysOf_cons, hkeysE]
    exact List.nodup_cons.2 ⟨htype, hnodup⟩
  have hCP : dictCanonPairs (sortPairs (("type", PyVal.pstr cls)
      :: instFieldVals reg cls (spec2dictFields reg cls fs)))
      = mapVal dictCanon (sortPairs (("type", PyVal.pstr cls)
          :: instFieldVals reg cls (spec2dictFields reg cls fs))) :=
    dictCanonPairs_eq_mapVal _
  have hgetC : ∀ n, pyGet (dictCanonPairs (sortPairs (("type", PyVal.pstr cls)
      :: instFieldVals reg cls (spec2dictFields reg cls fs)))) n
      = (pyGet (("type", PyVal.pstr cls)
          :: instFieldVals reg cls (spec2dictFields reg cls fs)) n).map dictCanon := by
    intro n
    rw [hCP, pyGet_mapVal,
      pyGet_perm (sortPairs_perm _) (((sortPairs_perm _).map Prod.fst).nodup_iff.2 hndPS0) n]
  have hkeysC : (keysOf (dictCanonPairs (sortPairs (("type", PyVal.pstr cls)
      :: instFieldVals reg cls (spec2dictFields reg cls fs))))).Perm
      ("type" :: fieldNames cd.fields) := by
    rw [hCP, keysOf_mapVal]
    have h1 := (sortPairs_perm (("type", PyVal.pstr cls)
      :: instFieldVals reg cls (spec2dictFields reg cls fs))).map Prod.fst
    have h2 : keysOf (("type", PyVal.pstr cls)
        :: instFieldVals reg cls (spec2dictFields reg cls fs))
        = "type" :: fieldNames cd.fields := by
      rw [keysOf_cons, hkeysE]
    exact h2 ▸ h1
  have hndC : (keysOf (dictCanonPairs (sortPairs (("type", PyVal.pstr cls)
      :: instFieldVals reg cls (spec2dictFields reg cls fs))))).Nodup :=
    hkeysC.nodup_iff.2 (List.nodup_cons.2 ⟨htype, hnodup⟩)
  have htmem : "type" ∈ keysOf (dictCanonPairs (sortPairs (("type", PyVal.pstr cls)
      :: instFieldVals reg cls (spec2dictFields reg cls fs)))) :=
    hkeysC.mem_iff.2 (List.mem_cons_self _ _)
  have hkn0 : (keysOf (removeKey (dictCanonPairs (sortPairs (("type", PyVal.pstr cls)
      :: instFieldVals reg cls (spec2dictFields reg cls fs)))) "type")).Nodup :=
    hndC.sublist (keysOf_removeKey_sublist _ _)
  have hkp0 : (keysOf (removeKey (dictCanonPairs (sortPairs (("type", PyVal.pstr cls)
      :: instFieldVals reg cls (spec2dictFields reg cls fs)))) "type")).Perm
      (fieldNames cd.fields) :=
    ((keysOf_removeKey_perm _ "type" htmem).trans hkeysC).cons_inv
  have hget0 : ∀ fd ∈ cd.fields, ∀ v w, pyGet fs fd.name = some v →
      spec2dictVal reg fd.kind v = w →
      pyGet (removeKey (dictCanonPairs (sortPairs (("type", PyVal.pstr cls)
        :: instFieldVals reg cls (spec2dictFields reg cls fs)))) "type") fd.name
        = some (dictCanon w) := by
    intro fd hfd v w hvfs hw
    have hne : fd.name ≠ "type" := by
      intro hc
      exact htype (hc ▸ List.mem_map_of_mem FieldDef.name hfd)
    rw [pyGet_removeKey _ _ _ hne, hgetC]
    rw [show pyGet (("type", PyVal.pstr cls)
        :: instFieldVals reg cls (spec2dictFields reg cls fs)) fd.name
        = pyGet (instFieldVals reg cls (spec2dictFields reg cls fs)) fd.name from by
      rw [pyGet, if_neg (fun hc => hne hc.symm)]]
    rw [pyGet_inst_entries hcd hnodup hfd hvfs, hw]
    rfl
  have hcr := constructRecon reg cd
    (dictCanonPairs (sortPairs (("type", PyVal.pstr cls)
      :: instFieldVals reg cls (spec2dictFields reg cls fs))))
    (removeKey (dictCanonPairs (sortPairs (("type", PyVal.pstr cls)
      :: instFieldVals reg cls (spec2dictFields reg cls fs)))) "type")
    rfl hnodup hkn0 hkp0
    (by
      intro fd hfd
      obtain ⟨v, w, hvfs, hw, hb, hs, ho, _⟩ := hfield fd hfd
      exact ⟨dictCanon w, hget0 fd hfd v w hvfs hw, hb, hs, ho⟩)
  obtain ⟨fs2, hok, hpoint⟩ := hcr
  refine ⟨fs2, ?_, ?_⟩
  · rw [inst2dict_eq, dictCanon_pdict, dict2spec_pdict]
    rw [show pyGet (dictCanonPairs (sortPairs (("type", PyVal.pstr cls)
        :: instFieldVals reg cls (spec2dictFields reg cls fs)))) "type"
        = some (.pstr cls) from by
      rw [hgetC "type", show pyGet (("type", PyVal.pstr cls)
        :: instFieldVals reg cls (spec2dictFields reg cls fs)) "type"
        = some (.pstr cls) from by simp [pyGet]]
      rw [Option.map_some', dictCanon_pstr]]
    rw [resolveType_pstr hty]
    simp only [Except.bind]
    rw [hok, hname]
  · apply inst2dict_keyV_congr hcd
    intro fd hfd
    obtain ⟨v, w, hvfs, hw, _, _, _, hser⟩ := hfield fd hfd
    obtain ⟨w2, hw2, hg2⟩ := hpoint fd hfd
    have hweq : dictCanon w = w2 := by
      rw [hget0 fd hfd v w hvfs hw] at hw2
      exact Option.some.inj hw2
    rw [getattrV, getattrV, pyGet_spec2dictFields, pyGet_spec2dictFields, hvfs, hg2,
      fieldKindOf_eq hcd hnodup hfd]
    simp only [Option.map_some', Option.getD_some]
    rw [← hweq, hser, hw]

mutual

/-- Exact round trip: `dict2spec` on the serialized dict of a valid instance
rebuilds an instance of the same class whose serialization is identical. -/
theorem specRoundTripExact (reg : Registry) (cls : String) (fs : List (String × PyVal))
    (hv : validInst reg cls fs = true) :
    ∃ fs2, dict2spec reg (inst2dict reg cls fs) = .ok (cls, fs2)
      ∧ inst2dict reg cls fs2 = inst2dict reg cls fs := by
  obtain ⟨cd, hcd, hname, hty, hgoodc, htype, hnodup, hfgood, hperm, hknodup, hfields⟩ :=
    validInst_spec hv
  apply roundTripExact_core reg cls cd hcd hname hty htype hnodup fs
  intro fd hfd
  obtain ⟨v, hvfs, hvv, hchk⟩ :=
    validValOpt_spec (validFields_spec reg fs cd.fields hfields fd hfd)
  have hsz : sizeOf v < sizeOf fs := pyGet_sizeOf hvfs
  cases hk : fd.kind with
  | baseSpec b =>
    rw [hk] at hvv
    cases v with
    | pspec c f =>
      have hvv2 : validInst reg c f = true ∧ baseOk reg b c = true := by
        rw [show validVal reg (.baseSpec b) (.pspec c f)
            = (validInst reg c f && baseOk reg b c) from by simp [validVal]] at hvv
        simpa using hvv
      have hsf : sizeOf f < sizeOf fs := by
        simp at hsz
        omega
      obtain ⟨f2, hd2, hi2⟩ := specRoundTripExact reg c f hvv2.1
      refine ⟨.pspec c f, inst2dict reg c f, hvfs, spec2dictVal_baseSpec reg b c f,
        ?_, ?_, ?_, ?_⟩
      · intro b2 hb2
        injection hb2 with hbb
        subst hbb
        refine ⟨(c, f2), hd2, ?_⟩
        cases b with
        | none => rfl
        | some base =>
          have hsub2 : isSubclass reg c base = true := by
            simpa [baseOk] using hvv2.2
          simpa [check_valid_value] using hsub2
      · intro hc
        exact FieldKind.noConfusion hc
      · intro hnb _
        exact absurd rfl (hnb b)
      · rw [updVal_baseSpec_ok hd2, Option.getD_some, spec2dictVal_baseSpec, hi2]
    | pnone => simp [validVal] at hvv
    | pbool b2 => simp [validVal] at hvv
    | pint n => simp [validVal] at hvv
    | pstr s => simp [validVal] at hvv
    | plist l => simp [validVal] at hvv
    | pdict ps => simp [validVal] at hvv
  | specCollection =>
    rw [hk] at hvv
    cases v with
    | plist l =>
      have hvl : validList reg l = true := by
        rw [show validVal reg .specCollection (.plist l) = validList reg l from by
          simp [validVal]] at hvv
        exact hvv
      have hs0 : sizeOf l < sizeOf fs := by
        simp at hsz
        omega
      have hcoll := collListRecon reg l (fun e hel => by
        obtain ⟨c, f, hef, hvf⟩ := validList_spec reg l hvl e hel
        have hs1 : sizeOf e < sizeOf l := List.sizeOf_lt_of_mem hel
        have hsf : sizeOf f < sizeOf fs := by
          rw [hef] at hs1
          simp at hs1
          omega
        obtain ⟨f2, hd2, hi2⟩ := specRoundTripExact reg c f hvf
        exact ⟨c, f, (c, f2), hef, hd2, hi2⟩)
      refine ⟨.plist l, .plist (spec2dictCollList reg l), hvfs, ?_, ?_, ?_, ?_, ?_⟩
      · rw [spec2dictVal_specColl, spec2dictColl_plist]
      · intro b2 hb2
        exact FieldKind.noConfusion hb2
      · intro _
        rw [fromDictColl_plist]
        simp only [check_valid_value, is_iterable, generalIterVals, Bool.true_and,
          List.all_eq_true]
        exact fun w2 hw2 => hcoll.1 w2 hw2
      · intro _ hns
        exact absurd rfl hns
      · rw [updVal_specColl, Option.getD_some, fromDictColl_plist, spec2dictVal_specColl,
          spec2dictColl_plist, hcoll.2]
    | pdict ps =>
      have hvp := validVal_specColl_pdict hvv
      have hs0 : sizeOf ps < sizeOf fs := by
        simp at hsz
        omega
      have hpairs := collPairsRecon reg ps (fun q hq => by
        obtain ⟨c, f, hef, hvf⟩ := validPairs_spec reg ps hvp.2.2.2 q hq
        have hs1 : sizeOf q < sizeOf ps := List.sizeOf_lt_of_mem hq
        have hs2 : sizeOf q.2 ≤ sizeOf q := by
          obtain ⟨a, b2⟩ := q
          simp
        have hsf : sizeOf f < sizeOf fs := by
          rw [hef] at hs2
          simp at hs2
          omega
        obtain ⟨f2, hd2, hi2⟩ := specRoundTripExact reg c f hvf
        exact ⟨c, f, (c, f2), hef, hd2, hi2⟩)
      have hga : pyGet (spec2dictCollPairs reg ps) "type" = Option.none :=
        (pyGet_eq_none_iff _ _).2 (by rw [keysOf_spec2dictCollPairs]; exact hvp.2.1)
      have hfdc : fromDictColl reg (.pdict (spec2dictCollPairs reg ps))
          = .pdict (fromDictCollPairs reg (spec2dictCollPairs reg ps)) := by
        rw [fromDictColl_pdict, dict2spec_pdict, hga]
        rfl
      refine ⟨.pdict ps, .pdict (spec2dictCollPairs reg ps), hvfs, ?_, ?_, ?_, ?_, ?_⟩
      · rw [spec2dictVal_specColl, spec2dictColl_pdict]
      · intro b2 hb2
        exact FieldKind.noConfusion hb2
      · intro _
        rw [hfdc]
        simp only [check_valid_value, is_iterable, generalIterVals, Bool.true_and,
          List.all_eq_true]
        intro w2 hw2
        obtain ⟨p, hp, rfl⟩ := List.mem_map.1 hw2
        exact hpairs.1 p hp
      · intro _ hns
        exact absurd rfl hns
      · rw [updVal_specColl, Option.getD_some, hfdc, spec2dictVal_specColl,
          spec2dictColl_pdict, hpairs.2]
    | pnone => simp [validVal] at hvv
    | pbool b2 => simp [validVal] at hvv
    | pint n => simp [validVal] at hvv
    | pstr s => simp [validVal] at hvv
    | pspec c f => simp [validVal] at hvv
  | primitive =>
    rw [hk] at hchk
    refine ⟨v, v, hvfs, spec2dictVal_primitive reg v, ?_, ?_, ?_, ?_⟩
    · intro b2 hb2
      exact FieldKind.noConfusion hb2
    · intro hc
      exact FieldKind.noConfusion hc
    · intro _ _
      exact hchk
    · rw [updVal_primitive, Option.getD_none, spec2dictVal_primitive]
  | collection =>
    rw [hk] at hchk
    refine ⟨v, v, hvfs, spec2dictVal_collection reg v, ?_, ?_, ?_, ?_⟩
    · intro b2 hb2
      exact FieldKind.noConfusion hb2
    · intro hc
      exact FieldKind.noConfusion hc
    · intro _ _
      exact hchk
    · rw [updVal_collection, Option.getD_none, spec2dictVal_collection]
  | numeric =>
    rw [hk] at hchk
    refine ⟨v, v, hvfs, spec2dictVal_numeric reg v, ?_, ?_, ?_, ?_⟩
    · intro b2 hb2
      exact FieldKind.noConfusion hb2
    · intro hc
      exact FieldKind.noConfusion hc
    · intro _ _
      exact hchk
    · rw [updVal_numeric, Option.getD_none, spec2dictVal_numeric]
  | modelParam g =>
    rw [hk] at hchk
    refine ⟨v, v, hvfs, spec2dictVal_modelParam reg g v, ?_, ?_, ?_, ?_⟩
    · intro b2 hb2
      exact FieldKind.noConfusion hb2
    · intro hc
      exact FieldKind.noConfusion hc
    · intro _ _
      exact hchk
    · rw [updVal_modelParam, Option.getD_none, spec2dictVal_modelParam]
termination_by (sizeOf fs, 0)
decreasing_by
  all_goals (apply Prod.Lex.left; omega)

/-- Canonical round trip: `dict2spec` on the canonical form of the serialized
dict of a valid instance rebuilds an instance of the same class with the same
canonical key. -/
theorem specRoundTripCanon (reg : Registry) (cls : String) (fs : List (String × PyVal))
    (hv : validInst reg cls fs = true) :
    ∃ fs2, dict2spec reg (dictCanon (inst2dict reg cls fs)) = .ok (cls, fs2)
      ∧ dict2keyV (inst2dict reg cls fs2) = dict2keyV (inst2dict reg cls fs) := by
  obtain ⟨cd, hcd, hname, hty, hgoodc, htype, hnodup, hfgood, hperm, hknodup, hfields⟩ :=
    validInst_spec hv
  apply roundTripCanon_core reg cls cd hcd hname hty htype hnodup fs
  intro fd hfd
  obtain ⟨v, hvfs, hvv, hchk⟩ :=
    validValOpt_spec (validFields_spec reg fs cd.fields hfields fd hfd)
  have hsz : sizeOf v < sizeOf fs := pyGet_sizeOf hvfs
  cases hk : fd.kind with
  | baseSpec b =>
    rw [hk] at hvv
    cases v with
    | pspec c f =>
      have hvv2 : validInst reg c f = true ∧ baseOk reg b c = true := by
        rw [show validVal reg (.baseSpec b) (.pspec c f)
            = (validInst reg c f && baseOk reg b c) from by simp [validVal]] at hvv
        simpa using hvv
      have hsf : sizeOf f < sizeOf fs := by
        simp at hsz
        omega
      obtain ⟨f2, hd2, hk2⟩ := specRoundTripCanon reg c f hvv2.1
      refine ⟨.pspec c f, inst2dict reg c f, hvfs, spec2dictVal_baseSpec reg b c f,
        ?_, ?_, ?_, ?_⟩
      · intro b2 hb2
        injection hb2 with hbb
        subst hbb
        refine ⟨(c, f2), hd2, ?_⟩
        cases b with
        | none => rfl
        | some base =>
          have hsub2 : isSubclass reg c base = true := by
            simpa [baseOk] using hvv2.2
          simpa [check_valid_value] using hsub2
      · intro hc
        exact FieldKind.noConfusion hc
      · intro hnb _
        exact absurd rfl (hnb b)
      · rw [updVal_baseSpec_ok hd2, Option.getD_some, spec2dictVal_baseSpec, hk2]
    | pnone => simp [validVal] at hvv
    | pbool b2 => simp [validVal] at hvv
    | pint n => simp [validVal] at hvv
    | pstr s => simp [validVal] at hvv
    | plist l => simp [validVal] at hvv
    | pdict ps => simp [validVal] at hvv
  | specCollection =>
    rw [hk] at hvv
    cases v with
    | plist l =>
      have hvl : validList reg l = true := by
        rw [show validVal reg .specCollection (.plist l) = validList reg l from by
          simp [validVal]] at hvv
        exact hvv
      have hs0 : sizeOf l < sizeOf fs := by
        simp at hsz
        omega
      have hcoll := collListRecon reg l (fun e hel => by
        obtain ⟨c, f, hef, hvf⟩ := validList_spec reg l hvl e hel
        have hs1 : sizeOf e < sizeOf l := List.sizeOf_lt_of_mem hel
        have hsf : sizeOf f < sizeOf fs := by
          rw [hef] at hs1
          simp at hs1
          omega
        obtain ⟨f2, hd2, hi2⟩ := specRoundTripExact reg c f hvf
        exact ⟨c, f, (c, f2), hef, hd2, hi2⟩)
      refine ⟨.plist l, .plist (spec2dictCollList reg l), hvfs, ?_, ?_, ?_, ?_, ?_⟩
      · rw [spec2dictVal_specColl, spec2dictColl_plist]
      · intro b2 hb2
        exact FieldKind.noConfusion hb2
      · intro _
        rw [dictCanon_plist, fromDictColl_plist]
        simp only [check_valid_value, is_iterable, generalIterVals, Bool.true_and,
          List.all_eq_true]
        exact fun w2 hw2 => hcoll.1 w2 hw2
      · intro _ hns
        exact absurd rfl hns
      · rw [dictCanon_plist, updVal_specColl, Option.getD_some, fromDictColl_plist,
          spec2dictVal_specColl, spec2dictColl_plist, hcoll.2]
    | pdict ps =>
      have hvp := validVal_specColl_pdict hvv
      have hs0 : sizeOf ps < sizeOf fs := by
        simp at hsz
        omega
      have hkA : (keysOf (spec2dictCollPairs reg ps)).Nodup := by
        rw [keysOf_spec2dictCollPairs]
        exact hvp.1
      have hL := collPairsReconC reg (sortPairs (spec2dictCollPairs reg ps)) (fun p hp => by
        have hpA : p ∈ spec2dictCollPairs reg ps := (sortPairs_perm _).mem_iff.1 hp
        obtain ⟨q, hq, hpq⟩ := mem_spec2dictCollPairs hpA
        obtain ⟨c, f, hef, hvf⟩ := validPairs_spec reg ps hvp.2.2.2 q hq
        have hs1 : sizeOf q < sizeOf ps := List.sizeOf_lt_of_mem hq
        have hs2 : sizeOf q.2 ≤ sizeOf q := by
          obtain ⟨a, b2⟩ := q
          simp
        have hsf : sizeOf f < sizeOf fs := by
          rw [hef] at hs2
          simp at hs2
          omega
        have hp2 : p.2 = inst2dict reg c f := by
          rw [hpq, hef]
          exact spec2dictColl_pspec reg c f
        obtain ⟨f2, hd2, hk2⟩ := specRoundTripCanon reg c f hvf
        refine ⟨c, f, (c, f2), hp2, ?_, ?_⟩
        · rw [hp2]
          exact hd2
        · rw [hp2]
          exact hk2)
      have hga2 : pyGet (mapVal dictCanon (sortPairs (spec2dictCollPairs reg ps))) "type"
          = Option.none := by
        rw [pyGet_mapVal,
          pyGet_perm (sortPairs_perm _) (((sortPairs_perm _).map Prod.fst).nodup_iff.2 hkA) _,
          (pyGet_eq_none_iff _ _).2 (by rw [keysOf_spec2dictCollPairs]; exact hvp.2.1)]
        rfl
      have hfc : fromDictColl reg (dictCanon (.pdict (spec2dictCollPairs reg ps)))
          = .pdict (fromDictCollPairs reg
              (mapVal dictCanon (sortPairs (spec2dictCollPairs reg ps)))) := by
        rw [dictCanon_pdict, dictCanonPairs_eq_mapVal, fromDictColl_pdict, dict2spec_pdict,
          hga2]
        rfl
      refine ⟨.pdict ps, .pdict (spec2dictCollPairs reg ps), hvfs, ?_, ?_, ?_, ?_, ?_⟩
      · rw [spec2dictVal_specColl, spec2dictColl_pdict]
      · intro b2 hb2
        exact FieldKind.noConfusion hb2
      · intro _
        rw [hfc]
        simp only [check_valid_value, is_iterable, generalIterVals, Bool.true_and,
          List.all_eq_true]
        intro w2 hw2
        obtain ⟨p, hp, rfl⟩ := List.mem_map.1 hw2
        exact hL.1 p hp
      · intro _ hns
        exact absurd rfl hns
      · rw [updVal_specColl, Option.getD_some, hfc, spec2dictVal_specColl,
          spec2dictColl_pdict, dict2keyV_pdict, dict2keyV_pdict]
        rw [dict2key, dict2key, dict2keyPairs_eq_mapVal, dict2keyPairs_eq_mapVal]
        rw [hL.2.2]
        rw [sortPairs_mapVal, sortPairs_idem _ hkA, ← sortPairs_mapVal]
    | pnone => simp [validVal] at hvv
    | pbool b2 => simp [validVal] at hvv
    | pint n => simp [validVal] at hvv
    | pstr s => simp [validVal] at hvv
    | pspec c f => simp [validVal] at hvv
  | primitive =>
    rw [hk] at hvv hchk
    have hgc : goodJson v = true ∧ chainGood v = true := by
      rw [show validVal reg .primitive v = (goodJson v && chainGood v) from by
        simp [validVal]] at hvv
      simpa using hvv
    refine ⟨v, v, hvfs, spec2dictVal_primitive reg v, ?_, ?_, ?_, ?_⟩
    · intro b2 hb2
      exact FieldKind.noConfusion hb2
    · intro hc
      exact FieldKind.noConfusion hc
    · intro _ _
      rcases hchk with h1 | h1
      · exact Or.inl (by rw [dictCanon_isNone]; exact h1)
      · refine Or.inr ?_
        rw [check_valid_value_dictCanon reg _ v (fun b2 hb2 => FieldKind.noConfusion hb2)
          (fun hc => FieldKind.noConfusion hc)]
        exact h1
    · rw [updVal_primitive, Option.getD_none, spec2dictVal_primitive]
      exact dict2keyV_dictCanon v hgc.2
  | collection =>
    rw [hk] at hvv hchk
    have hgc : goodJson v = true ∧ chainGood v = true := by
      rw [show validVal reg .collection v = (goodJson v && chainGood v) from by
        simp [validVal]] at hvv
      simpa using hvv
    refine ⟨v, v, hvfs, spec2dictVal_collection reg v, ?_, ?_, ?_, ?_⟩
    · intro b2 hb2
      exact FieldKind.noConfusion hb2
    · intro hc
      exact FieldKind.noConfusion hc
    · intro _ _
      rcases hchk with h1 | h1
      · exact Or.inl (by rw [dictCanon_isNone]; exact h1)
      · refine Or.inr ?_
        rw [check_valid_value_dictCanon reg _ v (fun b2 hb2 => FieldKind.noConfusion hb2)
          (fun hc => FieldKind.noConfusion hc)]
        exact h1
    · rw [updVal_collection, Option.getD_none, spec2dictVal_collection]
      exact dict2keyV_dictCanon v hgc.2
  | numeric =>
    rw [hk] at hvv hchk
    have hgc : goodJson v = true ∧ chainGood v = true := by
      rw [show validVal reg .numeric v = (goodJson v && chainGood v) from by
        simp [validVal]] at hvv
      simpa using hvv
    refine ⟨v, v, hvfs, spec2dictVal_numeric reg v, ?_, ?_, ?_, ?_⟩
    · intro b2 hb2
      exact FieldKind.noConfusion hb2
    · intro hc
      exact FieldKind.noConfusion hc
    · intro _ _
      rcases hchk with h1 | h1
      · exact Or.inl (by rw [dictCanon_isNone]; exact h1)
      · refine Or.inr ?_
        rw [check_valid_value_dictCanon reg _ v (fun b2 hb2 => FieldKind.noConfusion hb2)
          (fun hc => FieldKind.noConfusion hc)]
        exact h1
    · rw [updVal_numeric, Option.getD_none, spec2dictVal_numeric]
      exact dict2keyV_dictCanon v hgc.2
  | modelParam g =>
    rw [hk] at hvv hchk
    have hgc : goodJson v = true ∧ chainGood v = true := by
      rw [show validVal reg (.modelParam g) v = (goodJson v && chainGood v) from by
        simp [validVal]] at hvv
      simpa using hvv
    refine ⟨v, v, hvfs, spec2dictVal_modelParam reg g v, ?_, ?_, ?_, ?_⟩
    · intro b2 hb2
      exact FieldKind.noConfusion hb2
    · intro hc
      exact FieldKind.noConfusion hc
    · intro _ _
      rcases hchk with h1 | h1
      · exact Or.inl (by rw [dictCanon_isNone]; exact h1)
      · refine Or.inr ?_
        rw [check_valid_value_dictCanon reg _ v (fun b2 hb2 => FieldKind.noConfusion hb2)
          (fun hc => FieldKind.noConfusion hc)]
        exact h1
    · rw [updVal_modelParam, Option.getD_none, spec2dictVal_modelParam]
      exact dict2keyV_dictCanon v hgc.2
termination_by (sizeOf fs, 1)
decreasing_by
  all_goals (apply Prod.Lex.left; omega)

end

/-- The serialized dict of a valid instance is JSON-encodable (`goodJson`) and
has unique keys along every dict chain (`chainGood`): the inputs the key
pipeline needs. -/
theorem inst2dict_goodChain (reg : Registry) (cls : String) (fs : List (String × PyVal))
    (hv : validInst reg cls fs = true) :
    goodJson (inst2dict reg cls fs) = true ∧ chainGood (inst2dict reg cls fs) = true := by
  obtain ⟨cd, hcd, hname, hty, hgoodc, htype, hnodup, hfgood, hperm, hknodup, hfields⟩ :=
    validInst_spec hv
  have hentries : ∀ fd ∈ cd.fields,
      goodJson (getattrV (spec2dictFields reg cls fs) fd.name) = true
      ∧ chainGood (getattrV (spec2dictFields reg cls fs) fd.name) = true := by
    intro fd hfd
    obtain ⟨v, hvfs, hvv, hchk⟩ :=
      validValOpt_spec (validFields_spec reg fs cd.fields hfields fd hfd)
    have hsz : sizeOf v < sizeOf fs := pyGet_sizeOf hvfs
    have hga : getattrV (spec2dictFields reg cls fs) fd.name = spec2dictVal reg fd.kind v := by
      rw [getattrV, pyGet_spec2dictFields, hvfs, fieldKindOf_eq hcd hnodup hfd]
      rfl
    rw [hga]
    cases hk : fd.kind with
    | baseSpec b =>
      rw [hk] at hvv
      cases v with
      | pspec c f =>
        have hvv2 : validInst reg c f = true ∧ baseOk reg b c = true := by
          rw [show validVal reg (.baseSpec b) (.pspec c f)
              = (validInst reg c f && baseOk reg b c) from by simp [validVal]] at hvv
          simpa using hvv
        have hsf : sizeOf f < sizeOf fs := by
          simp at hsz
          omega
        rw [spec2dictVal_baseSpec]
        exact inst2dict_goodChain reg c f hvv2.1
      | pnone => simp [validVal] at hvv
      | pbool b2 => simp [validVal] at hvv
      | pint n => simp [validVal] at hvv
      | pstr s => simp [validVal] at hvv
      | plist l => simp [validVal] at hvv
      | pdict ps => simp [validVal] at hvv
    | specCollection =>
      rw [hk] at hvv
      cases v with
      | plist l =>
        have hvl : validList reg l = true := by
          rw [show validVal reg .specCollection (.plist l) = validList reg l from by
            simp [validVal]] at hvv
          exact hvv
        have hs0 : sizeOf l < sizeOf fs := by
          simp at hsz
          omega
        rw [spec2dictVal_specColl, spec2dictColl_plist]
        constructor
        · rw [goodJson_plist, goodJsonList_iff]
          intro w hw
          obtain ⟨e, hel, rfl⟩ := mem_spec2dictCollList hw
          obtain ⟨c, f, hef, hvf⟩ := validList_spec reg l hvl e hel
          have hs1 : sizeOf e < sizeOf l := List.sizeOf_lt_of_mem hel
          have hsf : sizeOf f < sizeOf fs := by
            rw [hef] at hs1
            simp at hs1
            omega
          rw [hef, spec2dictColl_pspec]
          exact (inst2dict_goodChain reg c f hvf).1
        · simp [chainGood]
      | pdict ps =>
        have hvp := validVal_specColl_pdict hvv
        have hs0 : sizeOf ps < sizeOf fs := by
          simp at hsz
          omega
        rw [spec2dictVal_specColl, spec2dictColl_pdict]
        have hsub : ∀ p ∈ spec2dictCollPairs reg ps,
            goodStr p.1 = true ∧ goodJson p.2 = true ∧ chainGood p.2 = true := by
          intro p hp
          obtain ⟨q, hq, hpq⟩ := mem_spec2dictCollPairs hp
          obtain ⟨c, f, hef, hvf⟩ := validPairs_spec reg ps hvp.2.2.2 q hq
          have hs1 : sizeOf q < sizeOf ps := List.sizeOf_lt_of_mem hq
          have hs2 : sizeOf q.2 ≤ sizeOf q := by
            obtain ⟨a, b2⟩ := q
            simp
          have hsf : sizeOf f < sizeOf fs := by
            rw [hef] at hs2
            simp at hs2
            omega
          have hrec := inst2dict_goodChain reg c f hvf
          refine ⟨?_, ?_, ?_⟩
          · rw [hpq]
            exact hvp.2.2.1 q hq
          · rw [hpq]
            show goodJson (spec2dictColl reg q.2) = true
            rw [hef, spec2dictColl_pspec]
            exact hrec.1
          · rw [hpq]
            show chainGood (spec2dictColl reg q.2) = true
            rw [hef, spec2dictColl_pspec]
            exact hrec.2
        constructor
        · rw [goodJson_pdict, goodJsonPairs_iff]
          exact fun p hp => ⟨(hsub p hp).1, (hsub p hp).2.1⟩
        · rw [show chainGood (.pdict (spec2dictCollPairs reg ps))
              = (decide (keysOf (spec2dictCollPairs reg ps)).Nodup
                 && chainGoodPairs (spec2dictCollPairs reg ps)) from by simp [chainGood]]
          rw [keysOf_spec2dictCollPairs]
          simp only [Bool.and_eq_true, decide_eq_true_eq]
          refine ⟨hvp.1, ?_⟩
          rw [chainGoodPairs_iff]
          exact fun p hp => (hsub p hp).2.2
      | pnone => simp [validVal] at hvv
      | pbool b2 => simp [validVal] at hvv
      | pint n => simp [validVal] at hvv
      | pstr s => simp [validVal] at hvv
      | pspec c f => simp [validVal] at hvv
    | primitive =>
      rw [hk] at hvv
      have hgc : goodJson v = true ∧ chainGood v = true := by
        rw [show validVal reg .primitive v = (goodJson v && chainGood v) from by
          simp [validVal]] at hvv
        simpa using hvv
      rw [spec2dictVal_primitive]
      exact hgc
    | collection =>
      rw [hk] at hvv
      have hgc : goodJson v = true ∧ chainGood v = true := by
        rw [show validVal reg .collection v = (goodJson v && chainGood v) from by
          simp [validVal]] at hvv
        simpa using hvv
      rw [spec2dictVal_collection]
      exact hgc
    | numeric =>
      rw [hk] at hvv
      have hgc : goodJson v = true ∧ chainGood v = true := by
        rw [show validVal reg .numeric v = (goodJson v && chainGood v) from by
          simp [validVal]] at hvv
        simpa using hvv
      rw [spec2dictVal_numeric]
      exact hgc
    | modelParam g =>
      rw [hk] at hvv
      have hgc : goodJson v = true ∧ chainGood v = true := by
        rw [show validVal reg (.modelParam g) v = (goodJson v && chainGood v) from by
          simp [validVal]] at hvv
        simpa using hvv
      rw [spec2dictVal_modelParam]
      exact hgc
  constructor
  · rw [inst2dict_eq, goodJson_pdict, goodJsonPairs_iff]
    intro p hp
    rcases List.mem_cons.1 hp with h1 | h1
    · rw [h1]
      refine ⟨(by decide : goodStr "type" = true), ?_⟩
      show goodJson (.pstr cls) = true
      rw [goodJson_pstr]
      exact hgoodc
    · rw [instFieldVals_eq hcd] at h1
      obtain ⟨n, hn, rfl⟩ := List.mem_map.1 h1
      obtain ⟨fd, hfd, rfl⟩ := mem_fieldNames hn
      exact ⟨hfgood fd hfd, (hentries fd hfd).1⟩
  · rw [inst2dict_eq]
    rw [show chainGood (.pdict (("type", PyVal.pstr cls)
        :: instFieldVals reg cls (spec2dictFields reg cls fs)))
        = (decide (keysOf (("type", PyVal.pstr cls)
             :: instFieldVals reg cls (spec2dictFields reg cls fs))).Nodup
           && chainGoodPairs (("type", PyVal.pstr cls)
             :: instFieldVals reg cls (spec2dictFields reg cls fs))) from by simp [chainGood]]
    simp only [Bool.and_eq_true, decide_eq_true_eq]
    constructor
    · rw [keysOf_cons, keysOf_instFieldVals hcd]
      exact List.nodup_cons.2 ⟨htype, hnodup⟩
    · rw [chainGoodPairs_iff]
      intro p hp
      rcases List.mem_cons.1 hp with h1 | h1
      · rw [h1]
        simp [chainGood]
      · rw [instFieldVals_eq hcd] at h1
        obtain ⟨n, hn, rfl⟩ := List.mem_map.1 h1
        obtain ⟨fd, hfd, rfl⟩ := mem_fieldNames hn
        exact (hentries fd hfd).2
termination_by sizeOf fs
decreasing_by
  all_goals omega

/-- `key2spec ∘ key` decomposes into the canonical-form resolution: the
leading slash is stripped, `json.loads` inverts `json.dumps`, and the
wrapper inversion yields the canonical form of the serialized dict. -/
theorem key2spec_pipeline (reg : Registry) (cls : String) (fs : List (String × PyVal))
    (hg : goodJson (dict2keyV (inst2dict reg cls fs)) = true)
    (hc : chainGood (inst2dict reg cls fs) = true) :
    key2spec reg (spec_key reg cls fs) = dict2spec reg (dictCanon (inst2dict reg cls fs)) := by
  have hdata : (spec_key reg cls fs).data
      = '/' :: (jdumps (dict2keyV (inst2dict reg cls fs))).data := by
    rw [spec_key, String.data_append]
    rfl
  have hs2 : (if (spec_key reg cls fs).data.head? = some '/'
      then String.mk (spec_key reg cls fs).data.tail else spec_key reg cls fs)
      = jdumps (dict2keyV (inst2dict reg cls fs)) := by
    rw [hdata]
    rw [if_pos (show ('/' :: (jdumps (dict2keyV (inst2dict reg cls fs))).data).head?
      = some '/' from rfl)]
    rfl
  simp only [key2spec]
  rw [hs2, jparse_jdumps _ hg]
  show (match key2dict (dict2keyV (inst2dict reg cls fs)) with
    | Except.error e => Except.error e
    | Except.ok j2 => dict2spec reg j2)
    = dict2spec reg (dictCanon (inst2dict reg cls fs))
  rw [key2dict_dict2keyV _ hc]

/-- `validFields` reads the attribute dict only through lookups. -/
theorem validFields_congr (reg : Registry) {fs1 fs2 : List (String × PyVal)}
    (h : ∀ n, pyGet fs1 n = pyGet fs2 n) :
    ∀ fds : List FieldDef, validFields reg fs1 fds = validFields reg fs2 fds
  | [] => by simp [validFields]
  | fd :: rest => by
    rw [show validFields reg fs1 (fd :: rest)
        = (validValOpt reg fd.kind (pyGet fs1 fd.name) && validFields reg fs1 rest) from by
      simp [validFields]]
    rw [show validFields reg fs2 (fd :: rest)
        = (validValOpt reg fd.kind (pyGet fs2 fd.name) && validFields reg fs2 rest) from by
      simp [validFields]]
    rw [h fd.name, validFields_congr reg h rest]

/-- Validity only depends on the attribute dict up to permutation: the order
in which the construction bound the fields is irrelevant. -/
theorem validInst_perm (reg : Registry) (cls : String) {fs fs' : List (String × PyVal)}
    (hperm : fs'.Perm fs) (hv : validInst reg cls fs = true) :
    validInst reg cls fs' = true := by
  rw [validInst] at hv ⊢
  cases hcd : lookupClass reg cls with
  | none =>
    rw [hcd] at hv
    exact Bool.noConfusion (show false = true from hv)
  | some cd =>
    rw [hcd] at hv
    simp only [Bool.and_eq_true, decide_eq_true_eq] at hv ⊢
    obtain ⟨⟨⟨hrest, hp⟩, hn⟩, hf⟩ := hv
    have hkn' : (keysOf fs').Nodup := ((hperm.map Prod.fst).nodup_iff).2 hn
    have hlook : ∀ n, pyGet fs' n = pyGet fs n := pyGet_perm hperm hkn'
    refine ⟨⟨⟨hrest, (hperm.map Prod.fst).trans hp⟩, hkn'⟩, ?_⟩
    rw [validFields_congr reg hlook]
    exact hf

/-- The composed round trip: `key2spec` of a valid instance's key rebuilds an
instance of the same class with the same canonical key. -/
theorem key2spec_spec_key (reg : Registry) (cls : String) (fs : List (String × PyVal))
    (hv : validInst reg cls fs = true) :
    ∃ fs2, key2spec reg (spec_key reg cls fs) = .ok (cls, fs2)
      ∧ spec_key reg cls fs2 = spec_key reg cls fs := by
  obtain ⟨hgj, hcg⟩ := inst2dict_goodChain reg cls fs hv
  obtain ⟨fs2, hok, hkeq⟩ := specRoundTripCanon reg cls fs hv
  refine ⟨fs2, ?_, ?_⟩
  · rw [key2spec_pipeline reg cls fs (goodJson_dict2keyV _ hgj) hcg, hok]
  · simp only [spec_key]
    rw [hkeq]

/-- Claim C1 (amended): for every Spec instance of a registered concrete Spec
subclass with JSON-representable field values whose Spec-typed fields each
hold an actual Spec sub-instance (the conditions `validInst` captures),
`key2spec` applied to the instance's canonical key succeeds and reconstructs
an instance of the same class whose canonical key equals the original's —
canonical-key equality being `Spec.__eq__` (base.py line 448) — regardless of
the order in which the fields were supplied at construction (the instance's
attribute dict may be replaced by any permutation of itself). -/
theorem c1_key_round_trip (reg : Registry) (cls : String)
    (fs fs' : List (String × PyVal)) (hv : validInst reg cls fs = true)
    (hperm : fs'.Perm fs) :
    ∃ fs2, key2spec reg (spec_key reg cls fs') = .ok (cls, fs2)
      ∧ spec_key reg cls fs2 = spec_key reg cls fs'
      ∧ spec_key reg cls fs' = spec_key reg cls fs := by
  have hv' : validInst reg cls fs' = true := validInst_perm reg cls hperm hv
  obtain ⟨cd, hcd, hname, hty, hgoodc, htype, hnodup, hfgood, hperm2, hknodup, hfields⟩ :=
    validInst_spec hv'
  obtain ⟨fs2, hok, hkeq⟩ := key2spec_spec_key reg cls fs' hv'
  exact ⟨fs2, hok, hkeq, spec_key_congr reg cls fs' fs (pyGet_perm hperm hknodup)⟩

/-- Witness: a loaded subclass `A` of `Spec` with one primitive field bound to
`3` satisfies the validity hypotheses, and its key round-trips. -/
theorem c1_key_round_trip_witness :
    validInst [⟨"A", "Spec", [⟨"x", FieldKind.primitive, Option.none, Option.none⟩], false⟩]
      "A" [("x", PyVal.pint 3)] = true
    ∧ ∃ fs2, key2spec
        [⟨"A", "Spec", [⟨"x", FieldKind.primitive, Option.none, Option.none⟩], false⟩]
        (spec_key [⟨"A", "Spec", [⟨"x", FieldKind.primitive, Option.none, Option.none⟩], false⟩]
          "A" [("x", PyVal.pint 3)]) = .ok ("A", fs2)
      ∧ spec_key [⟨"A", "Spec", [⟨"x", FieldKind.primitive, Option.none, Option.none⟩], false⟩]
          "A" fs2
        = spec_key [⟨"A", "Spec", [⟨"x", FieldKind.primitive, Option.none, Option.none⟩], false⟩]
          "A" [("x", PyVal.pint 3)]
      ∧ spec_key [⟨"A", "Spec", [⟨"x", FieldKind.primitive, Option.none, Option.none⟩], false⟩]
          "A" [("x", PyVal.pint 3)]
        = spec_key [⟨"A", "Spec", [⟨"x", FieldKind.primitive, Option.none, Option.none⟩], false⟩]
          "A" [("x", PyVal.pint 3)] := by
  have hval : validInst
      [⟨"A", "Spec", [⟨"x", FieldKind.primitive, Option.none, Option.none⟩], false⟩]
      "A" [("x", PyVal.pint 3)] = true := by
    simp [validInst, lookupClass, isSubclass, isSubclassAux, fieldNames, keysOf,
      validFields, validValOpt, validVal, pyGet, goodStr, goodChar, check_valid_value,
      PyVal.isNone, goodJson, chainGood, chainGoodPairs, List.find?]
  exact ⟨hval, c1_key_round_trip _ "A" _ _ hval (List.Perm.refl _)⟩

/-- Claim C1 counterexample: explicitly passing `None` for a Spec-typed field
constructs successfully (`__init__` skips validation on `None`, base.py line
281) and the instance's dict form is JSON-representable, yet `key2spec` of
its key fails: `_from_dict` unconditionally calls `Spec.dict2spec` on the
stored value of every `BaseSpecField` (base.py line 463), and
`dict2spec(None)` evaluates `None['type']`, raising TypeError (base.py line
433) — so the round trip the claim asserts for every instance with
JSON-representable field values does not hold. -/
theorem c1_counterexample :
    specConstruct
      [⟨"A", "Spec", [⟨"s", FieldKind.baseSpec Option.none, Option.none, Option.none⟩], false⟩]
      ⟨"A", "Spec", [⟨"s", FieldKind.baseSpec Option.none, Option.none, Option.none⟩], false⟩
      [] [("s", PyVal.pnone)] = .ok ("A", [("s", PyVal.pnone)])
    ∧ goodJson (inst2dict
        [⟨"A", "Spec", [⟨"s", FieldKind.baseSpec Option.none, Option.none, Option.none⟩], false⟩]
        "A" [("s", PyVal.pnone)]) = true
    ∧ key2spec
        [⟨"A", "Spec", [⟨"s", FieldKind.baseSpec Option.none, Option.none, Option.none⟩], false⟩]
        (spec_key
          [⟨"A", "Spec", [⟨"s", FieldKind.baseSpec Option.none, Option.none, Option.none⟩],
            false⟩]
          "A" [("s", PyVal.pnone)]) = .error .typeSubscriptError := by
  refine ⟨?_, ?_, ?_⟩
  · simp [specConstruct, maxNargs, pos2nameOf, applyPositionalAux, applyDefaults, checkValues,
      check_valid_value, checkExtraParams, fieldNames, pyGet, keysOf, Except.bind, Except.map,
      PyVal.isNone]
  · simp [inst2dict, instFieldVals, lookupClass, List.find?, fieldNames, spec2dictFields,
      fieldKindOf, getattrV, pyGet, spec2dictVal, goodJson, goodJsonPairs, goodStr, goodChar]
  · have hD : inst2dict
        [⟨"A", "Spec", [⟨"s", FieldKind.baseSpec Option.none, Option.none, Option.none⟩], false⟩]
        "A" [("s", PyVal.pnone)]
        = .pdict [("type", .pstr "A"), ("s", .pnone)] := by
      simp [inst2dict, instFieldVals, lookupClass, List.find?, fieldNames, spec2dictFields,
        fieldKindOf, getattrV, pyGet, spec2dictVal]
    have hg : goodJson (dict2keyV (inst2dict
        [⟨"A", "Spec", [⟨"s", FieldKind.baseSpec Option.none, Option.none, Option.none⟩], false⟩]
        "A" [("s", PyVal.pnone)])) = true := by
      rw [hD]
      simp [dict2keyV, dict2key, dict2keyPairs, sortPairs, insertPair, goodJson, goodJsonPairs,
        goodJsonList, goodStr, goodChar]
    have hc : chainGood (inst2dict
        [⟨"A", "Spec", [⟨"s", FieldKind.baseSpec Option.none, Option.none, Option.none⟩], false⟩]
        "A" [("s", PyVal.pnone)]) = true := by
      rw [hD]
      simp [chainGood, chainGoodPairs, keysOf]
    rw [key2spec_pipeline _ "A" [("s", PyVal.pnone)] hg hc, hD]
    rw [dictCanon_pdict, dictCanonPairs_eq_mapVal, dict2spec_pdict]
    have hnd : (keysOf [("type", PyVal.pstr "A"), ("s", PyVal.pnone)]).Nodup := by decide
    have hget : ∀ n, pyGet (mapVal dictCanon
        (sortPairs [("type", PyVal.pstr "A"), ("s", PyVal.pnone)])) n
        = (pyGet [("type", PyVal.pstr "A"), ("s", PyVal.pnone)] n).map dictCanon := by
      intro n
      rw [pyGet_mapVal, pyGet_perm (sortPairs_perm _)
        (((sortPairs_perm _).map Prod.fst).nodup_iff.2 hnd) n]
    rw [show pyGet (mapVal dictCanon
        (sortPairs [("type", PyVal.pstr "A"), ("s", PyVal.pnone)])) "type"
        = some (PyVal.pstr "A") from by
      rw [hget "type", show pyGet [("type", PyVal.pstr "A"), ("s", PyVal.pnone)] "type"
        = some (PyVal.pstr "A") from by simp [pyGet]]
      rw [Option.map_some', dictCanon_pstr]]
    rw [resolveType_pstr (show type2spec_class
      [⟨"A", "Spec", [⟨"s", FieldKind.baseSpec Option.none, Option.none, Option.none⟩], false⟩]
      "A" = some ⟨"A", "Spec", [⟨"s", FieldKind.baseSpec Option.none, Option.none, Option.none⟩],
        false⟩ from rfl)]
    simp only [Except.bind]
    have hs : pyGet (removeKey (mapVal dictCanon
        (sortPairs [("type", PyVal.pstr "A"), ("s", PyVal.pnone)])) "type") "s"
        = some PyVal.pnone := by
      rw [pyGet_removeKey _ _ _ (by decide), hget "s",
        show pyGet [("type", PyVal.pstr "A"), ("s", PyVal.pnone)] "s"
          = some PyVal.pnone from by simp [pyGet]]
      rw [Option.map_some', dictCanon_pnone]
    simp [_from_dict, fromDictUpdates, combineUpd, dict2specOpt, hs, dict2spec, Except.bind]

end Fito
